import Mathlib

/-! NACHA file library: embedding and verified properties

A shallow embedding of the Go package `nacha` (`util.go`, `entry.go`,
`batch.go`, `file.go`).

Modelling conventions.

* A byte is a natural number (its value, below 256); a `[]byte` is a list of
  bytes whose capacity equals its length (every record the loader builds is
  allocated with `make([]byte, len(d))`).
* The Go values are trees: a file owns its batches, a batch owns its entries,
  an entry owns its records, and no buffer is shared.  Pointers are therefore
  replaced by values, and a mutating method returns the updated value.
* A run-time panic (index or slice out of range, explicit `panic(err)`) is the
  result `Fault.panic`; a returned `error` is one of the other faults.
* The program runs on a 64-bit platform: `int` has 64 bits.  The `int` totals
  of debits and credits are two's-complement values, and every addition to
  them wraps around (`wrap64`); an amount field such as `1e300` adds the
  smallest `int`, so two entries are enough for a wrap-around.
* The counts (sums of slice lengths) are natural numbers and the `int64`
  entry-hash accumulators are unbounded integers, without wrap-around: a count
  is bounded by the number of records in memory, and an entry adds less than
  `10^8` in absolute value to a hash whatever its field holds, so a
  wrap-around of either needs more than `9 * 10^10` records in memory.  Where
  a theorem needs an entry count in the range of `int` it says so
  (`Batch.InRange`).
* A `float64` value is a finite double (the rational it denotes), an infinity
  or NaN (`Float64`).  Every arithmetic operation rounds its exact result to
  the nearest double, ties to even (`F64.round`), and overflows to an infinity.
  The sign of zero is not represented: the program multiplies by `-1`, `100`
  and `-100`, divides by `100`, adds or subtracts `0.005`, compares with zero
  and converts to `int`, and `-0` behaves as `0` in each of these.
* The conversion `int(x)` of a float that `int64` cannot hold (too large,
  infinite or NaN) is implementation-dependent in Go; the model takes the
  result on amd64, the smallest `int64`.
* `strconv.ParseFloat` is modelled in full (`parseFloat`): decimal and
  hexadecimal numerals with sign, fraction, exponent and underscores, `inf`,
  `infinity` and `nan`, correctly rounded, with a range error on overflow.
* The writer is an in-memory byte buffer that never fails.
-/

namespace Nacha

/-! ## Faults -/

/-- The errors `LoadNachaFile` constructs with `errors.New`. -/
inductive LoadErr where
  /-- Message "Multiple File Header Records found." -/
  | multipleFileHeader
  /-- Message "Found new batch before the close of batch %d." -/
  | newBatchBeforeClose (n : Nat)
  /-- Message "Found Entry Detail Record before Batch Header Record." -/
  | entryBeforeBatchHeader
  /-- Message "Found Entry Detail Addenda Record before Batch Header Record." -/
  | addendaBeforeBatchHeader
  /-- Message "Found Entry Detail Addenda Record before Entry Detail Record." -/
  | addendaBeforeEntry
  /-- Message "Found Batch Control Record before Batch Header Record." -/
  | controlBeforeBatchHeader
  /-- Message "Multiple Batch Control Records found for batch %d" -/
  | multipleBatchControl (n : Nat)
  /-- Message "Invalid Nacha Record Type Code. Record: %q" -/
  | invalidTypeCode (data : List Nat)
  deriving DecidableEq, Repr

/-- How a call can end abnormally. -/
inductive Fault where
  /-- A run-time panic. -/
  | panic
  /-- The error value returned by `strconv.ParseFloat`. -/
  | parse
  /-- An error returned by the loader. -/
  | load (e : LoadErr)
  deriving DecidableEq, Repr

deriving instance DecidableEq for Except

/-- The bytes of an ASCII string. -/
def ascii (s : String) : List Nat := s.toList.map Char.toNat

/-- Decimal rendering of a natural number, as `%d` prints it. -/
def natToString (n : Nat) : String := toString n

/-- The text of a loader error.  For `invalidTypeCode` only the fixed part of the
message is rendered; the quoted record (`%q`) is carried by the constructor. -/
def LoadErr.message : LoadErr → String
  | .multipleFileHeader => "Multiple File Header Records found."
  | .newBatchBeforeClose n => "Found new batch before the close of batch " ++ natToString n ++ "."
  | .entryBeforeBatchHeader => "Found Entry Detail Record before Batch Header Record."
  | .addendaBeforeBatchHeader => "Found Entry Detail Addenda Record before Batch Header Record."
  | .addendaBeforeEntry => "Found Entry Detail Addenda Record before Entry Detail Record."
  | .controlBeforeBatchHeader => "Found Batch Control Record before Batch Header Record."
  | .multipleBatchControl n => "Multiple Batch Control Records found for batch " ++ natToString n
  | .invalidTypeCode _ => "Invalid Nacha Record Type Code. Record: "

/-! ## Go primitives -/

/-- The index expression `xs[i]`: panics when `i` is out of range. -/
def index {α : Type} (xs : List α) (i : Nat) : Except Fault α :=
  match xs.get? i with
  | some x => .ok x
  | none => .error .panic

/-- The slice expression `s[lo:hi]` on a slice whose capacity is its length. -/
def slice (s : List Nat) (lo hi : Nat) : Except Fault (List Nat) :=
  if lo ≤ hi ∧ hi ≤ s.length then .ok ((s.drop lo).take (hi - lo)) else .error .panic

/-- The buffer `dst` after `copy(dst[k:], src)`, for `k ≤ len dst`: the bytes from
position `k` on are replaced by those of `src`, as many as fit. -/
def overwrite (dst : List Nat) (k : Nat) (src : List Nat) : List Nat :=
  dst.take k ++ src.take (dst.length - k) ++ dst.drop (k + src.length)

/-- The statement `copy(dst[k:], src)`: the slice expression panics when `k`
exceeds the length; `copy` then overwrites `min (len dst - k) (len src)` bytes. -/
def copyAt (dst : List Nat) (k : Nat) (src : List Nat) : Except Fault (List Nat) :=
  if k ≤ dst.length then .ok (overwrite dst k src) else .error .panic

/-- The `w` low-order decimal digits of `n` as ASCII, most significant first. -/
def lastDigits : Nat → Nat → List Nat
  | 0, _ => []
  | w + 1, n => lastDigits w (n / 10) ++ [48 + n % 10]

/-- Number of decimal digits of `n` (one for zero), by recursion on the fuel. -/
def numDigitsAux : Nat → Nat → Nat
  | 0, _ => 1
  | f + 1, n => if n < 10 then 1 else numDigitsAux f (n / 10) + 1

/-- Number of decimal digits of `n`; `numDigits 0 = 1`. -/
def numDigits (n : Nat) : Nat := numDigitsAux n n

/-- The result of `fmt.Sprintf("%0wd", n)`: the decimal digits of `n` padded on
the left with zeros to at least `w` characters, a minus sign counting towards
the width. -/
def sprintf0 (w : Nat) (n : Int) : List Nat :=
  if 0 ≤ n then lastDigits (max w (numDigits n.toNat)) n.toNat
  else 45 :: lastDigits (max (w - 1) (numDigits (-n).toNat)) (-n).toNat

/-- The last `k` bytes `s[len(s)-k:]`; panics when `s` is shorter than `k`. -/
def lastBytes (s : List Nat) (k : Nat) : Except Fault (List Nat) :=
  if k ≤ s.length then .ok (s.drop (s.length - k)) else .error .panic

/-- Value of a non-empty string of ASCII decimal digits; `none` on any other
string. -/
def decValue (s : List Nat) : Option Nat :=
  if s = [] then none
  else s.foldl (fun acc c =>
    match acc with
    | some a => if 48 ≤ c ∧ c ≤ 57 then some (a * 10 + (c - 48)) else none
    | none => none) (some 0)

/-- The call `strconv.ParseInt(s, 10, 64)`: an optional sign followed by decimal
digits, in the range of `int64`; `none` when it returns an error. -/
def parseInt (s : List Nat) : Option Int :=
  match s with
  | [] => none
  | c :: rest =>
    if c = 43 then
      match decValue rest with
      | some u => if u < 2 ^ 63 then some (u : Int) else none
      | none => none
    else if c = 45 then
      match decValue rest with
      | some u => if u ≤ 2 ^ 63 then some (-(u : Int)) else none
      | none => none
    else
      match decValue s with
      | some u => if u < 2 ^ 63 then some (u : Int) else none
      | none => none

/-! ## Double-precision arithmetic -/

namespace F64

/-- Nearest integer, ties to the even one. -/
def roundHalfEven (q : ℚ) : ℤ :=
  if q - ⌊q⌋ < 1 / 2 then ⌊q⌋
  else if 1 / 2 < q - ⌊q⌋ then ⌊q⌋ + 1
  else if ⌊q⌋ % 2 = 0 then ⌊q⌋ else ⌊q⌋ + 1

/-- Binary exponent of the unit in the last place of the double nearest `x`
(53-bit significand, subnormals below `2^-1022`). -/
def ulpExp (x : ℚ) : ℤ := max (Int.log 2 |x|) (-1022) - 52

/-- Round to the nearest double, ties to even (finite range). -/
def round (x : ℚ) : ℚ :=
  if x = 0 then 0 else (roundHalfEven (x / (2 : ℚ) ^ ulpExp x) : ℚ) * (2 : ℚ) ^ ulpExp x

/-- Addition of finite doubles, when the result is finite. -/
def add (a b : ℚ) : ℚ := round (a + b)

/-- Subtraction of finite doubles, when the result is finite. -/
def sub (a b : ℚ) : ℚ := round (a - b)

/-- Multiplication of finite doubles, when the result is finite. -/
def mul (a b : ℚ) : ℚ := round (a * b)

/-- Division of finite doubles, when the result is finite. -/
def div (a b : ℚ) : ℚ := round (a / b)

/-- Truncation towards zero. -/
def toInt (x : ℚ) : ℤ := if 0 ≤ x then ⌊x⌋ else ⌈x⌉

/-- The constant `0.005` as a double. -/
def half_cent : ℚ := round (5 / 1000)

end F64

namespace F64

/-- The largest finite double, `(2^53 - 1) * 2^971`. -/
def maxFinite : ℚ := (2 ^ 53 - 1) * 2 ^ 971

end F64

/-- A `float64` value: a finite double, given by the rational it denotes, an
infinity (negative when `neg` is set) or NaN. -/
inductive Float64 where
  | fin (q : ℚ)
  | inf (neg : Bool)
  | nan
  deriving DecidableEq

namespace Float64

instance : Coe ℚ Float64 := ⟨Float64.fin⟩

/-- The double an operation returns whose exact result is `x`: the nearest
double, or an infinity when that exceeds the largest finite double. -/
def ofRat (x : ℚ) : Float64 :=
  if F64.maxFinite < |F64.round x| then inf (decide (x < 0)) else fin (F64.round x)

/-- Float addition. -/
def add : Float64 → Float64 → Float64
  | fin a, fin b => ofRat (a + b)
  | fin _, inf t => inf t
  | inf s, fin _ => inf s
  | inf s, inf t => if s = t then inf s else nan
  | nan, _ => nan
  | _, nan => nan

/-- Float subtraction. -/
def sub : Float64 → Float64 → Float64
  | fin a, fin b => ofRat (a - b)
  | fin _, inf t => inf (!t)
  | inf s, fin _ => inf s
  | inf s, inf t => if s = t then nan else inf s
  | nan, _ => nan
  | _, nan => nan

/-- Float multiplication. -/
def mul : Float64 → Float64 → Float64
  | fin a, fin b => ofRat (a * b)
  | fin a, inf t => if a = 0 then nan else inf (xor (decide (a < 0)) t)
  | inf s, fin b => if b = 0 then nan else inf (xor s (decide (b < 0)))
  | inf s, inf t => inf (xor s t)
  | nan, _ => nan
  | _, nan => nan

/-- Float division.  The program divides by the constant `100` only; a division
by zero, whose result depends on the sign of the zero, is given the result for
the positive zero. -/
def div : Float64 → Float64 → Float64
  | fin a, fin b =>
    if b = 0 then (if a = 0 then nan else inf (decide (a < 0))) else ofRat (a / b)
  | fin _, inf _ => fin 0
  | inf s, fin b => inf (xor s (decide (b < 0)))
  | inf _, inf _ => nan
  | nan, _ => nan
  | _, nan => nan

/-- The comparison `x < 0`; false for NaN. -/
def isNeg : Float64 → Bool
  | fin q => decide (q < 0)
  | inf s => s
  | nan => false

/-- The conversion `int(x)`: truncation towards zero when the result is in the
range of `int64`; otherwise, and for an infinity or NaN, the smallest `int64`
(the result on amd64; Go leaves it implementation-dependent). -/
def toInt : Float64 → ℤ
  | fin q => if -(2 ^ 63) ≤ F64.toInt q ∧ F64.toInt q < 2 ^ 63 then F64.toInt q else -(2 ^ 63)
  | inf _ => -(2 ^ 63)
  | nan => -(2 ^ 63)

end Float64

/-! ## `strconv.ParseFloat` -/

/-- Go `lower`: `c | ('x' - 'X')`. -/
def lower (c : Nat) : Nat := c ||| 32

/-- Go `commonPrefixLenIgnoreCase(s, prefix)` for a lower-case `prefix`: the
length of the longest prefix of `s` that equals one of `prefix` when the letters
A to Z are read as a to z. -/
def commonPrefixLenIgnoreCase : List Nat → List Nat → Nat
  | c :: s, p :: ps =>
    if (if 65 ≤ c ∧ c ≤ 90 then c + 32 else c) = p then commonPrefixLenIgnoreCase s ps + 1
    else 0
  | _, _ => 0

/-- The case `'i', 'I'` of Go `special`, reached directly or after a sign: the
infinity and the number of bytes read, `nsign` counting the sign. -/
def specialInf (neg : Bool) (nsign : Nat) (s : List Nat) : Option (Float64 × Nat) :=
  let n := commonPrefixLenIgnoreCase s [105, 110, 102, 105, 110, 105, 116, 121]
  let n := if 3 < n ∧ n < 8 then 3 else n
  if n = 3 ∨ n = 8 then some (Float64.inf neg, nsign + n) else none

/-- Go `special`: the spellings of the infinities and of NaN at the start of
`s`, with the number of bytes read. -/
def special (s : List Nat) : Option (Float64 × Nat) :=
  match s with
  | [] => none
  | c :: rest =>
    if c = 43 ∨ c = 45 then specialInf (decide (c = 45)) 1 rest
    else if c = 105 ∨ c = 73 then specialInf false 0 s
    else if c = 110 ∨ c = 78 then
      if commonPrefixLenIgnoreCase s [110, 97, 110] = 3 then some (Float64.nan, 3) else none
    else none

/-- The variables of the mantissa loop of Go `readFloat`: the digits read after
the leading zeros as a number (`m`, all of them: the source keeps 19 and lets
its slow path read the rest), their count `nd`, the position `dp` of the point,
and the flags. -/
structure MantState where
  m : Nat
  nd : Nat
  dp : Int
  sawdot : Bool
  sawdigits : Bool
  underscores : Bool
  deriving DecidableEq, Repr

/-- The mantissa loop of Go `readFloat`, in base 16 when `hex` is set: the state
when the loop ends, and the input from the byte that ended it. -/
def readDigits (hex : Bool) : List Nat → MantState → MantState × List Nat
  | [], st => (st, [])
  | c :: cs, st =>
    if c = 95 then readDigits hex cs { st with underscores := true }
    else if c = 46 then
      if st.sawdot then (st, c :: cs)
      else readDigits hex cs { st with sawdot := true, dp := st.nd }
    else if 48 ≤ c ∧ c ≤ 57 then
      if c = 48 ∧ st.nd = 0 then
        readDigits hex cs { st with sawdigits := true, dp := st.dp - 1 }
      else
        readDigits hex cs { st with sawdigits := true, nd := st.nd + 1,
                                    m := st.m * (if hex then 16 else 10) + (c - 48) }
    else if hex = true ∧ 97 ≤ lower c ∧ lower c ≤ 102 then
      readDigits hex cs { st with sawdigits := true, nd := st.nd + 1,
                                  m := st.m * 16 + (lower c - 97 + 10) }
    else (st, c :: cs)

/-- The exponent loop of Go `readFloat`: digits and underscores; the exponent
stops growing at 10000. -/
def readExpDigits : List Nat → Nat → Bool → Nat × Bool × List Nat
  | [], e, u => (e, u, [])
  | c :: cs, e, u =>
    if c = 95 then readExpDigits cs e true
    else if 48 ≤ c ∧ c ≤ 57 then
      readExpDigits cs (if e < 10000 then e * 10 + (c - 48) else e) u
    else (e, u, c :: cs)

/-- The loop of Go `underscoreOK`; `saw` is the class of the last byte seen. -/
def underscoreOKLoop (hex : Bool) : List Nat → Nat → Bool
  | [], saw => saw != 95
  | c :: cs, saw =>
    if (48 ≤ c ∧ c ≤ 57) ∨ (hex = true ∧ 97 ≤ lower c ∧ lower c ≤ 102) then
      underscoreOKLoop hex cs 48
    else if c = 95 then (if saw != 48 then false else underscoreOKLoop hex cs 95)
    else if saw = 95 then false
    else underscoreOKLoop hex cs 33

/-- The string after its sign `+` or `-`, if it has one. -/
def dropSign (s : List Nat) : List Nat :=
  match s with
  | [] => []
  | c :: t => if c = 43 ∨ c = 45 then t else c :: t

/-- Go `underscoreOK`: underscores stand only between digits, or between a base
prefix and a digit. -/
def underscoreOK (s : List Nat) : Bool :=
  match dropSign s with
  | 48 :: c :: t =>
    if lower c = 98 ∨ lower c = 111 ∨ lower c = 120 then
      underscoreOKLoop (decide (lower c = 120)) t 48
    else underscoreOKLoop false (48 :: c :: t) 94
  | s1 => underscoreOKLoop false s1 94

/-- The end of Go `readFloat` followed by the test of `ParseFloat` that the
whole string was read: the exact value of the numeral, `none` for a syntax
error.  `e` is the signed exponent, `rest` the input not read. -/
def finishFloat (s : List Nat) (neg hex : Bool) (st : MantState) (e : Int)
    (underscores : Bool) (rest : List Nat) : Option ℚ :=
  if rest ≠ [] then none
  else if underscores = true ∧ underscoreOK s = false then none
  else
    let dp : Int := if st.sawdot then st.dp else st.nd
    let v : ℚ :=
      if hex then (st.m : ℚ) * (2 : ℚ) ^ (dp * 4 + e - (st.nd : Int) * 4)
      else (st.m : ℚ) * (10 : ℚ) ^ (dp + e - (st.nd : Int))
    some (if neg then -v else v)

/-- Go `readFloat` on a string that `ParseFloat` must read to its end: sign,
optional prefix `0x`, mantissa, exponent (`e` for a decimal numeral, `p`,
required, for a hexadecimal one).  The result is the exact value. -/
def readFloat (s : List Nat) : Option ℚ :=
  let neg := decide (s.head? = some 45)
  let s1 := dropSign s
  let hex := decide (2 < s1.length ∧ s1.head? = some 48 ∧ (s1.get? 1).map lower = some 120)
  let r := readDigits hex (if hex then s1.drop 2 else s1)
    { m := 0, nd := 0, dp := 0, sawdot := false, sawdigits := false, underscores := false }
  if r.1.sawdigits = false then none
  else
    match r.2 with
    | [] => if hex then none else finishFloat s neg hex r.1 0 r.1.underscores []
    | c :: t =>
      if lower c = (if hex then 112 else 101) then
        let esign : Int := if t.head? = some 45 then -1 else 1
        let t1 := dropSign t
        match t1 with
        | [] => none
        | d :: _ =>
          if 48 ≤ d ∧ d ≤ 57 then
            let x := readExpDigits t1 0 r.1.underscores
            finishFloat s neg hex r.1 (esign * (x.1 : Int)) x.2.1 x.2.2
          else none
      else if hex then none
      else finishFloat s neg hex r.1 0 r.1.underscores (c :: t)

/-- The call `strconv.ParseFloat(s, 64)`: `none` when it returns an error (a
syntax error, or a range error when the nearest double is not finite), the
double otherwise, which is the one nearest the value written. -/
def parseFloat (s : List Nat) : Option Float64 :=
  match special s with
  | some (v, n) => if n = s.length then some v else none
  | none =>
    match readFloat s with
    | none => none
    | some x =>
      if F64.maxFinite < |F64.round x| then none else some (Float64.fin (F64.round x))

/-- The call `bytes.Trim(s, " ")`. -/
def trimSpaces (s : List Nat) : List Nat :=
  ((s.dropWhile (fun c => c == 32)).reverse.dropWhile (fun c => c == 32)).reverse

/-- Source `parseCurrency`: copy the bytes other than commas, trim spaces on both
sides, parse as a float. -/
def parseCurrency (value : List Nat) : Option Float64 :=
  parseFloat (trimSpaces (value.filter (fun chr => chr != 44)))

/-! ## Entries (`entry.go`) -/

/-- Source `Entry`: the detail record followed by its addenda records, and the
removal flag. -/
structure Entry where
  data : List (List Nat)
  Remove : Bool
  deriving DecidableEq, Repr

/-- Source `Entry.hash`: the field `data[0][3:11]` read with `ParseInt`; an error
is turned into a panic. -/
def Entry.hash (e : Entry) : Except Fault Int := do
  let d0 ← index e.data 0
  let field ← slice d0 3 11
  match parseInt field with
  | some h => pure h
  | none => throw Fault.panic

/-- The transaction codes of the `case` list in `postAmt`. -/
def creditCodes : List (List Nat) :=
  [ascii "21", ascii "22", ascii "23", ascii "24", ascii "31", ascii "32", ascii "33",
   ascii "34", ascii "41", ascii "42", ascii "43", ascii "44", ascii "51", ascii "52",
   ascii "53", ascii "54"]

/-- Source `Entry.postAmt`. -/
def Entry.postAmt (e : Entry) : Except Fault Float64 := do
  let d0 ← index e.data 0
  let value ← slice d0 29 39
  let code ← slice d0 1 3
  let credit := decide (code ∈ creditCodes)
  match parseCurrency value with
  | none => throw Fault.parse
  | some amt =>
    let amt := if credit then Float64.mul amt (Float64.fin (-1)) else amt
    pure (Float64.div amt (Float64.fin 100))

/-! ## Batches (`batch.go`) -/

/-- Source `Batch`. -/
structure Batch where
  header : List Nat
  Entries : List Entry
  control : List Nat
  deriving DecidableEq, Repr

/-- The loop of `Batch.isEmpty`. -/
def isEmptyLoop : List Entry → Bool
  | [] => true
  | e :: es => if e.Remove = false then false else isEmptyLoop es

/-- Source `Batch.isEmpty`. -/
def Batch.isEmpty (b : Batch) : Bool := isEmptyLoop b.Entries

/-- Source `Batch.setNumber`. -/
def Batch.setNumber (b : Batch) (num : Int) : Except Fault Batch := do
  let strNum := sprintf0 7 num
  let header ← copyAt b.header 87 strNum
  let control ← copyAt b.control 87 strNum
  pure { b with header := header, control := control }

/-- Source `Batch.entryCount`. -/
def Batch.entryCount (b : Batch) : Nat :=
  b.Entries.foldl (fun eCount entry =>
    if entry.Remove = false then eCount + entry.data.length else eCount) 0

/-- The value an `int` variable (64 bits, two's complement) holds after an
addition whose exact result is `x`. -/
def wrap64 (x : Int) : Int := (x + 2 ^ 63) % 2 ^ 64 - 2 ^ 63

/-- One iteration of the loop of `debitCreditTotals`; the pair is
`(debitTot, creditTot)`. -/
def debitCreditStep (tot : Int × Int) (entry : Entry) : Except Fault (Int × Int) :=
  if entry.Remove then pure tot
  else
    match entry.postAmt with
    | .error _ => throw Fault.panic
    | .ok amt =>
      if amt.isNeg then
        pure (tot.1, wrap64 (tot.2 + Float64.toInt
          (Float64.mul (Float64.sub amt (Float64.fin F64.half_cent)) (Float64.fin (-100)))))
      else
        pure (wrap64 (tot.1 + Float64.toInt
          (Float64.mul (Float64.add amt (Float64.fin F64.half_cent)) (Float64.fin 100))), tot.2)

/-- Source `Batch.debitCreditTotals`. -/
def Batch.debitCreditTotals (b : Batch) : Except Fault (Int × Int) :=
  b.Entries.foldlM debitCreditStep (0, 0)

/-- One iteration of the entry-hash loops. -/
def hashStep (entryHash : Int) (entry : Entry) : Except Fault Int :=
  if entry.Remove = false then do
    let h ← entry.hash
    pure (entryHash + h)
  else pure entryHash

/-- Source `Batch.setControlTotals`. -/
def Batch.setControlTotals (b : Batch) : Except Fault Batch := do
  let c1 ← copyAt b.control 4 (sprintf0 6 b.entryCount)
  let (debitTot, creditTot) ← b.debitCreditTotals
  let c2 ← copyAt c1 20 (sprintf0 12 debitTot)
  let c3 ← copyAt c2 32 (sprintf0 12 creditTot)
  let entryHash ← b.Entries.foldlM hashStep 0
  let strEHash := sprintf0 10 entryHash
  let tail ← lastBytes strEHash 10
  let c4 ← copyAt c3 10 tail
  pure { b with control := c4 }

/-! ## Files (`file.go`) -/

/-- Source `NachaFile`. -/
structure NachaFile where
  name : String
  header : List Nat
  Batches : List Batch
  control : List (List Nat)
  crlf : Bool
  renumber : Bool
  deriving DecidableEq, Repr

/-- Source `DisableCrlf`. -/
def NachaFile.DisableCrlf (nf : NachaFile) : NachaFile := { nf with crlf := false }

/-- Source `EnableCrlf`. -/
def NachaFile.EnableCrlf (nf : NachaFile) : NachaFile := { nf with crlf := true }

/-- Source `DisableBatchRenumber`. -/
def NachaFile.DisableBatchRenumber (nf : NachaFile) : NachaFile := { nf with renumber := false }

/-- Source `EnableBatchRenumber`. -/
def NachaFile.EnableBatchRenumber (nf : NachaFile) : NachaFile := { nf with renumber := true }

/-- The running totals of the first loop of `NachaFile.setControlTotals`. -/
structure FileTotals where
  bCount : Nat
  eCount : Nat
  debitTot : Int
  creditTot : Int
  deriving DecidableEq, Repr

/-- One iteration of the first loop of `NachaFile.setControlTotals`. -/
def fileTotalsStep (t : FileTotals) (batch : Batch) : Except Fault FileTotals :=
  let c := batch.entryCount
  if c = 0 then pure t
  else do
    let (dTot, cTot) ← batch.debitCreditTotals
    pure { bCount := t.bCount + 1, eCount := t.eCount + c,
           debitTot := wrap64 (t.debitTot + dTot), creditTot := wrap64 (t.creditTot + cTot) }

/-- One iteration of the outer entry-hash loop of `NachaFile.setControlTotals`. -/
def fileHashStep (entryHash : Int) (batch : Batch) : Except Fault Int :=
  batch.Entries.foldlM hashStep entryHash

/-- Source `NachaFile.setControlTotals`. -/
def NachaFile.setControlTotals (nf : NachaFile) : Except Fault NachaFile := do
  let t ← nf.Batches.foldlM fileTotalsStep { bCount := 0, eCount := 0, debitTot := 0, creditTot := 0 }
  let c0 ← index nf.control 0
  let c1 ← copyAt c0 1 (sprintf0 6 t.bCount)
  let c2 ← copyAt c1 13 (sprintf0 8 t.eCount)
  let c3 ← copyAt c2 31 (sprintf0 12 t.debitTot)
  let c4 ← copyAt c3 43 (sprintf0 12 t.creditTot)
  let records := 1 + t.bCount * 2 + t.eCount + nf.control.length
  let blocks := (records + 9) / 10
  let c5 ← copyAt c4 7 (sprintf0 6 blocks)
  let entryHash ← nf.Batches.foldlM fileHashStep 0
  let strEHash := sprintf0 10 entryHash
  let tail ← lastBytes strEHash 10
  let c6 ← copyAt c5 21 tail
  pure { nf with control := c6 :: nf.control.tail }

/-- The state of `Write`: the bytes handed to the buffered writer so far, and
the local variables `records` and `batchNum`. -/
structure WriteState where
  out : List Nat
  records : Nat
  batchNum : Nat
  deriving DecidableEq, Repr

/-- The bytes of the string constant `crlf`. -/
def crlfBytes : List Nat := [13, 10]

/-- The recurring block `bw.Write(data); records++; if nf.crlf { bw.WriteString(crlf) }`. -/
def writeRecord (crlf : Bool) (st : WriteState) (data : List Nat) : WriteState :=
  { st with out := st.out ++ data ++ (if crlf then crlfBytes else []),
            records := st.records + 1 }

/-- The two inner loops of `Write`: every record of every entry that is not
removed. -/
def writeEntries (crlf : Bool) (st : WriteState) (entries : List Entry) : WriteState :=
  entries.foldl (fun st entry =>
    if entry.Remove then st else entry.data.foldl (writeRecord crlf) st) st

/-- One iteration of the batch loop of `Write`; returns the batch as the
iteration leaves it. -/
def writeBatch (crlf renumber : Bool) (st : WriteState) (batch : Batch) :
    Except Fault (Batch × WriteState) :=
  if batch.isEmpty then pure (batch, st)
  else do
    let (b1, st1) ←
      if renumber then do
        let b1 ← batch.setNumber ((st.batchNum + 1 : Nat) : Int)
        pure (b1, { st with batchNum := st.batchNum + 1 })
      else pure (batch, st)
    let b2 ← b1.setControlTotals
    let st2 := writeRecord crlf st1 b2.header
    let st3 := writeEntries crlf st2 b2.Entries
    let st4 := writeRecord crlf st3 b2.control
    pure (b2, st4)

/-- The batch loop of `Write`. -/
def writeBatches (crlf renumber : Bool) :
    WriteState → List Batch → Except Fault (List Batch × WriteState)
  | st, [] => pure ([], st)
  | st, batch :: rest => do
    let (b, st1) ← writeBatch crlf renumber st batch
    let (bs, st2) ← writeBatches crlf renumber st1 rest
    pure (b :: bs, st2)

/-- The filler record `bytes.Repeat([]byte("9"), 94)`. -/
def fillerRecord : List Nat := List.replicate 94 57

/-- The filler loop of `Write`: `x` counts up to `filler`; `records` is not
incremented. -/
def writeFiller (crlf : Bool) : Nat → List Nat → List Nat
  | 0, out => out
  | x + 1, out => writeFiller crlf x (out ++ fillerRecord ++ (if crlf then crlfBytes else []))

/-- Source `NachaFile.Write`: returns the file as the call leaves it and the
bytes written. -/
def NachaFile.Write (nf : NachaFile) : Except Fault (NachaFile × List Nat) := do
  let st0 := writeRecord nf.crlf { out := [], records := 0, batchNum := 0 } nf.header
  let (bs, st1) ← writeBatches nf.crlf nf.renumber st0 nf.Batches
  let nf1 ← NachaFile.setControlTotals { nf with Batches := bs }
  let st2 := nf1.control.foldl (writeRecord nf1.crlf) st1
  let filler := 10 - st2.records % 10
  pure (nf1, writeFiller nf1.crlf filler st2.out)

/-! ### The load state machine -/

/-- Replace the element at position `i` by its image under `f`. -/
def updateAt {α : Type} : List α → Nat → (α → α) → List α
  | [], _, _ => []
  | x :: xs, 0, f => f x :: xs
  | x :: xs, i + 1, f => x :: updateAt xs i f

/-- The variables of the loop of `LoadNachaFile`.  The pointer `curBatch` is the
position of its batch in `nf.Batches`; the pointer `curEntry` is the position of
the batch that holds its entry and the position of the entry in that batch. -/
structure LoadState where
  nf : NachaFile
  curBatch : Option Nat
  curEntry : Option (Nat × Nat)
  deriving DecidableEq, Repr

/-- The regular expression `[^9]` matches: some byte is not `'9'`. -/
def isControl (data : List Nat) : Bool := data.any (fun c => c != 57)

/-- The statement `nf.Batches = append(nf.Batches, curBatch)` for a fresh batch
with header `data`, and the assignment of `curBatch`. -/
def openBatch (st : LoadState) (data : List Nat) : LoadState :=
  { st with
    nf := { st.nf with
      Batches := st.nf.Batches ++ [{ header := data, Entries := [], control := [] }] },
    curBatch := some st.nf.Batches.length }

/-- Append a fresh entry holding `data` to the batch at position `i`. -/
def appendEntry (bs : List Batch) (i : Nat) (data : List Nat) : List Batch :=
  updateAt bs i (fun b => { b with Entries := b.Entries ++ [{ data := [data], Remove := false }] })

/-- Append `data` to the records of the entry at position `ei` of the batch at
position `bi`. -/
def appendAddenda (bs : List Batch) (bi ei : Nat) (data : List Nat) : List Batch :=
  updateAt bs bi (fun b =>
    { b with Entries := updateAt b.Entries ei (fun e => { e with data := e.data ++ [data] }) })

/-- Set the control record of the batch at position `i`. -/
def setControl (bs : List Batch) (i : Nat) (data : List Nat) : List Batch :=
  updateAt bs i (fun b => { b with control := data })

/-- The body of the scan loop of `LoadNachaFile` for one record. -/
def loadStep (st : LoadState) (data : List Nat) : Except Fault LoadState := do
  let c ← index data 0
  if c = 49 then
    if st.nf.header.length ≠ 0 then throw (Fault.load LoadErr.multipleFileHeader)
    else pure { st with nf := { st.nf with header := data } }
  else if c = 53 then
    match st.curBatch with
    | some i =>
      let cur ← index st.nf.Batches i
      if cur.control.length = 0 then
        throw (Fault.load (LoadErr.newBatchBeforeClose st.nf.Batches.length))
      else pure (openBatch st data)
    | none => pure (openBatch st data)
  else if c = 54 then
    match st.curBatch with
    | none => throw (Fault.load LoadErr.entryBeforeBatchHeader)
    | some i =>
      let cur ← index st.nf.Batches i
      pure { st with
        nf := { st.nf with Batches := appendEntry st.nf.Batches i data },
        curEntry := some (i, cur.Entries.length) }
  else if c = 55 then
    match st.curBatch with
    | none => throw (Fault.load LoadErr.addendaBeforeBatchHeader)
    | some _ =>
      match st.curEntry with
      | none => throw (Fault.load LoadErr.addendaBeforeEntry)
      | some (bi, ei) =>
        pure { st with nf := { st.nf with Batches := appendAddenda st.nf.Batches bi ei data } }
  else if c = 56 then
    match st.curBatch with
    | none => throw (Fault.load LoadErr.controlBeforeBatchHeader)
    | some i =>
      let cur ← index st.nf.Batches i
      if cur.control.length ≠ 0 then
        throw (Fault.load (LoadErr.multipleBatchControl st.nf.Batches.length))
      else pure { st with nf := { st.nf with Batches := setControl st.nf.Batches i data } }
  else if c = 57 then
    if isControl data then
      pure { st with nf := { st.nf with control := st.nf.control ++ [data] } }
    else pure st
  else throw (Fault.load (LoadErr.invalidTypeCode data))

/-- The scan loop of `LoadNachaFile` over the records the scanner delivers. -/
def loadLoop : LoadState → List (List Nat) → Except Fault LoadState
  | st, [] => pure st
  | st, data :: rest => do
    let st1 ← loadStep st data
    loadLoop st1 rest

/-- The initial variables of `LoadNachaFile`. -/
def loadInit (name : String) : LoadState :=
  { nf := { name := name, header := [], Batches := [], control := [], crlf := false, renumber := false },
    curBatch := none, curEntry := none }

/-- Source `LoadNachaFile`, from the records the scanner delivers for the file
called `name`. -/
def LoadNachaFile (name : String) (records : List (List Nat)) : Except Fault NachaFile := do
  let st ← loadLoop (loadInit name) records
  pure st.nf

/-! ## Specification vocabulary -/

/-- Every byte is an ASCII decimal digit. -/
def IsDigits (s : List Nat) : Prop := ∀ c ∈ s, 48 ≤ c ∧ c ≤ 57

instance (s : List Nat) : Decidable (IsDigits s) := by
  unfold IsDigits; infer_instance

/-- The number a string of ASCII decimal digits denotes. -/
def digitsVal (s : List Nat) : Nat := s.foldl (fun a c => a * 10 + (c - 48)) 0

/-- The bytes `[lo, hi)` of a record. -/
def field (r : List Nat) (lo hi : Nat) : List Nat := (r.drop lo).take (hi - lo)

/-- The number of addenda records of an entry: its records after the detail
record. -/
def Entry.addendaCount (e : Entry) : Nat := e.data.tail.length

/-- The entries of a batch that are not removed. -/
def Batch.live (b : Batch) : List Entry := b.Entries.filter (fun e => !e.Remove)

/-! ## Sample records -/

/-- A 94-byte record: the given ASCII text padded with spaces. -/
def sampleRecord (text : String) : List Nat :=
  ascii text ++ List.replicate (94 - text.length) 32

/-- A file header record. -/
def sampleFileHeader : List Nat := sampleRecord "101 091000019 1234567892401011200A094101BANK"

/-- A batch header record. -/
def sampleBatchHeader : List Nat := sampleRecord "5200COMPANY"

/-- A batch control record. -/
def sampleBatchControl : List Nat := sampleRecord "8200"

/-- A file control record. -/
def sampleFileControl : List Nat := sampleRecord "9000001"

/-- An entry detail record with the given transaction code, the 8-digit field at
`[3:11)` and the 10-digit amount at `[29:39)`. -/
def sampleDetail (code hash amount : String) : List Nat :=
  sampleRecord ("6" ++ code ++ hash ++ "9" ++ "12345678901234567" ++ amount)

/-- An addenda record. -/
def sampleAddenda : List Nat := sampleRecord "705"

/-- The detail record of an entry: its first record. -/
def Entry.detail (e : Entry) : List Nat := e.data.headD []

/-- The amount field `[29:39)` of the detail record, in cents. -/
def Entry.cents (e : Entry) : Nat := digitsVal (field e.detail 29 39)

/-- The transaction code `[1:3)` of the detail record is in the credit list. -/
def Entry.isCredit (e : Entry) : Bool := decide (field e.detail 1 3 ∈ creditCodes)

/-- The entry has a detail record whose amount field `[29:39)` is ten ASCII
digits. -/
def Entry.AmountOk (e : Entry) : Prop :=
  e.data ≠ [] ∧ 39 ≤ e.detail.length ∧ IsDigits (field e.detail 29 39)

instance (e : Entry) : Decidable e.AmountOk := by
  unfold Entry.AmountOk; infer_instance

/-- The field `[3:11)` of the detail record as a number. -/
def Entry.hashVal (e : Entry) : Nat := digitsVal (field e.detail 3 11)

/-- The entry has a detail record whose field `[3:11)` is eight ASCII digits. -/
def Entry.HashOk (e : Entry) : Prop :=
  e.data ≠ [] ∧ 11 ≤ e.detail.length ∧ IsDigits (field e.detail 3 11)

instance (e : Entry) : Decidable e.HashOk := by
  unfold Entry.HashOk; infer_instance

/-- Sum of the amounts, in cents, of the live entries whose code is not a credit
code. -/
def Batch.debitCents (b : Batch) : Nat :=
  ((b.live.filter (fun e => !e.isCredit)).map Entry.cents).sum

/-- Sum of the amounts, in cents, of the live entries whose code is a credit
code. -/
def Batch.creditCents (b : Batch) : Nat :=
  ((b.live.filter (fun e => e.isCredit)).map Entry.cents).sum

/-- Sum of the `[3:11)` fields of the live entries. -/
def Batch.hashSum (b : Batch) : Nat := (b.live.map Entry.hashVal).sum

/-- The batch control record after the four `copy` statements of
`Batch.setControlTotals`, for entry count `n`, totals `D` and `C`, and the last
ten characters `T` of the rendered hash. -/
def stampBatchControl (c : List Nat) (n : Nat) (D C : Int) (T : List Nat) : List Nat :=
  overwrite (overwrite (overwrite (overwrite c 4 (sprintf0 6 n)) 20 (sprintf0 12 D)) 32
    (sprintf0 12 C)) 10 T

/-- A live debit entry of 10000 cents. -/
def sampleDebitEntry : Entry :=
  { data := [sampleDetail "27" "09100001" "0000010000"], Remove := false }

/-- A live credit entry of 5000 cents, with one addenda record. -/
def sampleCreditEntry : Entry :=
  { data := [sampleDetail "22" "09100002" "0000005000", sampleAddenda], Remove := false }

/-- A removed entry. -/
def sampleRemovedEntry : Entry :=
  { data := [sampleDetail "27" "09100003" "0000000777"], Remove := true }

/-- A batch with a debit entry, a credit entry and a removed entry. -/
def sampleBatch : Batch :=
  { header := sampleBatchHeader,
    Entries := [sampleDebitEntry, sampleCreditEntry, sampleRemovedEntry],
    control := sampleBatchControl }

/-- The control record `setControlTotals` leaves in `sampleBatch`. -/
def sampleBatchControlSet : List Nat :=
  ascii "82000000030018200003000000010000000000005000" ++ List.replicate 50 32

/-- A sequence of `copy` statements, each given by its offset and its source,
applied to a buffer in order. -/
def applyWrites (ws : List (Nat × List Nat)) (c : List Nat) : List Nat :=
  ws.foldl (fun x w => overwrite x w.1 w.2) c

/-- The first file control record after the six `copy` statements of
`NachaFile.setControlTotals`, for totals `t`, `n` control records and the last
ten characters `T` of the rendered hash. -/
def stampFileControl (c : List Nat) (t : FileTotals) (n : Nat) (T : List Nat) : List Nat :=
  overwrite (overwrite (overwrite (overwrite (overwrite (overwrite c 1 (sprintf0 6 t.bCount)) 13
    (sprintf0 8 t.eCount)) 31 (sprintf0 12 t.debitTot)) 43 (sprintf0 12 t.creditTot)) 7
    (sprintf0 6 (((1 + t.bCount * 2 + t.eCount + n + 9) / 10 : Nat) : Int))) 21 T

/-- The fields of the entry parse: `postAmt` returns without error and `hash`
returns without panic. -/
def Entry.Parseable (e : Entry) : Prop :=
  (∃ amt, e.postAmt = .ok amt) ∧ (∃ h, e.hash = .ok h)

/-- Every live entry of the batch is parseable. -/
def Batch.Parseable (b : Batch) : Prop := ∀ e ∈ b.live, e.Parseable

/-- The amount and hash fields of every live entry are digit strings. -/
def Batch.FieldsOk (b : Batch) : Prop := ∀ e ∈ b.live, e.AmountOk ∧ e.HashOk

instance (b : Batch) : Decidable b.FieldsOk := by
  unfold Batch.FieldsOk; infer_instance

/-- The batches `NachaFile.setControlTotals` counts: those with a non-zero entry
count. -/
def countedBatches (bs : List Batch) : List Batch := bs.filter (fun b => b.entryCount != 0)

/-- The totals of the first loop of `NachaFile.setControlTotals`, as sums. -/
def fileTotalsOf (bs : List Batch) : FileTotals :=
  { bCount := (countedBatches bs).length,
    eCount := (bs.map Batch.entryCount).sum,
    debitTot := (((countedBatches bs).map Batch.debitCents).sum : Nat),
    creditTot := (((countedBatches bs).map Batch.creditCents).sum : Nat) }

/-- Sum of the hash fields of the live entries of all batches. -/
def fileHashSum (bs : List Batch) : Nat := (bs.map Batch.hashSum).sum

/-- A file with the sample batch, a batch whose only entry is removed, and one
control record; renumbering and CRLF are off. -/
def sampleFile : NachaFile :=
  { name := "sample.ach", header := sampleFileHeader,
    Batches := [sampleBatch,
      { header := sampleBatchHeader, Entries := [sampleRemovedEntry], control := sampleBatchControl }],
    control := [sampleFileControl], crlf := false, renumber := false }

/-- The first control record `setControlTotals` leaves in `sampleFile`. -/
def sampleFileControlSet : List Nat :=
  ascii "9000001000001000000030018200003000000010000000000005000" ++ List.replicate 39 32

/-- No total of the file exceeds the width of its field in the file control
record. -/
def NachaFile.NoOverflow (nf : NachaFile) : Prop :=
  (fileTotalsOf nf.Batches).bCount < 10 ^ 6 ∧ (fileTotalsOf nf.Batches).eCount < 10 ^ 8
  ∧ (fileTotalsOf nf.Batches).debitTot < 10 ^ 12 ∧ (fileTotalsOf nf.Batches).creditTot < 10 ^ 12
  ∧ (1 + (fileTotalsOf nf.Batches).bCount * 2 + (fileTotalsOf nf.Batches).eCount
      + nf.control.length + 9) / 10 < 10 ^ 6

instance (nf : NachaFile) : Decidable nf.NoOverflow := by
  unfold NachaFile.NoOverflow; infer_instance

/-- The batch `b1` is `b` after the batch loop of the write pass visited it:
unchanged when `b` is empty, the result of `setControlTotals` otherwise. -/
def batchTotalsSet (b b1 : Batch) : Prop :=
  if b.isEmpty then b1 = b else b.setControlTotals = .ok b1

/-- The first control record of the file. -/
def NachaFile.control0 (nf : NachaFile) : List Nat := nf.control.headD []

/-- The batches that have a live entry. -/
def nonEmptyBatches (bs : List Batch) : List Batch := bs.filter (fun b => !b.isEmpty)

/-- A batch whose only entry is removed. -/
def sampleEmptyBatch : Batch :=
  { header := sampleBatchHeader, Entries := [sampleRemovedEntry], control := sampleBatchControl }

/-- The sample batch with the control record `setControlTotals` leaves. -/
def sampleBatchSet : Batch := { sampleBatch with control := sampleBatchControlSet }

/-- The sample file as the write pass leaves it. -/
def sampleFileSet : NachaFile :=
  { sampleFile with Batches := [sampleBatchSet, sampleEmptyBatch],
                    control := [sampleFileControlSet] }

/-- The records of the live entries of a batch, in order: for each entry its
detail record and then its addenda records. -/
def Batch.liveRecords (b : Batch) : List (List Nat) := (b.live.map (fun e => e.data)).flatten

/-- The records a non-empty batch contributes: header, records of the live
entries, control. -/
def Batch.records (b : Batch) : List (List Nat) := b.header :: (b.liveRecords ++ [b.control])

/-- The records of a file that are not filler: the file header, the records of
the non-empty batches in order, the file control records. -/
def NachaFile.nonFillerRecords (nf : NachaFile) : List (List Nat) :=
  nf.header :: (((nonEmptyBatches nf.Batches).map Batch.records).flatten ++ nf.control)

/-- The byte stream of a sequence of records, each followed by CRLF when `crlf`
is set. -/
def streamOf (crlf : Bool) (recs : List (List Nat)) : List Nat :=
  (recs.map (fun r => r ++ (if crlf then crlfBytes else []))).flatten

/-- The number of filler records after `n` records. -/
def fillerCount (n : Nat) : Nat := 10 - n % 10

/-- The bytes a non-empty batch contributes: its header, the records of its
live entries, its control record. -/
def Batch.bytes (b : Batch) : List Nat :=
  b.header ++ (b.live.map (fun e => e.data.flatten)).flatten ++ b.control

/-- How the write pass may change a batch: the entries stay, and an empty batch
stays as it is. -/
def batchWritten (b b1 : Batch) : Prop :=
  b1.Entries = b.Entries ∧ (b.isEmpty = true → b1 = b)

/-- The bytes `Write` produces for `sampleFile`: seven records and three filler
records. -/
def sampleOutput : List Nat :=
  sampleFileHeader ++ sampleBatchHeader ++ sampleDetail "27" "09100001" "0000010000"
    ++ sampleDetail "22" "09100002" "0000005000" ++ sampleAddenda ++ sampleBatchControlSet
    ++ sampleFileControlSet ++ List.replicate (94 * 3) 57

/-! ## Well-formed record sequences -/

/-- The records of one entry of a well-formed file: a detail record and its
addenda records. -/
structure EntryRecs where
  detail : List Nat
  addenda : List (List Nat)
  deriving DecidableEq, Repr

/-- The records of one batch of a well-formed file. -/
structure BatchRecs where
  header : List Nat
  entries : List EntryRecs
  control : List Nat
  deriving DecidableEq, Repr

/-- The records of an entry in file order. -/
def EntryRecs.records (e : EntryRecs) : List (List Nat) := e.detail :: e.addenda

/-- The records of a batch in file order. -/
def BatchRecs.records (b : BatchRecs) : List (List Nat) :=
  b.header :: ((b.entries.map EntryRecs.records).flatten ++ [b.control])

/-- The records of a file that are not filler, in file order. -/
def plainRecords (h : List Nat) (bs : List BatchRecs) (cs : List (List Nat)) :
    List (List Nat) :=
  h :: ((bs.map BatchRecs.records).flatten ++ cs)

/-- A well-formed record sequence: header, batches, file control records and
`nfill` filler records. -/
def fileRecords (h : List Nat) (bs : List BatchRecs) (cs : List (List Nat)) (nfill : Nat) :
    List (List Nat) :=
  plainRecords h bs cs ++ List.replicate nfill fillerRecord

/-- The entry the loader builds from the records of an entry. -/
def EntryRecs.toEntry (e : EntryRecs) : Entry := { data := e.detail :: e.addenda, Remove := false }

/-- The batch the loader builds from the records of a batch. -/
def BatchRecs.toBatch (b : BatchRecs) : Batch :=
  { header := b.header, Entries := b.entries.map EntryRecs.toEntry, control := b.control }

/-- The file the loader builds from a well-formed record sequence. -/
def loadedFile (name : String) (h : List Nat) (bs : List BatchRecs) (cs : List (List Nat)) :
    NachaFile :=
  { name := name, header := h, Batches := bs.map BatchRecs.toBatch, control := cs,
    crlf := false, renumber := false }

/-- The type codes of the records of an entry: `'6'` then `'7'`. -/
def EntryRecs.WellFormed (e : EntryRecs) : Prop :=
  e.detail.head? = some 54 ∧ ∀ a ∈ e.addenda, a.head? = some 55

instance (e : EntryRecs) : Decidable e.WellFormed := by
  unfold EntryRecs.WellFormed; infer_instance

/-- The type codes of the records of a batch: `'5'`, at least one entry, `'8'`. -/
def BatchRecs.WellFormed (b : BatchRecs) : Prop :=
  b.header.head? = some 53 ∧ b.entries ≠ [] ∧ (∀ e ∈ b.entries, e.WellFormed)
  ∧ b.control.head? = some 56

instance (b : BatchRecs) : Decidable b.WellFormed := by
  unfold BatchRecs.WellFormed; infer_instance

/-- The shape of a well-formed record sequence: one `'1'` header, well-formed
batches, at least one `'9'` control record, none of them all nines. -/
def WellFormedFile (h : List Nat) (bs : List BatchRecs) (cs : List (List Nat)) : Prop :=
  h.head? = some 49 ∧ (∀ b ∈ bs, b.WellFormed) ∧ cs ≠ []
  ∧ ∀ c ∈ cs, c.head? = some 57 ∧ isControl c = true

instance (h : List Nat) (bs : List BatchRecs) (cs : List (List Nat)) :
    Decidable (WellFormedFile h bs cs) := by
  unfold WellFormedFile; infer_instance

/-- The loader state while the batch `cur` is the last of the list: the batches
`B` before it, the pointer `curBatch` on `cur`. -/
def midBatch (nf0 : NachaFile) (B : List Batch) (cur : Batch) (ce : Option (Nat × Nat)) :
    LoadState :=
  { nf := { nf0 with Batches := B ++ [cur] }, curBatch := some B.length, curEntry := ce }

/-- The pointer `curBatch` is nil or designates a batch that has its control
record. -/
def LoadState.Closed (st : LoadState) : Prop :=
  match st.curBatch with
  | none => True
  | some i => ∃ cur, st.nf.Batches.get? i = some cur ∧ cur.control ≠ []

/-- A well-formed batch of two entries, the second with an addenda record,
whose control record already holds the totals. -/
def sampleBatchRecs : BatchRecs :=
  { header := sampleBatchHeader,
    entries := [{ detail := sampleDetail "27" "09100001" "0000010000", addenda := [] },
                { detail := sampleDetail "22" "09100002" "0000005000", addenda := [sampleAddenda] }],
    control := sampleBatchControlSet }

/-- A second entry detail record. -/
def sampleDetailB : List Nat := sampleDetail "27" "09100004" "0000000250"

/-- Records in which an entry detail record follows the control record of the
only batch. -/
def sampleEntryAfterControl : List (List Nat) :=
  [sampleFileHeader, sampleBatchHeader, sampleDetail "27" "09100001" "0000010000",
   sampleBatchControl, sampleDetailB, sampleFileControl]

/-- Records in which the second batch holds an addenda record and no entry
detail record. -/
def sampleAddendaInSecondBatch : List (List Nat) :=
  [sampleFileHeader, sampleBatchHeader, sampleDetail "27" "09100001" "0000010000",
   sampleBatchControl, sampleBatchHeader, sampleAddenda, sampleBatchControl, sampleFileControl]

/-- Records that stop inside the first batch. -/
def sampleOpenBatch : List (List Nat) :=
  [sampleFileHeader, sampleBatchHeader, sampleDetail "27" "09100001" "0000010000"]

/-- The file is structurally complete: a 94-byte header, at least one file
control record, and a 94-byte header and control record in every batch. -/
def NachaFile.Complete (nf : NachaFile) : Prop :=
  nf.header.length = 94 ∧ nf.control ≠ []
  ∧ ∀ b ∈ nf.Batches, b.header.length = 94 ∧ b.control.length = 94

instance (nf : NachaFile) : Decidable nf.Complete := by
  unfold NachaFile.Complete; infer_instance

/-- What a batch built by the loader from 94-byte records satisfies: a 94-byte
header, a control record that is absent or 94 bytes, entries that each hold at
least one record, all of 94 bytes. -/
def Batch.Loaded (b : Batch) : Prop :=
  b.header.length = 94 ∧ (b.control = [] ∨ b.control.length = 94)
  ∧ ∀ e ∈ b.Entries, e.data ≠ [] ∧ ∀ d ∈ e.data, d.length = 94

/-- What a file built by the loader from 94-byte records satisfies: the header
is absent or 94 bytes, the control records have 94 bytes, the batches are as
`Batch.Loaded` says and every batch but the last has its control record. -/
def NachaFile.Loaded (nf : NachaFile) : Prop :=
  (nf.header = [] ∨ nf.header.length = 94)
  ∧ (∀ c ∈ nf.control, c.length = 94)
  ∧ (∀ b ∈ nf.Batches, b.Loaded)
  ∧ (∀ b ∈ nf.Batches.dropLast, b.control.length = 94)

/-- The invariant of the scan loop on 94-byte records: the file built so far is
as `NachaFile.Loaded` says and the pointer `curBatch` is nil while there is no
batch and designates the last batch afterwards. -/
def LoadState.Inv (st : LoadState) : Prop :=
  st.nf.Loaded ∧
  match st.curBatch with
  | none => st.nf.Batches = []
  | some i => i + 1 = st.nf.Batches.length

/-- The file the loader returns for no record at all. -/
def sampleEmptyLoaded : NachaFile :=
  { name := "in.ach", header := [], Batches := [], control := [], crlf := false,
    renumber := false }

/-- The file the loader returns for `sampleOpenBatch`. -/
def sampleOpenLoaded : NachaFile :=
  { name := "in.ach", header := sampleFileHeader,
    Batches := [{ header := sampleBatchHeader,
                  Entries := [{ data := [sampleDetail "27" "09100001" "0000010000"],
                                Remove := false }],
                  control := [] }],
    control := [], crlf := false, renumber := false }

/-! ## Accessors of the file totals (`file.go`) -/

/-- The guard `len(nf.control) == 0 || len(nf.control[0]) != 94` of the
accessors; `none` when it holds, the first control record otherwise. -/
def guardedControl (nf : NachaFile) : Option (List Nat) :=
  match nf.control with
  | [] => none
  | c0 :: _ => if c0.length ≠ 94 then none else some c0

/-- Source `NachaFile.BatchCount`: the value returned; the file is left as
`setControlTotals` leaves it. -/
def NachaFile.BatchCount (nf : NachaFile) : Except Fault Int := do
  let nf1 ← nf.setControlTotals
  match guardedControl nf1 with
  | none => pure 0
  | some c0 =>
    let s ← slice c0 1 7
    match parseInt s with
    | some n => pure n
    | none => pure 0

/-- Source `NachaFile.EntryCount`. -/
def NachaFile.EntryCount (nf : NachaFile) : Except Fault Int := do
  let nf1 ← nf.setControlTotals
  match guardedControl nf1 with
  | none => pure 0
  | some c0 =>
    let s ← slice c0 13 21
    match parseInt s with
    | some n => pure n
    | none => pure 0

/-- Source `NachaFile.DebitTotal`. -/
def NachaFile.DebitTotal (nf : NachaFile) : Except Fault Float64 := do
  let nf1 ← nf.setControlTotals
  match guardedControl nf1 with
  | none => pure (Float64.fin 0)
  | some c0 =>
    let ip ← slice c0 31 41
    let fp ← slice c0 41 43
    match parseFloat (ip ++ [46] ++ fp) with
    | some x => pure x
    | none => pure (Float64.fin 0)

/-- Source `NachaFile.CreditTotal`. -/
def NachaFile.CreditTotal (nf : NachaFile) : Except Fault Float64 := do
  let nf1 ← nf.setControlTotals
  match guardedControl nf1 with
  | none => pure (Float64.fin 0)
  | some c0 =>
    let s ← slice c0 43 55
    match parseFloat s with
    | some x => pure (Float64.div x (Float64.fin 100))
    | none => pure (Float64.fin 0)

/-- Source `NachaFile.BlockCount`. -/
def NachaFile.BlockCount (nf : NachaFile) : Except Fault Int := do
  let nf1 ← nf.setControlTotals
  match guardedControl nf1 with
  | none => pure 0
  | some c0 =>
    let s ← slice c0 7 13
    match parseInt s with
    | some n => pure n
    | none => pure 0

/-- Source `NachaFile.Hash`. -/
def NachaFile.Hash (nf : NachaFile) : Except Fault (List Nat) := do
  let nf1 ← nf.setControlTotals
  match guardedControl nf1 with
  | none => pure []
  | some c0 => slice c0 21 31

/-! ### A file of ten records (C17) -/

/-- A batch with three live credit entries of two records each. -/
def sampleTenBatch : Batch :=
  { header := sampleBatchHeader,
    Entries := [sampleCreditEntry, sampleCreditEntry, sampleCreditEntry],
    control := sampleBatchControl }

/-- The control record `setControlTotals` leaves in `sampleTenBatch`. -/
def sampleTenBatchControlSet : List Nat :=
  ascii "82000000060027300006000000000000000000015000" ++ List.replicate 50 32

/-- The batch `sampleTenBatch` as the write pass leaves it. -/
def sampleTenBatchSet : Batch := { sampleTenBatch with control := sampleTenBatchControlSet }

/-- A file of ten records that are not filler: file header, batch header, six
entry records, batch control, file control. -/
def sampleTenFile : NachaFile :=
  { name := "ten.ach", header := sampleFileHeader, Batches := [sampleTenBatch],
    control := [sampleFileControl], crlf := false, renumber := false }

/-- The first control record `setControlTotals` leaves in `sampleTenFile`. -/
def sampleTenFileControlSet : List Nat :=
  ascii "9000001000001000000060027300006000000000000000000015000" ++ List.replicate 39 32

/-- The file `sampleTenFile` as the write pass leaves it. -/
def sampleTenFileSet : NachaFile :=
  { sampleTenFile with Batches := [sampleTenBatchSet], control := [sampleTenFileControlSet] }

/-! ### Batch numbers (C16) -/

/-- The entry count of the batch is in the range of `int`, the type of the
result of `entryCount`; the model counts in natural numbers. -/
def Batch.InRange (b : Batch) : Prop := b.entryCount < 2 ^ 63

instance (b : Batch) : Decidable b.InRange := by
  unfold Batch.InRange; infer_instance

/-- What renumbering leaves in the batch written for the non-empty batch at
position `p.1` (counted from zero) among the non-empty batches: the number
`p.1 + 1` as seven digits at bytes 87 to 93 of header and control record, the
other header bytes as they were. -/
def batchNumbered (p : Nat × Batch) (b1 : Batch) : Prop :=
  field b1.header 87 94 = lastDigits 7 (p.1 + 1)
  ∧ field b1.control 87 94 = lastDigits 7 (p.1 + 1)
  ∧ field b1.header 0 87 = field p.2.header 0 87
  ∧ b1.header.length = p.2.header.length

/-! ## The record splitter (`util.go`) -/

/-- The two errors of the split function.  Each carries the buffer that the
source formats into its message with `%q`. -/
inductive SplitErr where
  /-- Message "Invalid record length. A new-line was found at invalid location: ..." -/
  | badNewline (data : List Nat)
  /-- Message "Invalid record length at end-of-file. Unprocessed data: ..." -/
  | shortAtEOF (data : List Nat)
  deriving DecidableEq, Repr

/-- The call `bytes.IndexByte(data, c)`: the index of the first `c`, `none` for
the result `-1`. -/
def indexByte : List Nat → Nat → Option Nat
  | [], _ => none
  | x :: xs, c => if x = c then some 0 else (indexByte xs c).map (· + 1)

/-- Source `dropCR`. -/
def dropCR (data : List Nat) : List Nat :=
  if 0 < data.length ∧ data.getLast? = some 13 then data.take (data.length - 1) else data

/-- Source `dropSub`. -/
def dropSub (data : List Nat) : List Nat :=
  if 0 < data.length ∧ data.getLast? = some 26 then data.take (data.length - 1) else data

/-- The split function `splitScanAt(recordLen)` returns, applied to `data` and
`atEOF`.  The result is the pair `(advance, token)`, with `none` for the token
`nil`, or the error. -/
def splitScanAt (recordLen : Nat) (data : List Nat) (atEOF : Bool) :
    Except SplitErr (Nat × Option (List Nat)) :=
  if atEOF = true ∧ (dropSub data).length = 0 then .ok (0, none)
  else
    match indexByte data 10 with
    | some i =>
      let d := dropCR (data.take i)
      if d.length = recordLen then .ok (i + 1, some d)
      else if d.length = 0 ∧ data.length = i + 1 then .ok (0, none)
      else .error (SplitErr.badNewline data)
    | none =>
      if recordLen ≤ data.length then .ok (recordLen, some (data.take recordLen))
      else if atEOF then .error (SplitErr.shortAtEOF data)
      else .ok (0, none)

/-- The split function applied again and again to the whole remaining buffer
with `atEOF = true`, advancing by the returned amount, as `bufio.Scanner` does
once the stream is buffered to its end: the tokens delivered, and the error
that stopped the scan, if any.  The fuel bounds the number of tokens. -/
def scanLoop (recordLen : Nat) : Nat → List Nat → List (List Nat) × Option SplitErr
  | 0, _ => ([], none)
  | fuel + 1, data =>
    match splitScanAt recordLen data true with
    | .error e => ([], some e)
    | .ok (_, none) => ([], none)
    | .ok (advance, some token) =>
      let r := scanLoop recordLen fuel (data.drop advance)
      (token :: r.1, r.2)

/-- The scan of a whole stream; every token consumes at least one byte, so the
fuel suffices. -/
def scanAll (recordLen : Nat) (data : List Nat) : List (List Nat) × Option SplitErr :=
  scanLoop recordLen (data.length + 1) data

/-- How a record is terminated in a stream. -/
inductive Terminator where
  | none
  | lf
  | crlf
  deriving DecidableEq, Repr

/-- The bytes of a terminator. -/
def Terminator.bytes : Terminator → List Nat
  | .none => []
  | .lf => [10]
  | .crlf => [13, 10]

/-- The stream of records, each followed by its own terminator. -/
def terminatedStream (rs : List (List Nat × Terminator)) : List Nat :=
  (rs.map (fun p => p.1 ++ p.2.bytes)).flatten

/-- A record of 93 bytes `'A'` followed by the byte SUB. -/
def sampleShortSub : List Nat := List.replicate 93 65 ++ [26]

/-- A 94-byte record without CR or LF. -/
def sampleLine : List Nat := List.replicate 94 65

/-- The record `p.1`, followed by its terminator LF or CR LF, is one the split
function delivers: it holds no LF, and before LF it does not end in CR. -/
def accepted (p : List Nat × Terminator) : Bool :=
  decide (10 ∉ p.1 ∧ (p.2 = Terminator.lf → p.1.getLast? ≠ some 13))

/-- A file of one million copies of the sample batch. -/
def sampleMillionFile : NachaFile :=
  { name := "million.ach", header := sampleFileHeader,
    Batches := List.replicate 1000000 sampleBatch,
    control := [sampleFileControl], crlf := false, renumber := false }

/-- The amount field `[29:39)` and the hash field `[3:11)` of the detail record
parse: `parseCurrency` and `ParseInt` return without error on them. -/
def Entry.FieldsParse (e : Entry) : Prop :=
  parseCurrency (field e.detail 29 39) ≠ none ∧ parseInt (field e.detail 3 11) ≠ none

/-! ### Amount fields that are not plain digits -/

/-- A live entry with debit code 27 whose amount field holds the signed numeral
`-000012345`. -/
def sampleSignedEntry : Entry :=
  { data := [sampleDetail "27" "09100005" "-000012345"], Remove := false }

/-- A live entry with debit code 27 whose amount field holds the numeral
`0001234.56`. -/
def sampleFractionEntry : Entry :=
  { data := [sampleDetail "27" "09100006" "0001234.56"], Remove := false }

/-- A batch of the two entries whose amount fields are not plain digits. -/
def sampleNumeralBatch : Batch :=
  { header := sampleBatchHeader, Entries := [sampleSignedEntry, sampleFractionEntry],
    control := sampleBatchControl }

/-- The batch `sampleNumeralBatch` as `setControlTotals` leaves it: two entry
records, hash 18200011, debit total 1235, credit total 12345. -/
def sampleNumeralBatchSet : Batch :=
  { sampleNumeralBatch with
    control := ascii "82000000020018200011000000001235000000012345" ++ List.replicate 50 32 }

/-- A file with the batch `sampleNumeralBatch`. -/
def sampleNumeralFile : NachaFile :=
  { name := "numeral.ach", header := sampleFileHeader, Batches := [sampleNumeralBatch],
    control := [sampleFileControl], crlf := false, renumber := false }

/-- The file `sampleNumeralFile` as the write pass leaves it. -/
def sampleNumeralFileSet : NachaFile :=
  { sampleNumeralFile with
    Batches := [sampleNumeralBatchSet],
    control := [ascii "9000001000001000000020018200011000000001235000000012345"
      ++ List.replicate 39 32] }

/-! ### A batch whose debit sum exceeds the largest `int` -/

/-- A live entry with debit code 27 whose amount field holds 9999999999. -/
def sampleMaxEntry : Entry :=
  { data := [sampleDetail "27" "09100001" "9999999999"], Remove := false }

/-- A batch of 922337204 copies of `sampleMaxEntry`: the sum of its amount
fields is 9223372039077662796, above the largest `int`, 9223372036854775807. -/
def sampleHugeBatch : Batch :=
  { header := sampleBatchHeader, Entries := List.replicate 922337204 sampleMaxEntry,
    control := sampleBatchControl }

/-! ## Theorems -/

/-! ### Go primitives -/

theorem index_zero_cons {α : Type} (x : α) (xs : List α) : index (x :: xs) 0 = .ok x := rfl

theorem index_nil {α : Type} (i : Nat) : index ([] : List α) i = .error Fault.panic := rfl

theorem slice_eq_field (r : List Nat) (lo hi : Nat) (h1 : lo ≤ hi) (h2 : hi ≤ r.length) :
    slice r lo hi = .ok (field r lo hi) := by
  simp [slice, field, h1, h2]

theorem field_length (r : List Nat) (lo hi : Nat) (h1 : lo ≤ hi) (h2 : hi ≤ r.length) :
    (field r lo hi).length = hi - lo := by
  simp [field]; omega

/-! ### Entry count (C9) -/

theorem entryCount_foldl (es : List Entry) (n : Nat) :
    es.foldl (fun eCount entry =>
      if entry.Remove = false then eCount + entry.data.length else eCount) n
    = n + ((es.filter (fun e => !e.Remove)).map (fun e => e.data.length)).sum := by
  induction es generalizing n with
  | nil => simp
  | cons e es ih =>
    rw [List.foldl_cons, ih]
    cases hr : e.Remove <;> simp [List.filter_cons, hr]
    omega

/-- C9: in a batch whose entries each hold a detail record followed by their
addenda records, `entryCount` is the sum over the entries that are not removed
of one plus the number of addenda records; removed entries add nothing. -/
theorem entryCount_eq_sum_live (b : Batch) (h : ∀ e ∈ b.Entries, e.data ≠ []) :
    b.entryCount = (b.live.map (fun e => 1 + e.addendaCount)).sum := by
  unfold Batch.entryCount Batch.live
  rw [entryCount_foldl, Nat.zero_add]
  congr 1
  apply List.map_congr_left
  intro e he
  have hmem : e ∈ b.Entries := (List.mem_filter.mp he).1
  have hne := h e hmem
  unfold Entry.addendaCount
  cases hd : e.data with
  | nil => exact absurd hd hne
  | cons d ds => simp; omega

/-! ### Entry before batch header (C10) -/

theorem loadStep_curBatch_none (st st1 : LoadState) (data : List Nat)
    (hc : st.curBatch = none) (h5 : data.head? ≠ some 53)
    (h : loadStep st data = .ok st1) : st1.curBatch = none := by
  cases data with
  | nil => simp [loadStep, index, bind, Except.bind] at h
  | cons c rest =>
    simp only [List.head?_cons, ne_eq, Option.some.injEq] at h5
    simp only [loadStep, index_zero_cons, hc] at h
    simp only [bind, Except.bind, pure, Except.pure, throw, throwThe, MonadExceptOf.throw] at h
    split_ifs at h <;> first | (cases h; first | rfl | exact hc) | cases h

theorem loadLoop_curBatch_none (pre : List (List Nat)) (st st1 : LoadState)
    (hc : st.curBatch = none) (h5 : ∀ x ∈ pre, x.head? ≠ some 53)
    (h : loadLoop st pre = .ok st1) : st1.curBatch = none := by
  induction pre generalizing st with
  | nil =>
    simp only [loadLoop, pure, Except.pure, Except.ok.injEq] at h
    rw [← h]; exact hc
  | cons r rest ih =>
    simp only [loadLoop, bind, Except.bind] at h
    cases hs : loadStep st r with
    | error f => rw [hs] at h; cases h
    | ok st2 =>
      rw [hs] at h
      exact ih st2 (loadStep_curBatch_none st st2 r hc (h5 r (List.mem_cons_self _ _)) hs)
        (fun x hx => h5 x (List.mem_cons_of_mem _ hx)) h

theorem loadLoop_append (pre post : List (List Nat)) (st : LoadState) :
    loadLoop st (pre ++ post) =
      match loadLoop st pre with
      | .ok st1 => loadLoop st1 post
      | .error f => .error f := by
  induction pre generalizing st with
  | nil => rfl
  | cons r rest ih =>
    simp only [List.cons_append, loadLoop, bind, Except.bind]
    cases hs : loadStep st r with
    | error f => rfl
    | ok st2 => exact ih st2

theorem loadStep_entry_no_batch (st : LoadState) (data : List Nat)
    (hc : st.curBatch = none) (h6 : data.head? = some 54) :
    loadStep st data = .error (Fault.load LoadErr.entryBeforeBatchHeader) := by
  cases data with
  | nil => simp at h6
  | cons c rest =>
    simp only [List.head?_cons, Option.some.injEq] at h6
    subst h6
    simp [loadStep, index_zero_cons, hc, bind, Except.bind, throw, throwThe, MonadExceptOf.throw]

/-- C10: when a record starting with `'6'` arrives before any record starting
with `'5'`, and the records before it are loaded without error, the load fails
with the error "Found Entry Detail Record before Batch Header Record." and
returns no file. -/
theorem load_entry_before_batch_header (name : String) (pre post : List (List Nat))
    (r : List Nat) (st : LoadState)
    (hpre : loadLoop (loadInit name) pre = .ok st)
    (h5 : ∀ x ∈ pre, x.head? ≠ some 53) (h6 : r.head? = some 54) :
    LoadNachaFile name (pre ++ r :: post) = .error (Fault.load LoadErr.entryBeforeBatchHeader)
    ∧ LoadErr.entryBeforeBatchHeader.message
        = "Found Entry Detail Record before Batch Header Record." := by
  refine ⟨?_, rfl⟩
  have hc : st.curBatch = none := loadLoop_curBatch_none pre _ st rfl h5 hpre
  unfold LoadNachaFile
  rw [loadLoop_append, hpre]
  simp only [loadLoop, loadStep_entry_no_batch st r hc h6, bind, Except.bind]

/-- Witness for C10: a file header followed directly by an entry detail record. -/
theorem load_entry_before_batch_header_witness :
    LoadNachaFile "in.ach"
        ([sampleFileHeader] ++ sampleDetail "27" "09100001" "0000010000" :: [sampleBatchHeader])
      = .error (Fault.load LoadErr.entryBeforeBatchHeader)
    ∧ LoadErr.entryBeforeBatchHeader.message
        = "Found Entry Detail Record before Batch Header Record." :=
  load_entry_before_batch_header "in.ach" [sampleFileHeader] [sampleBatchHeader]
    (sampleDetail "27" "09100001" "0000010000")
    { nf := { name := "in.ach", header := sampleFileHeader, Batches := [], control := [],
              crlf := false, renumber := false },
      curBatch := none, curEntry := none }
    (by decide) (by decide) (by decide)

/-! ### Double-precision rounding -/

namespace F64

theorem roundHalfEven_err (q : ℚ) : |(roundHalfEven q : ℚ) - q| ≤ 1 / 2 := by
  have h1 : (⌊q⌋ : ℚ) ≤ q := Int.floor_le q
  have h2 : q < (⌊q⌋ : ℚ) + 1 := Int.lt_floor_add_one q
  unfold roundHalfEven
  rw [abs_le]
  split_ifs with a b c <;> push_cast <;> constructor <;> linarith

theorem roundHalfEven_intCast (m : ℤ) : roundHalfEven (m : ℚ) = m := by
  unfold roundHalfEven
  simp

theorem two_zpow_pos (e : ℤ) : (0 : ℚ) < (2 : ℚ) ^ e := zpow_pos (by norm_num) e

theorem log_bounds (x : ℚ) (hx : x ≠ 0) :
    (2 : ℚ) ^ Int.log 2 |x| ≤ |x| ∧ |x| < (2 : ℚ) ^ (Int.log 2 |x| + 1) := by
  have hpos : 0 < |x| := abs_pos.mpr hx
  have h1 := Int.zpow_log_le_self (b := 2) (r := |x|) (by norm_num) hpos
  have h2 := Int.lt_zpow_succ_log_self (b := 2) (by norm_num) |x|
  simp only [Nat.cast_ofNat] at h1 h2
  exact ⟨h1, h2⟩

/-- Rounding a number of the normal range changes it by at most half a unit in
the last place. -/
theorem round_err (x : ℚ) (hx : (2 : ℚ) ^ (-1022 : ℤ) ≤ |x|) :
    |round x - x| ≤ |x| * (2 : ℚ) ^ (-53 : ℤ) := by
  have hpos : 0 < |x| := lt_of_lt_of_le (two_zpow_pos _) hx
  have hx0 : x ≠ 0 := abs_pos.mp hpos
  have hlog : (-1022 : ℤ) ≤ Int.log 2 |x| := by
    have := (Int.zpow_le_iff_le_log (b := 2) (x := -1022) (r := |x|) (by norm_num) hpos).mp
    apply this
    simpa using hx
  have he : ulpExp x = Int.log 2 |x| - 52 := by
    unfold ulpExp
    rw [max_eq_left hlog]
  obtain ⟨hlo, -⟩ := log_bounds x hx0
  unfold round
  rw [if_neg hx0, he]
  set k := Int.log 2 |x| with hk
  have hp : (0 : ℚ) < (2 : ℚ) ^ (k - 52) := two_zpow_pos _
  have herr := roundHalfEven_err (x / (2 : ℚ) ^ (k - 52))
  have hrew : (roundHalfEven (x / (2 : ℚ) ^ (k - 52)) : ℚ) * (2 : ℚ) ^ (k - 52) - x
      = ((roundHalfEven (x / (2 : ℚ) ^ (k - 52)) : ℚ) - x / (2 : ℚ) ^ (k - 52)) * (2 : ℚ) ^ (k - 52) := by
    field_simp
  rw [hrew, abs_mul, abs_of_pos hp]
  have hsplit : (2 : ℚ) ^ (k - 52) = (2 : ℚ) ^ k * (2 : ℚ) ^ (-53 : ℤ) * 2 := by
    rw [show k - 52 = k + (-53) + 1 by ring, zpow_add₀ (by norm_num), zpow_add₀ (by norm_num)]
    norm_num
  have h53 : (0 : ℚ) < (2 : ℚ) ^ (-53 : ℤ) := two_zpow_pos _
  calc |(roundHalfEven (x / (2 : ℚ) ^ (k - 52)) : ℚ) - x / (2 : ℚ) ^ (k - 52)| * (2 : ℚ) ^ (k - 52)
      ≤ 1 / 2 * (2 : ℚ) ^ (k - 52) := by
        apply mul_le_mul_of_nonneg_right herr (le_of_lt hp)
    _ = (2 : ℚ) ^ k * (2 : ℚ) ^ (-53 : ℤ) := by rw [hsplit]; ring
    _ ≤ |x| * (2 : ℚ) ^ (-53 : ℤ) := by
        apply mul_le_mul_of_nonneg_right hlo (le_of_lt h53)

theorem round_zero : round 0 = 0 := by simp [round]

/-- Integers below `2^53` in magnitude are doubles. -/
theorem round_intCast (n : ℤ) (hn : |n| < 2 ^ 53) : round (n : ℚ) = n := by
  by_cases h0 : n = 0
  · subst h0; simp [round]
  have hq0 : (n : ℚ) ≠ 0 := by exact_mod_cast h0
  have hpos : 0 < |(n : ℚ)| := abs_pos.mpr hq0
  have habs1 : (1 : ℚ) ≤ |(n : ℚ)| := by
    have : (1 : ℤ) ≤ |n| := Int.one_le_abs h0
    exact_mod_cast this
  have habs2 : |(n : ℚ)| < (2 : ℚ) ^ (53 : ℤ) := by
    have h2 : |(n : ℚ)| < (2 : ℚ) ^ (53 : ℕ) := by exact_mod_cast hn
    rw [show (53 : ℤ) = ((53 : ℕ) : ℤ) by norm_num, zpow_natCast]
    exact h2
  have hk0 : (0 : ℤ) ≤ Int.log 2 |(n : ℚ)| := by
    apply (Int.zpow_le_iff_le_log (b := 2) (x := 0) (r := |(n : ℚ)|) (by norm_num) hpos).mp
    simpa using habs1
  have hk1 : Int.log 2 |(n : ℚ)| < 53 := by
    apply (Int.lt_zpow_iff_log_lt (b := 2) (x := 53) (r := |(n : ℚ)|) (by norm_num) hpos).mp
    simpa using habs2
  have he : ulpExp (n : ℚ) = Int.log 2 |(n : ℚ)| - 52 := by
    unfold ulpExp
    rw [max_eq_left (by omega)]
  unfold round
  rw [if_neg hq0, he]
  set k := Int.log 2 |(n : ℚ)| with hk
  obtain ⟨j, hj⟩ : ∃ j : ℕ, (j : ℤ) = 52 - k := ⟨(52 - k).toNat, by omega⟩
  have hkj : k - 52 = -(j : ℤ) := by omega
  have hdiv : (n : ℚ) / (2 : ℚ) ^ (k - 52) = ((n * 2 ^ j : ℤ) : ℚ) := by
    rw [hkj, zpow_neg, zpow_natCast]
    push_cast
    field_simp
  rw [hdiv, roundHalfEven_intCast, hkj, zpow_neg, zpow_natCast]
  push_cast
  field_simp




theorem tiny_le : (2 : ℚ) ^ (-1022 : ℤ) ≤ 1 / 1000 := by
  norm_num

theorem eps_le : (2 : ℚ) ^ (-53 : ℤ) ≤ 1 / 9000000000000000 := by
  norm_num

theorem round_near (x B : ℚ) (hB : |x| ≤ B) (h : x = 0 ∨ 1 / 1000 ≤ |x|) :
    |round x - x| ≤ B / 9000000000000000 := by
  have hB0 : 0 ≤ B := le_trans (abs_nonneg x) hB
  rcases h with h | h
  · subst h
    rw [round_zero]
    simp
    positivity
  · have h1 := round_err x (le_trans tiny_le h)
    have h53 : (0 : ℚ) ≤ (2 : ℚ) ^ (-53 : ℤ) := le_of_lt (two_zpow_pos _)
    calc |round x - x| ≤ |x| * (2 : ℚ) ^ (-53 : ℤ) := h1
      _ ≤ B * (2 : ℚ) ^ (-53 : ℤ) := mul_le_mul_of_nonneg_right hB h53
      _ ≤ B * (1 / 9000000000000000) := mul_le_mul_of_nonneg_left eps_le hB0
      _ = B / 9000000000000000 := by ring

theorem half_cent_near : |half_cent - 1 / 200| ≤ 1 / 10 ^ 15 := by
  have h := round_near (5 / 1000) 1 (by rw [abs_of_pos] <;> norm_num)
    (Or.inr (by rw [abs_of_pos] <;> norm_num))
  unfold half_cent
  have e : (5 : ℚ) / 1000 = 1 / 200 := by norm_num
  rw [e] at h ⊢
  refine le_trans h ?_
  norm_num

/-- The debit leg: the `+0.005` bias followed by truncation returns the cents. -/
theorem cents_debit (c : ℕ) (hc : c < 10 ^ 10) :
    toInt (mul (add (div (c : ℚ) 100) half_cent) 100) = (c : ℤ) := by
  have hcq : (c : ℚ) < 10 ^ 10 := by exact_mod_cast hc
  have hc0 : (0 : ℚ) ≤ (c : ℚ) := Nat.cast_nonneg c
  have hh := abs_le.mp half_cent_near
  -- the quotient
  have h1 := round_near ((c : ℚ) / 100) (10 ^ 8)
    (by rw [abs_of_nonneg (by positivity)]; linarith)
    (by
      rcases Nat.eq_zero_or_pos c with h | h
      · left; simp [h]
      · right
        have : (1 : ℚ) ≤ (c : ℚ) := by exact_mod_cast h
        rw [abs_of_nonneg (by positivity)]; linarith)
  have h1 := abs_le.mp h1
  unfold div at *
  set q := round ((c : ℚ) / 100) with hq
  -- the biased sum
  have hx2pos : 1 / 1000 ≤ q + half_cent := by linarith [hh.1, h1.1]
  have h2 := round_near (q + half_cent) (10 ^ 8 + 1)
    (by rw [abs_of_nonneg (by linarith)]; linarith [hh.2, h1.2])
    (Or.inr (by rw [abs_of_nonneg (by linarith)]; exact hx2pos))
  have h2 := abs_le.mp h2
  unfold add
  set s := round (q + half_cent) with hs
  -- the product
  have hx3pos : 1 / 1000 ≤ s * 100 := by linarith [h2.1]
  have h3 := round_near (s * 100) (10 ^ 10 + 200)
    (by rw [abs_of_nonneg (by linarith)]; linarith [h2.2, hh.2, h1.2])
    (Or.inr (by rw [abs_of_nonneg (by linarith)]; exact hx3pos))
  have h3 := abs_le.mp h3
  unfold mul
  set p := round (s * 100) with hp
  have hlo : (c : ℚ) ≤ p := by linarith [h3.1, h2.1, h1.1, hh.1]
  have hhi : p < (c : ℚ) + 1 := by linarith [h3.2, h2.2, h1.2, hh.2]
  unfold toInt
  rw [if_pos (le_trans hc0 hlo)]
  rw [Int.floor_eq_iff]
  constructor
  · exact_mod_cast hlo
  · exact_mod_cast hhi

/-- The credit leg: the amount is negative and the `-0.005` bias followed by
truncation returns the cents. -/
theorem cents_credit (c : ℕ) (h0 : 0 < c) (hc : c < 10 ^ 10) :
    div (-(c : ℚ)) 100 < 0 ∧
    toInt (mul (sub (div (-(c : ℚ)) 100) half_cent) (-100)) = (c : ℤ) := by
  have hcq : (c : ℚ) < 10 ^ 10 := by exact_mod_cast hc
  have hc1 : (1 : ℚ) ≤ (c : ℚ) := by exact_mod_cast h0
  have hh := abs_le.mp half_cent_near
  have h1 := round_near (-(c : ℚ) / 100) (10 ^ 8)
    (by rw [abs_of_nonpos (by linarith)]; linarith)
    (Or.inr (by rw [abs_of_nonpos (by linarith)]; linarith))
  have h1 := abs_le.mp h1
  unfold div at *
  set q := round (-(c : ℚ) / 100) with hq
  have hqneg : q < 0 := by linarith [h1.2]
  refine ⟨hqneg, ?_⟩
  have h2 := round_near (q - half_cent) (10 ^ 8 + 1)
    (by rw [abs_of_nonpos (by linarith [hh.1])]; linarith [hh.2, h1.1])
    (Or.inr (by rw [abs_of_nonpos (by linarith [hh.1])]; linarith [hh.1, h1.2]))
  have h2 := abs_le.mp h2
  unfold sub
  set s := round (q - half_cent) with hs
  have hsneg : s ≤ -(1 / 1000) := by linarith [h2.2, hh.1, h1.2]
  have h3 := round_near (s * (-100)) (10 ^ 10 + 200)
    (by rw [abs_of_nonneg (by linarith)]; linarith [h2.1, hh.2, h1.1])
    (Or.inr (by rw [abs_of_nonneg (by linarith)]; linarith))
  have h3 := abs_le.mp h3
  unfold mul
  set p := round (s * (-100)) with hp
  have hlo : (c : ℚ) ≤ p := by linarith [h3.1, h2.2, h1.2, hh.1]
  have hhi : p < (c : ℚ) + 1 := by linarith [h3.2, h2.1, h1.1, hh.2]
  unfold toInt
  rw [if_pos (by linarith)]
  rw [Int.floor_eq_iff]
  constructor
  · exact_mod_cast hlo
  · exact_mod_cast hhi




end F64

namespace F64

theorem roundHalfEven_eq_of_near (y : ℚ) (m : ℤ) (h : |y - m| < 1 / 2) :
    roundHalfEven y = m := by
  have h := abs_lt.mp h
  unfold roundHalfEven
  by_cases hle : (m : ℚ) ≤ y
  · have hf : ⌊y⌋ = m := by
      rw [Int.floor_eq_iff]; constructor <;> linarith [h.1, h.2]
    rw [hf, if_pos (by linarith [h.2])]
  · push_neg at hle
    have hf : ⌊y⌋ = m - 1 := by
      rw [Int.floor_eq_iff]; push_cast; constructor <;> linarith [h.1, h.2]
    rw [hf]
    push_cast
    rw [if_neg (by linarith [h.1]), if_pos (by linarith [h.1])]
    ring

/-- Evaluation of `round`: the binade `k` and the significand `m` determine the
double. -/
theorem round_eq_of_bounds (x : ℚ) (k m : ℤ) (hk : -1022 ≤ k)
    (h1 : (2 : ℚ) ^ k ≤ |x|) (h2 : |x| < (2 : ℚ) ^ (k + 1))
    (hm : |x / (2 : ℚ) ^ (k - 52) - m| < 1 / 2) :
    round x = (m : ℚ) * (2 : ℚ) ^ (k - 52) := by
  have hpos : 0 < |x| := lt_of_lt_of_le (two_zpow_pos _) h1
  have hx0 : x ≠ 0 := abs_pos.mp hpos
  have hlog : Int.log 2 |x| = k := by
    have a : k ≤ Int.log 2 |x| := by
      apply (Int.zpow_le_iff_le_log (b := 2) (x := k) (r := |x|) (by norm_num) hpos).mp
      simpa using h1
    have b : Int.log 2 |x| < k + 1 := by
      apply (Int.lt_zpow_iff_log_lt (b := 2) (x := k + 1) (r := |x|) (by norm_num) hpos).mp
      simpa using h2
    omega
  unfold round ulpExp
  rw [if_neg hx0, hlog, max_eq_left hk, roundHalfEven_eq_of_near _ m hm]

theorem round_neg_123_45 :
    round (-12345 / 100) = -8687021468732621 / 70368744177664 := by
  have h := round_eq_of_bounds (-12345 / 100) 6 (-8687021468732621) (by norm_num)
    (by rw [abs_of_neg] <;> norm_num) (by rw [abs_of_neg] <;> norm_num)
    (by norm_num [abs_lt])
  rw [h]; norm_num

end F64

/-! ### Parsing decimal fields -/

theorem decValue_foldl (s : List Nat) (a : Nat) (h : IsDigits s) :
    s.foldl (fun acc c =>
      match acc with
      | some a => if 48 ≤ c ∧ c ≤ 57 then some (a * 10 + (c - 48)) else none
      | none => none) (some a)
    = some (s.foldl (fun a c => a * 10 + (c - 48)) a) := by
  induction s generalizing a with
  | nil => rfl
  | cons c cs ih =>
    have hc : 48 ≤ c ∧ c ≤ 57 := h c (List.mem_cons_self _ _)
    simp only [List.foldl_cons, hc, and_self, if_true]
    exact ih _ (fun x hx => h x (List.mem_cons_of_mem _ hx))

theorem decValue_of_digits (s : List Nat) (h : IsDigits s) (hne : s ≠ []) :
    decValue s = some (digitsVal s) := by
  unfold decValue digitsVal
  rw [if_neg hne]
  exact decValue_foldl s 0 h

theorem digitsVal_foldl_lt (s : List Nat) (a : Nat) (h : IsDigits s) :
    s.foldl (fun a c => a * 10 + (c - 48)) a < (a + 1) * 10 ^ s.length := by
  induction s generalizing a with
  | nil => simp
  | cons c cs ih =>
    have hc : 48 ≤ c ∧ c ≤ 57 := h c (List.mem_cons_self _ _)
    have := ih (a * 10 + (c - 48)) (fun x hx => h x (List.mem_cons_of_mem _ hx))
    simp only [List.foldl_cons, List.length_cons]
    calc _ < (a * 10 + (c - 48) + 1) * 10 ^ cs.length := this
      _ ≤ ((a + 1) * 10) * 10 ^ cs.length := by
          apply Nat.mul_le_mul_right; omega
      _ = (a + 1) * 10 ^ (cs.length + 1) := by ring

theorem digitsVal_lt (s : List Nat) (h : IsDigits s) : digitsVal s < 10 ^ s.length := by
  have := digitsVal_foldl_lt s 0 h
  simpa [digitsVal] using this

theorem filter_comma_of_digits (s : List Nat) (h : IsDigits s) :
    s.filter (fun chr => chr != 44) = s := by
  apply List.filter_eq_self.mpr
  intro c hc
  have := h c hc
  simp; omega

theorem dropWhile_space_of_digits (s : List Nat) (h : IsDigits s) :
    s.dropWhile (fun c => c == 32) = s := by
  cases s with
  | nil => rfl
  | cons c cs =>
    have hc := h c (List.mem_cons_self _ _)
    have : (c == 32) = false := by simp; omega
    simp [List.dropWhile, this]

theorem trimSpaces_of_digits (s : List Nat) (h : IsDigits s) : trimSpaces s = s := by
  unfold trimSpaces
  rw [dropWhile_space_of_digits s h]
  rw [dropWhile_space_of_digits s.reverse (fun c hc => h c (List.mem_reverse.mp hc))]
  exact List.reverse_reverse s


/-! ### Finite results -/

theorem F64.round_abs_le (x : ℚ) : |F64.round x| ≤ 2 * |x| + 1 := by
  by_cases h0 : x = 0
  · subst h0; rw [F64.round_zero]; simp
  have hpos : 0 < |x| := abs_pos.mpr h0
  by_cases hx : (2 : ℚ) ^ (-1022 : ℤ) ≤ |x|
  · have h := F64.round_err x hx
    have h53 : (2 : ℚ) ^ (-53 : ℤ) ≤ 1 := by norm_num
    have h1 : |F64.round x - x| ≤ |x| := le_trans h (by nlinarith)
    have h2 := abs_sub_abs_le_abs_sub (F64.round x) x
    linarith
  · push_neg at hx
    have hlog : Int.log 2 |x| < -1022 :=
      (Int.lt_zpow_iff_log_lt (b := 2) (by norm_num) hpos).mp (by simpa using hx)
    have he : F64.ulpExp x = -1074 := by
      unfold F64.ulpExp
      rw [max_eq_right (le_of_lt hlog)]
      norm_num
    unfold F64.round
    rw [if_neg h0, he]
    have herr := F64.roundHalfEven_err (x / (2 : ℚ) ^ (-1074 : ℤ))
    have hp : (0 : ℚ) < (2 : ℚ) ^ (-1074 : ℤ) := F64.two_zpow_pos _
    have hle : (2 : ℚ) ^ (-1074 : ℤ) ≤ 1 := by
      apply zpow_le_one_of_nonpos₀ <;> norm_num
    set p := (2 : ℚ) ^ (-1074 : ℤ) with hpdef
    set r := (F64.roundHalfEven (x / p) : ℚ) with hr
    have hrew : r * p - x = (r - x / p) * p := by field_simp
    have h3 : |r * p - x| ≤ 1 := by
      rw [hrew, abs_mul, abs_of_pos hp]
      calc |r - x / p| * p ≤ 1 / 2 * 1 := by
            apply mul_le_mul herr hle (le_of_lt hp) (by norm_num)
        _ ≤ 1 := by norm_num
    have h4 := abs_sub_abs_le_abs_sub (r * p) x
    linarith

theorem F64.maxFinite_ge : (2 : ℚ) ^ 1001 + 1 ≤ F64.maxFinite := by
  unfold F64.maxFinite
  norm_num

/-- An operation whose exact result is at most `2^1000` in magnitude returns a
finite double. -/
theorem Float64.ofRat_eq_fin (x : ℚ) (h : |x| ≤ 2 ^ 1000) :
    Float64.ofRat x = Float64.fin (F64.round x) := by
  unfold Float64.ofRat
  rw [if_neg]
  rw [not_lt]
  have h1 := F64.round_abs_le x
  have h2 := F64.maxFinite_ge
  have h3 : (2 : ℚ) * 2 ^ 1000 = 2 ^ 1001 := by norm_num
  linarith


/-! ### `ParseFloat` on digit strings -/

theorem lower_digit (c : Nat) (h : 48 ≤ c ∧ c ≤ 57) : lower c = c := by
  obtain ⟨h1, h2⟩ := h
  unfold lower
  interval_cases c <;> rfl

theorem dropSign_digits (s : List Nat) (h : IsDigits s) : dropSign s = s := by
  cases s with
  | nil => rfl
  | cons c t =>
    have hc := h c (List.mem_cons_self _ _)
    show (if c = 43 ∨ c = 45 then t else c :: t) = c :: t
    rw [if_neg (show ¬ (c = 43 ∨ c = 45) by omega)]

theorem special_digits (s : List Nat) (h : IsDigits s) : special s = none := by
  cases s with
  | nil => rfl
  | cons c t =>
    have hc := h c (List.mem_cons_self _ _)
    show (if c = 43 ∨ c = 45 then specialInf (decide (c = 45)) 1 t
      else if c = 105 ∨ c = 73 then specialInf false 0 (c :: t)
      else if c = 110 ∨ c = 78 then
        (if commonPrefixLenIgnoreCase (c :: t) [110, 97, 110] = 3 then some (Float64.nan, 3)
          else none)
      else none) = none
    rw [if_neg (show ¬ (c = 43 ∨ c = 45) by omega), if_neg (show ¬ (c = 105 ∨ c = 73) by omega),
      if_neg (show ¬ (c = 110 ∨ c = 78) by omega)]

/-- The mantissa loop on a string of digits reads it to its end and leaves its
value. -/
theorem readDigits_digits (s : List Nat) (st : MantState) (h : IsDigits s)
    (hdot : st.sawdot = false) (hz : st.nd = 0 → st.m = 0) :
    ∃ st1, readDigits false s st = (st1, [])
      ∧ st1.m = s.foldl (fun a c => a * 10 + (c - 48)) st.m
      ∧ st1.sawdot = false ∧ st1.underscores = st.underscores
      ∧ (st.sawdigits = true ∨ s ≠ [] → st1.sawdigits = true) := by
  induction s generalizing st with
  | nil =>
    refine ⟨st, rfl, rfl, hdot, rfl, fun hn => ?_⟩
    rcases hn with hn | hn
    · exact hn
    · exact absurd rfl hn
  | cons c cs ih =>
    have hc := h c (List.mem_cons_self _ _)
    have hcs : IsDigits cs := fun x hx => h x (List.mem_cons_of_mem _ hx)
    unfold readDigits
    rw [if_neg (show ¬ c = 95 by omega), if_neg (show ¬ c = 46 by omega), if_pos hc]
    by_cases hlead : c = 48 ∧ st.nd = 0
    · rw [if_pos hlead]
      obtain ⟨st1, e1, e2, e3, e4, e5⟩ := ih { st with sawdigits := true, dp := st.dp - 1 }
        hcs hdot hz
      refine ⟨st1, e1, ?_, e3, e4, fun _ => e5 (Or.inl rfl)⟩
      rw [e2, List.foldl_cons, hlead.1, hz hlead.2]
    · rw [if_neg hlead]
      obtain ⟨st1, e1, e2, e3, e4, e5⟩ := ih
        { st with sawdigits := true, nd := st.nd + 1, m := st.m * (if false = true then 16 else 10) + (c - 48) }
        hcs hdot (fun hn => absurd hn (Nat.succ_ne_zero _))
      refine ⟨st1, e1, ?_, e3, e4, fun _ => e5 (Or.inl rfl)⟩
      rw [e2, List.foldl_cons]
      simp

theorem get?_one_digits (s : List Nat) (h : IsDigits s) :
    (s.get? 1).map lower ≠ some 120 := by
  cases hg : s.get? 1 with
  | none => simp
  | some d =>
    have hd : d ∈ s := List.get?_mem hg
    have := h d hd
    rw [Option.map_some', lower_digit d this]
    intro e
    simp only [Option.some.injEq] at e
    omega

/-- On a non-empty string of digits `readFloat` returns its value. -/
theorem readFloat_digits (s : List Nat) (h : IsDigits s) (hne : s ≠ []) :
    readFloat s = some (digitsVal s : ℚ) := by
  obtain ⟨st1, e1, e2, e3, e4, e5⟩ := readDigits_digits s
    { m := 0, nd := 0, dp := 0, sawdot := false, sawdigits := false, underscores := false }
    h rfl (fun _ => rfl)
  have hhead : s.head? ≠ some 45 := by
    cases s with
    | nil => simp
    | cons c t =>
      have hc := h c (List.mem_cons_self _ _)
      simp only [List.head?_cons, ne_eq, Option.some.injEq]
      omega
  have hhex : decide (2 < s.length ∧ s.head? = some 48
      ∧ (s.get? 1).map lower = some 120) = false := by
    rw [decide_eq_false_iff_not]
    rintro ⟨-, -, h3⟩
    exact get?_one_digits s h h3
  unfold readFloat
  simp only [dropSign_digits s h, hhex, Bool.false_eq_true, if_false, e1, e5 (Or.inr hne)]
  unfold finishFloat
  simp only [ne_eq, not_true_eq_false, if_false, e4, Bool.false_eq_true, false_and, e3,
    decide_eq_false_iff_not.mpr hhead]
  congr 1
  rw [e2]
  simp [digitsVal]

/-- On a non-empty string of digits whose value is below `2^53`, `ParseFloat`
returns that value. -/
theorem parseFloat_digits (s : List Nat) (h : IsDigits s) (hne : s ≠ [])
    (hlt : digitsVal s < 2 ^ 53) : parseFloat s = some (Float64.fin (digitsVal s : ℚ)) := by
  unfold parseFloat
  rw [special_digits s h, readFloat_digits s h hne]
  have hr := F64.round_intCast (digitsVal s : ℤ)
    (by rw [abs_of_nonneg (by positivity)]; exact_mod_cast hlt)
  simp only [Int.cast_natCast] at hr
  dsimp only
  rw [hr, if_neg]
  rw [not_lt, abs_of_nonneg (by positivity)]
  have h2 := F64.maxFinite_ge
  have h3 : ((digitsVal s : ℕ) : ℚ) < 2 ^ 53 := by exact_mod_cast hlt
  have h4 : (2 : ℚ) ^ 53 ≤ 2 ^ 1001 := by norm_num
  linarith


theorem parseCurrency_of_digits (s : List Nat) (h : IsDigits s) (hlen : s.length = 10) :
    parseCurrency s = some (Float64.fin (digitsVal s : ℚ)) := by
  have hne : s ≠ [] := by intro e; rw [e] at hlen; simp at hlen
  have hlt : digitsVal s < 10 ^ 10 := by have := digitsVal_lt s h; rwa [hlen] at this
  unfold parseCurrency
  rw [filter_comma_of_digits s h, trimSpaces_of_digits s h]
  exact parseFloat_digits s h hne (lt_trans hlt (by norm_num))

/-! ### Finite arithmetic -/

theorem Float64.add_fin (a b : ℚ) (h : |a + b| ≤ 2 ^ 1000) :
    Float64.add (Float64.fin a) (Float64.fin b) = Float64.fin (F64.add a b) :=
  Float64.ofRat_eq_fin (a + b) h

theorem Float64.sub_fin (a b : ℚ) (h : |a - b| ≤ 2 ^ 1000) :
    Float64.sub (Float64.fin a) (Float64.fin b) = Float64.fin (F64.sub a b) :=
  Float64.ofRat_eq_fin (a - b) h

theorem Float64.mul_fin (a b : ℚ) (h : |a * b| ≤ 2 ^ 1000) :
    Float64.mul (Float64.fin a) (Float64.fin b) = Float64.fin (F64.mul a b) :=
  Float64.ofRat_eq_fin (a * b) h

theorem Float64.div_fin (a b : ℚ) (hb : b ≠ 0) (h : |a / b| ≤ 2 ^ 1000) :
    Float64.div (Float64.fin a) (Float64.fin b) = Float64.fin (F64.div a b) := by
  show (if b = 0 then (if a = 0 then Float64.nan else Float64.inf (decide (a < 0)))
    else Float64.ofRat (a / b)) = Float64.fin (F64.div a b)
  rw [if_neg hb]
  exact Float64.ofRat_eq_fin (a / b) h

theorem Float64.toInt_fin (q : ℚ) (h1 : -(2 ^ 63) ≤ F64.toInt q) (h2 : F64.toInt q < 2 ^ 63) :
    Float64.toInt (Float64.fin q) = F64.toInt q := by
  show (if -(2 ^ 63) ≤ F64.toInt q ∧ F64.toInt q < 2 ^ 63 then F64.toInt q else -(2 ^ 63))
    = F64.toInt q
  rw [if_pos ⟨h1, h2⟩]

/-- Doubles that the program computes from a ten-digit amount are far below the
overflow bound. -/
theorem F64.round_small (x : ℚ) (h : |x| ≤ 10 ^ 20) : |F64.round x| ≤ 10 ^ 21 := by
  have := F64.round_abs_le x
  linarith

theorem F64.small_le (x : ℚ) (h : |x| ≤ 10 ^ 30) : |x| ≤ 2 ^ 1000 :=
  le_trans h (by norm_num)

theorem F64.half_cent_abs : |F64.half_cent| ≤ 2 := by
  have := F64.round_abs_le (5 / 1000)
  unfold F64.half_cent
  rw [abs_of_pos (show (0 : ℚ) < 5 / 1000 by norm_num)] at this
  linarith

theorem F64.div_cents_abs (c : ℕ) (s : ℚ) (hs : |s| = 1) (hc : c < 10 ^ 10) :
    |s * (c : ℚ) / 100| ≤ 10 ^ 8 := by
  have hcq : (c : ℚ) < 10 ^ 10 := by exact_mod_cast hc
  have hc0 : (0 : ℚ) ≤ (c : ℚ) := Nat.cast_nonneg c
  rw [abs_div, abs_mul, hs, one_mul, abs_of_nonneg hc0, abs_of_pos (show (0 : ℚ) < 100 by norm_num)]
  linarith

/-- The debit branch of `debitCreditTotals` on the amount of a ten-digit field
of value `c`: all intermediate results are finite and the sum is `c`. -/
theorem Float64.debit_toInt (c : ℕ) (hc : c < 10 ^ 10) :
    Float64.toInt (Float64.mul (Float64.add (Float64.fin (F64.div (c : ℚ) 100))
      (Float64.fin F64.half_cent)) (Float64.fin 100)) = (c : ℤ) := by
  have hq : |F64.div (c : ℚ) 100| ≤ 10 ^ 21 := by
    apply F64.round_small
    have := F64.div_cents_abs c 1 (by norm_num) hc
    rw [one_mul] at this
    linarith
  have hh := F64.half_cent_abs
  have ha : |F64.div (c : ℚ) 100 + F64.half_cent| ≤ 10 ^ 22 := by
    have := abs_add (F64.div (c : ℚ) 100) F64.half_cent
    linarith
  have hs : |F64.add (F64.div (c : ℚ) 100) F64.half_cent| ≤ 10 ^ 23 := by
    have := F64.round_abs_le (F64.div (c : ℚ) 100 + F64.half_cent)
    unfold F64.add
    linarith
  have hm : |F64.add (F64.div (c : ℚ) 100) F64.half_cent * 100| ≤ 10 ^ 25 := by
    rw [abs_mul, abs_of_pos (show (0 : ℚ) < 100 by norm_num)]
    linarith
  have hv := F64.cents_debit c hc
  rw [Float64.add_fin _ _ (F64.small_le _ (le_trans ha (by norm_num))),
    Float64.mul_fin _ _ (F64.small_le _ (le_trans hm (by norm_num))),
    Float64.toInt_fin _ (by rw [hv]; omega) (by rw [hv]; omega), hv]

/-- The credit branch of `debitCreditTotals` on the amount of a ten-digit field
of non-zero value `c`. -/
theorem Float64.credit_toInt (c : ℕ) (h0 : 0 < c) (hc : c < 10 ^ 10) :
    Float64.toInt (Float64.mul (Float64.sub (Float64.fin (F64.div (-(c : ℚ)) 100))
      (Float64.fin F64.half_cent)) (Float64.fin (-100))) = (c : ℤ) := by
  have hq : |F64.div (-(c : ℚ)) 100| ≤ 10 ^ 21 := by
    apply F64.round_small
    have := F64.div_cents_abs c (-1) (by norm_num) hc
    rw [neg_one_mul] at this
    linarith
  have hh := F64.half_cent_abs
  have ha : |F64.div (-(c : ℚ)) 100 - F64.half_cent| ≤ 10 ^ 22 := by
    have := abs_sub (F64.div (-(c : ℚ)) 100) F64.half_cent
    linarith
  have hs : |F64.sub (F64.div (-(c : ℚ)) 100) F64.half_cent| ≤ 10 ^ 23 := by
    have := F64.round_abs_le (F64.div (-(c : ℚ)) 100 - F64.half_cent)
    unfold F64.sub
    linarith
  have hm : |F64.sub (F64.div (-(c : ℚ)) 100) F64.half_cent * (-100)| ≤ 10 ^ 25 := by
    rw [abs_mul, abs_neg, abs_of_pos (show (0 : ℚ) < 100 by norm_num)]
    linarith
  have hv := (F64.cents_credit c h0 hc).2
  rw [Float64.sub_fin _ _ (F64.small_le _ (le_trans ha (by norm_num))),
    Float64.mul_fin _ _ (F64.small_le _ (le_trans hm (by norm_num))),
    Float64.toInt_fin _ (by rw [hv]; omega) (by rw [hv]; omega), hv]

/-! ### Posting amount (C4) -/

theorem postAmt_eq (e : Entry) (d0 : List Nat) (rest : List (List Nat))
    (hdata : e.data = d0 :: rest) (hlen : 39 ≤ d0.length)
    (hdig : IsDigits (field d0 29 39)) :
    e.postAmt = .ok (Float64.fin (if field d0 1 3 ∈ creditCodes
      then F64.round (-(digitsVal (field d0 29 39) : ℚ) / 100)
      else F64.round ((digitsVal (field d0 29 39) : ℚ) / 100))) := by
  have hl : (field d0 29 39).length = 10 := field_length d0 29 39 (by omega) hlen
  have hlt : digitsVal (field d0 29 39) < 10 ^ 10 := by
    have := digitsVal_lt _ hdig; rwa [hl] at this
  have hcq : ((digitsVal (field d0 29 39) : ℕ) : ℚ) < 10 ^ 10 := by exact_mod_cast hlt
  have hc0 : (0 : ℚ) ≤ ((digitsVal (field d0 29 39) : ℕ) : ℚ) := Nat.cast_nonneg _
  unfold Entry.postAmt
  rw [hdata, index_zero_cons]
  simp only [bind, Except.bind, slice_eq_field d0 29 39 (by omega) hlen,
    slice_eq_field d0 1 3 (by omega) (show 3 ≤ d0.length by omega),
    parseCurrency_of_digits _ hdig hl, pure, Except.pure]
  by_cases hcr : field d0 1 3 ∈ creditCodes
  · simp only [hcr, decide_True, if_true]
    have hm : F64.mul ((digitsVal (field d0 29 39) : ℕ) : ℚ) (-1)
        = -((digitsVal (field d0 29 39) : ℕ) : ℚ) := by
      unfold F64.mul
      have := F64.round_intCast (-(digitsVal (field d0 29 39) : ℤ))
        (by rw [abs_neg, abs_of_nonneg (by positivity)]; omega)
      push_cast at this
      rw [mul_neg_one, this]
    rw [Float64.mul_fin _ _ (F64.small_le _ (by
        rw [mul_neg_one, abs_neg, abs_of_nonneg hc0]; linarith)), hm,
      Float64.div_fin _ _ (by norm_num) (F64.small_le _ (by
        have := F64.div_cents_abs (digitsVal (field d0 29 39)) (-1) (by norm_num) hlt
        rw [neg_one_mul] at this
        linarith))]
    rfl
  · simp only [hcr, decide_False, if_false, Bool.false_eq_true]
    rw [Float64.div_fin _ _ (by norm_num) (F64.small_le _ (by
        have := F64.div_cents_abs (digitsVal (field d0 29 39)) 1 (by norm_num) hlt
        rw [one_mul] at this
        linarith))]
    rfl



/-! ### Overwriting fields -/

theorem overwrite_length (dst : List Nat) (k : Nat) (src : List Nat) (hk : k ≤ dst.length) :
    (overwrite dst k src).length = dst.length := by
  simp [overwrite]; omega

theorem getElem?_overwrite (dst : List Nat) (k : Nat) (src : List Nat) (hk : k ≤ dst.length)
    (i : Nat) :
    (overwrite dst k src)[i]? =
      if k ≤ i ∧ i < k + src.length ∧ i < dst.length then src[i - k]? else dst[i]? := by
  unfold overwrite
  by_cases h1 : i < k
  · rw [List.append_assoc, List.getElem?_append_left (by simp; omega)]
    rw [if_neg (by omega), List.getElem?_take_of_lt h1]
  · rw [List.append_assoc, List.getElem?_append_right (by simp; omega)]
    simp only [List.length_take, Nat.min_eq_left hk]
    by_cases h2 : i < k + src.length ∧ i < dst.length
    · rw [if_pos ⟨by omega, h2⟩, List.getElem?_append_left (by simp; omega)]
      rw [List.getElem?_take_of_lt (by omega)]
    · rw [if_neg (by omega), List.getElem?_append_right (by simp; omega)]
      simp only [List.length_take, List.getElem?_drop]
      by_cases h3 : i < dst.length
      · congr 1; omega
      · rw [List.getElem?_eq_none (by omega), List.getElem?_eq_none (by omega)]

theorem getElem?_field (r : List Nat) (lo hi j : Nat) :
    (field r lo hi)[j]? = if j < hi - lo then r[lo + j]? else none := by
  unfold field
  by_cases h : j < hi - lo
  · rw [if_pos h, List.getElem?_take_of_lt h, List.getElem?_drop]
  · rw [if_neg h, List.getElem?_eq_none]
    simp; omega

/-- A field that lies inside the overwritten range holds the bytes written. -/
theorem field_overwrite_self (dst : List Nat) (k : Nat) (src : List Nat)
    (h : k + src.length ≤ dst.length) :
    field (overwrite dst k src) k (k + src.length) = src := by
  apply List.ext_getElem?
  intro j
  rw [getElem?_field, getElem?_overwrite dst k src (by omega)]
  by_cases hj : j < src.length
  · rw [if_pos (by omega), if_pos (by omega)]; congr 1; omega
  · rw [if_neg (by omega), List.getElem?_eq_none (by omega)]

/-- A field disjoint from the overwritten range is unchanged. -/
theorem field_overwrite_disjoint (dst : List Nat) (k : Nat) (src : List Nat) (lo hi : Nat)
    (hk : k ≤ dst.length) (h : hi ≤ k ∨ k + src.length ≤ lo) :
    field (overwrite dst k src) lo hi = field dst lo hi := by
  apply List.ext_getElem?
  intro j
  rw [getElem?_field, getElem?_field, getElem?_overwrite dst k src hk]
  by_cases hj : j < hi - lo
  · rw [if_pos hj, if_pos hj, if_neg (by omega)]
  · rw [if_neg hj, if_neg hj]

theorem copyAt_ok (dst : List Nat) (k : Nat) (src : List Nat) (hk : k ≤ dst.length) :
    copyAt dst k src = .ok (overwrite dst k src) := by
  simp [copyAt, hk]




/-! ### Decimal rendering -/

theorem lastDigits_length (w n : Nat) : (lastDigits w n).length = w := by
  induction w generalizing n with
  | zero => rfl
  | succ w ih => simp [lastDigits, ih]

theorem lastDigits_isDigits (w n : Nat) : IsDigits (lastDigits w n) := by
  induction w generalizing n with
  | zero => intro c hc; simp [lastDigits] at hc
  | succ w ih =>
    intro c hc
    simp only [lastDigits, List.mem_append, List.mem_singleton] at hc
    rcases hc with hc | hc
    · exact ih _ c hc
    · omega

theorem digitsVal_append_singleton (s : List Nat) (c : Nat) :
    digitsVal (s ++ [c]) = digitsVal s * 10 + (c - 48) := by
  simp [digitsVal, List.foldl_append]

theorem digitsVal_lastDigits (w n : Nat) : digitsVal (lastDigits w n) = n % 10 ^ w := by
  induction w generalizing n with
  | zero => simp [lastDigits, digitsVal, Nat.mod_one]
  | succ w ih =>
    rw [lastDigits, digitsVal_append_singleton, ih]
    have h1 : 48 + n % 10 - 48 = n % 10 := by omega
    rw [h1, pow_succ, Nat.mul_comm (10 ^ w) 10, Nat.mod_mul]
    ring

theorem numDigitsAux_le (f n w : Nat) (hw : 1 ≤ w) (hn : n < 10 ^ w) :
    numDigitsAux f n ≤ w := by
  induction f generalizing n w with
  | zero => simpa [numDigitsAux] using hw
  | succ f ih =>
    unfold numDigitsAux
    split_ifs with h10
    · exact hw
    · obtain ⟨v, rfl⟩ : ∃ v, w = v + 1 := ⟨w - 1, by omega⟩
      have hv : 1 ≤ v := by
        rcases Nat.eq_zero_or_pos v with h | h
        · subst h; simp at hn; omega
        · exact h
      have hdiv : n / 10 < 10 ^ v := by
        rw [Nat.div_lt_iff_lt_mul (by norm_num)]
        rw [pow_succ] at hn; exact hn
      have := ih (n / 10) v hv hdiv
      omega

theorem sprintf0_of_lt (w n : Nat) (hw : 1 ≤ w) (hn : n < 10 ^ w) :
    sprintf0 w (n : Int) = lastDigits w n := by
  unfold sprintf0
  rw [if_pos (Int.natCast_nonneg n), Int.toNat_natCast]
  have h : numDigits n ≤ w := numDigitsAux_le n n w hw hn
  rw [max_eq_left h]

theorem lastDigits_drop (a b n : Nat) :
    (lastDigits (a + b) n).drop a = lastDigits b n := by
  induction b generalizing n with
  | zero =>
    simp only [Nat.add_zero, lastDigits]
    apply List.drop_of_length_le
    rw [lastDigits_length]
  | succ b ih =>
    rw [← Nat.add_assoc, lastDigits, lastDigits]
    rw [List.drop_append_of_le_length (by rw [lastDigits_length]; omega), ih]

/-- The last ten characters of `%010d` applied to a non-negative number are its
ten low-order digits. -/
theorem lastBytes_sprintf0 (n : Nat) :
    lastBytes (sprintf0 10 (n : Int)) 10 = .ok (lastDigits 10 n) := by
  unfold sprintf0
  rw [if_pos (Int.natCast_nonneg n), Int.toNat_natCast]
  unfold lastBytes
  rw [lastDigits_length, if_pos (le_max_left _ _)]
  have h : max 10 (numDigits n) = (max 10 (numDigits n) - 10) + 10 := by
    have := le_max_left 10 (numDigits n); omega
  congr 1
  conv_lhs => rw [h]
  rw [Nat.add_sub_cancel]
  exact lastDigits_drop _ _ _




/-! ### Debit and credit totals (C5) -/

theorem F64.div_nonneg_of_cents (c : ℕ) (hc : c < 10 ^ 10) : ¬ F64.div (c : ℚ) 100 < 0 := by
  rcases Nat.eq_zero_or_pos c with h | h
  · subst h; simp [F64.div, F64.round_zero]
  · have hcq : (c : ℚ) < 10 ^ 10 := by exact_mod_cast hc
    have hc1 : (1 : ℚ) ≤ (c : ℚ) := by exact_mod_cast h
    have h1 := F64.round_near ((c : ℚ) / 100) (10 ^ 8)
      (by rw [abs_of_nonneg (by positivity)]; linarith)
      (Or.inr (by rw [abs_of_nonneg (by positivity)]; linarith))
    have h1 := abs_le.mp h1
    unfold F64.div
    linarith [h1.1]

theorem Entry.data_eq_of_ne_nil (e : Entry) (h : e.data ≠ []) :
    e.data = e.detail :: e.data.tail := by
  unfold Entry.detail
  cases hd : e.data with
  | nil => exact absurd hd h
  | cons d ds => rfl

theorem Entry.cents_lt (e : Entry) (h : e.AmountOk) : e.cents < 10 ^ 10 := by
  obtain ⟨_, hlen, hdig⟩ := h
  have hl : (field e.detail 29 39).length = 10 := field_length _ 29 39 (by omega) hlen
  have := digitsVal_lt _ hdig
  rwa [hl] at this

/-! ### Addition of `int` values -/

theorem wrap64_of_range (x : Int) (h1 : -(2 ^ 63) ≤ x) (h2 : x < 2 ^ 63) : wrap64 x = x := by
  unfold wrap64
  omega

theorem wrap64_range (x : Int) : -(2 ^ 63) ≤ wrap64 x ∧ wrap64 x < 2 ^ 63 := by
  unfold wrap64
  omega

theorem wrap64_idem (x : Int) : wrap64 (wrap64 x) = wrap64 x :=
  wrap64_of_range _ (wrap64_range x).1 (wrap64_range x).2

theorem wrap64_add_left (a b : Int) : wrap64 (wrap64 a + b) = wrap64 (a + b) := by
  unfold wrap64
  omega

theorem wrap64_add_right (a b : Int) : wrap64 (a + wrap64 b) = wrap64 (a + b) := by
  unfold wrap64
  omega

theorem wrap64_natCast (n : Nat) (h : n < 2 ^ 63) : wrap64 (n : Int) = n :=
  wrap64_of_range _ (by omega) (by omega)

theorem wrap64_zero : wrap64 0 = 0 := by decide

theorem debitCreditStep_removed (tot : Int × Int) (e : Entry) (h : e.Remove = true) :
    debitCreditStep tot e = .ok tot := by
  simp [debitCreditStep, h, pure, Except.pure]

/-- A live entry adds its cents to the credit total when its code is a credit
code and to the debit total otherwise; the totals are `int` values. -/
theorem debitCreditStep_live (tot : Int × Int) (e : Entry) (h : e.Remove = false)
    (hok : e.AmountOk) (h1 : wrap64 tot.1 = tot.1) (h2 : wrap64 tot.2 = tot.2) :
    debitCreditStep tot e =
      .ok (if e.isCredit then (tot.1, wrap64 (tot.2 + (e.cents : Int)))
           else (wrap64 (tot.1 + (e.cents : Int)), tot.2)) := by
  have hlt := Entry.cents_lt e hok
  obtain ⟨hne, hlen, hdig⟩ := hok
  have hp := postAmt_eq e e.detail e.data.tail (Entry.data_eq_of_ne_nil e hne) hlen hdig
  unfold debitCreditStep
  rw [hp]
  simp only [h, Bool.false_eq_true, if_false]
  by_cases hcr : field e.detail 1 3 ∈ creditCodes
  · have hic : e.isCredit = true := by simp [Entry.isCredit, hcr]
    simp only [hcr, if_true, hic]
    rcases Nat.eq_zero_or_pos e.cents with h0 | h0
    · have hz : digitsVal (field e.detail 29 39) = 0 := h0
      have hd := Float64.debit_toInt 0 (by norm_num)
      simp only [F64.div, Nat.cast_zero, zero_div, F64.round_zero] at hd
      simp [hz, h0, F64.round_zero, Float64.isNeg, hd, pure, Except.pure, h1, h2]
    · have hneg := (F64.cents_credit e.cents h0 hlt).1
      have hval := Float64.credit_toInt e.cents h0 hlt
      unfold F64.div at hneg hval
      unfold Entry.cents at hneg hval
      simp only [Float64.isNeg, hneg, decide_True, if_true, hval, pure, Except.pure]
      rfl
  · have hic : e.isCredit = false := by simp [Entry.isCredit, hcr]
    have hnn := F64.div_nonneg_of_cents e.cents hlt
    have hval := Float64.debit_toInt e.cents hlt
    unfold F64.div at hnn hval
    unfold Entry.cents at hnn hval
    simp only [hcr, if_false, hic, Float64.isNeg, hnn, decide_False, hval, pure, Except.pure,
      Bool.false_eq_true]
    rfl

theorem debitCredit_foldlM_ok (es : List Entry) (tot : Int × Int)
    (h : ∀ e ∈ es, e.Remove = false → ∃ amt, e.postAmt = .ok amt) :
    ∃ r, es.foldlM debitCreditStep tot = .ok r := by
  induction es generalizing tot with
  | nil => exact ⟨tot, rfl⟩
  | cons e es ih =>
    have ih' := fun t => ih t (fun x hx => h x (List.mem_cons_of_mem _ hx))
    rw [List.foldlM_cons]
    cases hr : e.Remove with
    | true =>
      rw [debitCreditStep_removed tot e hr]
      exact ih' tot
    | false =>
      obtain ⟨amt, hamt⟩ := h e (List.mem_cons_self _ _) hr
      unfold debitCreditStep
      simp only [hr, Bool.false_eq_true, if_false, hamt]
      split_ifs
      · exact ih' _
      · exact ih' _

/-- The totals stay in the range of `int`. -/
theorem debitCredit_foldlM_range (es : List Entry) (tot r : Int × Int)
    (h1 : wrap64 tot.1 = tot.1) (h2 : wrap64 tot.2 = tot.2)
    (h : es.foldlM debitCreditStep tot = .ok r) : wrap64 r.1 = r.1 ∧ wrap64 r.2 = r.2 := by
  induction es generalizing tot with
  | nil =>
    simp only [List.foldlM_nil, pure, Except.pure, Except.ok.injEq] at h
    subst h
    exact ⟨h1, h2⟩
  | cons e es ih =>
    rw [List.foldlM_cons] at h
    cases hs : debitCreditStep tot e with
    | error f => rw [hs] at h; cases h
    | ok t =>
      rw [hs] at h
      simp only [bind, Except.bind] at h
      refine ih t ?_ ?_ h
      · unfold debitCreditStep at hs
        split_ifs at hs
        · simp only [pure, Except.pure, Except.ok.injEq] at hs
          subst hs; exact h1
        · cases hp : e.postAmt with
          | error f => rw [hp] at hs; cases hs
          | ok amt =>
            rw [hp] at hs
            dsimp only at hs
            split_ifs at hs
            · simp only [pure, Except.pure, Except.ok.injEq] at hs
              subst hs; exact h1
            · simp only [pure, Except.pure, Except.ok.injEq] at hs
              subst hs; exact wrap64_idem _
      · unfold debitCreditStep at hs
        split_ifs at hs
        · simp only [pure, Except.pure, Except.ok.injEq] at hs
          subst hs; exact h2
        · cases hp : e.postAmt with
          | error f => rw [hp] at hs; cases hs
          | ok amt =>
            rw [hp] at hs
            dsimp only at hs
            split_ifs at hs
            · simp only [pure, Except.pure, Except.ok.injEq] at hs
              subst hs; exact wrap64_idem _
            · simp only [pure, Except.pure, Except.ok.injEq] at hs
              subst hs; exact h2

/-- The totals `debitCreditTotals` returns are in the range of `int`. -/
theorem debitCreditTotals_range (b : Batch) (D C : Int)
    (h : b.debitCreditTotals = .ok (D, C)) :
    -(2 ^ 63) ≤ D ∧ D < 2 ^ 63 ∧ -(2 ^ 63) ≤ C ∧ C < 2 ^ 63 := by
  obtain ⟨r1, r2⟩ := debitCredit_foldlM_range b.Entries (0, 0) (D, C) wrap64_zero wrap64_zero h
  have a1 := wrap64_range D
  have a2 := wrap64_range C
  dsimp only at r1 r2
  rw [r1] at a1
  rw [r2] at a2
  exact ⟨a1.1, a1.2, a2.1, a2.2⟩

theorem debitCredit_foldlM (es : List Entry) (tot : Int × Int)
    (h : ∀ e ∈ es, e.Remove = false → e.AmountOk)
    (h1 : wrap64 tot.1 = tot.1) (h2 : wrap64 tot.2 = tot.2) :
    es.foldlM debitCreditStep tot =
      .ok (wrap64 (tot.1 + ((((es.filter (fun e => !e.Remove)).filter
              (fun e => !e.isCredit)).map Entry.cents).sum : Nat)),
           wrap64 (tot.2 + ((((es.filter (fun e => !e.Remove)).filter
              (fun e => e.isCredit)).map Entry.cents).sum : Nat))) := by
  induction es generalizing tot with
  | nil => simp [pure, Except.pure, h1, h2, Prod.ext_iff]
  | cons e es ih =>
    have ih' := fun t => ih t (fun x hx => h x (List.mem_cons_of_mem _ hx))
    rw [List.foldlM_cons]
    cases hr : e.Remove with
    | true =>
      rw [debitCreditStep_removed tot e hr]
      simp only [bind, Except.bind]
      rw [ih' tot h1 h2]
      simp [List.filter_cons, hr]
    | false =>
      rw [debitCreditStep_live tot e hr (h e (List.mem_cons_self _ _) hr) h1 h2]
      simp only [bind, Except.bind]
      cases hc : e.isCredit with
      | true =>
        simp only [if_true]
        rw [ih' (tot.1, wrap64 (tot.2 + (e.cents : Int))) h1 (wrap64_idem _)]
        simp only [List.filter_cons, hr, hc, Bool.not_false, Bool.not_true, if_true,
          Bool.false_eq_true, if_false, List.map_cons, List.sum_cons, wrap64_add_left]
        push_cast
        rw [add_assoc]
      | false =>
        simp only [Bool.false_eq_true, if_false]
        rw [ih' (wrap64 (tot.1 + (e.cents : Int)), tot.2) (wrap64_idem _) h2]
        simp only [List.filter_cons, hr, hc, Bool.not_false, Bool.not_true, if_true,
          Bool.false_eq_true, if_false, List.map_cons, List.sum_cons, wrap64_add_left]
        push_cast
        rw [add_assoc]

/-- The totals `debitCreditTotals` returns are the sums of the cents of the live
debit entries and of the live credit entries, as `int` values. -/
theorem debitCreditTotals_wrap (b : Batch) (h : ∀ e ∈ b.live, e.AmountOk) :
    b.debitCreditTotals
      = .ok (wrap64 (b.debitCents : Int), wrap64 (b.creditCents : Int)) := by
  unfold Batch.debitCreditTotals Batch.debitCents Batch.creditCents Batch.live
  rw [debitCredit_foldlM b.Entries (0, 0) _ wrap64_zero wrap64_zero]
  · simp
  · intro e he hr
    apply h
    unfold Batch.live
    simp [List.mem_filter, he, hr]

/-- While the sums are in the range of `int`, the totals are the sums. -/
theorem debitCreditTotals_eq (b : Batch) (h : ∀ e ∈ b.live, e.AmountOk)
    (hd : b.debitCents < 2 ^ 63) (hc : b.creditCents < 2 ^ 63) :
    b.debitCreditTotals = .ok ((b.debitCents : Int), (b.creditCents : Int)) := by
  rw [debitCreditTotals_wrap b h, wrap64_natCast _ hd, wrap64_natCast _ hc]



/-! ### Entry hash -/

theorem parseInt_of_digits (s : List Nat) (h : IsDigits s) (hne : s ≠ [])
    (hlt : digitsVal s < 2 ^ 63) : parseInt s = some (digitsVal s : Int) := by
  cases s with
  | nil => exact absurd rfl hne
  | cons c cs =>
    have hc := h c (List.mem_cons_self _ _)
    simp only [parseInt]
    rw [if_neg (show ¬ c = 43 by omega), if_neg (show ¬ c = 45 by omega),
      decValue_of_digits _ h hne]
    simp only [hlt, if_true]

theorem Entry.hash_eq (e : Entry) (h : e.HashOk) : e.hash = .ok (e.hashVal : Int) := by
  obtain ⟨hne, hlen, hdig⟩ := h
  have hl : (field e.detail 3 11).length = 8 := field_length _ 3 11 (by omega) hlen
  have hlt : digitsVal (field e.detail 3 11) < 2 ^ 63 := by
    have := digitsVal_lt _ hdig
    rw [hl] at this
    omega
  have hne' : field e.detail 3 11 ≠ [] := by
    intro hn; rw [hn] at hl; simp at hl
  unfold Entry.hash
  rw [Entry.data_eq_of_ne_nil e hne, index_zero_cons]
  simp only [bind, Except.bind, slice_eq_field _ 3 11 (by omega) hlen,
    parseInt_of_digits _ hdig hne' hlt, pure, Except.pure]
  rfl

theorem hash_foldlM (es : List Entry) (acc : Int)
    (h : ∀ e ∈ es, e.Remove = false → e.HashOk) :
    es.foldlM hashStep acc =
      .ok (acc + ((((es.filter (fun e => !e.Remove)).map Entry.hashVal).sum : Nat) : Int)) := by
  induction es generalizing acc with
  | nil => simp [pure, Except.pure]
  | cons e es ih =>
    have ih' := fun t => ih t (fun x hx => h x (List.mem_cons_of_mem _ hx))
    rw [List.foldlM_cons]
    cases hr : e.Remove with
    | true =>
      simp only [hashStep, hr, Bool.true_eq_false, if_false, bind, Except.bind, pure, Except.pure]
      rw [ih']
      simp [List.filter_cons, hr]
    | false =>
      simp only [hashStep, hr, if_true, bind, Except.bind, pure, Except.pure,
        Entry.hash_eq e (h e (List.mem_cons_self _ _) hr)]
      rw [ih']
      simp [List.filter_cons, hr]
      ring

theorem batch_hash_eq (b : Batch) (h : ∀ e ∈ b.live, e.HashOk) :
    b.Entries.foldlM hashStep 0 = .ok (b.hashSum : Int) := by
  rw [hash_foldlM b.Entries 0]
  · simp [Batch.hashSum, Batch.live]
  · intro e he hr
    apply h
    unfold Batch.live
    simp [List.mem_filter, he, hr]

/-! ### The batch control record -/

theorem setControlTotals_inv (b b1 : Batch) (h : b.setControlTotals = .ok b1) :
    ∃ D C H T, b.debitCreditTotals = .ok (D, C) ∧ b.Entries.foldlM hashStep 0 = .ok H ∧
      lastBytes (sprintf0 10 H) 10 = .ok T ∧ 32 ≤ b.control.length ∧
      b1 = { b with control := stampBatchControl b.control b.entryCount D C T } := by
  unfold Batch.setControlTotals at h
  by_cases h4 : 4 ≤ b.control.length
  swap
  · simp [copyAt, h4, bind, Except.bind] at h
  rw [copyAt_ok _ _ _ h4] at h
  simp only [bind, Except.bind] at h
  cases hdc : b.debitCreditTotals with
  | error f => rw [hdc] at h; cases h
  | ok dc =>
    obtain ⟨D, C⟩ := dc
    rw [hdc] at h
    dsimp only at h
    by_cases h20 : 20 ≤ b.control.length
    swap
    · simp [copyAt, overwrite_length _ _ _ h4, h20] at h
    rw [copyAt_ok _ _ _ (by rw [overwrite_length _ _ _ h4]; exact h20)] at h
    dsimp only at h
    by_cases h32 : 32 ≤ b.control.length
    swap
    · simp [copyAt, overwrite_length, h4, h20, h32] at h
    have hl2 : (overwrite (overwrite b.control 4 (sprintf0 6 b.entryCount)) 20
        (sprintf0 12 D)).length = b.control.length := by
      rw [overwrite_length _ _ _ (by rw [overwrite_length _ _ _ h4]; exact h20),
        overwrite_length _ _ _ h4]
    rw [copyAt_ok _ _ _ (by rw [hl2]; exact h32)] at h
    dsimp only at h
    cases hh : b.Entries.foldlM hashStep 0 with
    | error f => rw [hh] at h; cases h
    | ok H =>
      rw [hh] at h
      dsimp only at h
      cases hT : lastBytes (sprintf0 10 H) 10 with
      | error f => rw [hT] at h; cases h
      | ok T =>
        rw [hT] at h
        dsimp only at h
        rw [copyAt_ok _ _ _ (by
          rw [overwrite_length _ _ _ (by rw [hl2]; exact h32), hl2]; omega)] at h
        simp only [pure, Except.pure, Except.ok.injEq] at h
        exact ⟨D, C, H, T, rfl, rfl, hT, h32, h.symm⟩

theorem setControlTotals_eq (b : Batch) (D C H : Int) (T : List Nat)
    (hdc : b.debitCreditTotals = .ok (D, C)) (hh : b.Entries.foldlM hashStep 0 = .ok H)
    (hT : lastBytes (sprintf0 10 H) 10 = .ok T) (hlen : 32 ≤ b.control.length) :
    b.setControlTotals = .ok { b with control := stampBatchControl b.control b.entryCount D C T } := by
  have h4 : 4 ≤ b.control.length := by omega
  have h20 : 20 ≤ b.control.length := by omega
  have hl2 : (overwrite (overwrite b.control 4 (sprintf0 6 b.entryCount)) 20
      (sprintf0 12 D)).length = b.control.length := by
    rw [overwrite_length _ _ _ (by rw [overwrite_length _ _ _ h4]; exact h20),
      overwrite_length _ _ _ h4]
  unfold Batch.setControlTotals
  rw [copyAt_ok _ _ _ h4]
  simp only [bind, Except.bind, hdc]
  rw [copyAt_ok _ _ _ (by rw [overwrite_length _ _ _ h4]; exact h20)]
  dsimp only
  rw [copyAt_ok _ _ _ (by rw [hl2]; exact hlen)]
  simp only [hh, hT]
  rw [copyAt_ok _ _ _ (by
    rw [overwrite_length _ _ _ (by rw [hl2]; exact hlen), hl2]; omega)]
  rfl




theorem lastBytes_length (s T : List Nat) (k : Nat) (h : lastBytes s k = .ok T) :
    T.length = k := by
  unfold lastBytes at h
  split_ifs at h with hk
  simp only [Except.ok.injEq] at h
  rw [← h, List.length_drop]
  omega

theorem sprintf0_length_ge (w : Nat) (n : Int) (hw : 1 ≤ w) : w ≤ (sprintf0 w n).length := by
  unfold sprintf0
  split_ifs
  · rw [lastDigits_length]; exact le_max_left _ _
  · rw [List.length_cons, lastDigits_length]
    have := le_max_left (w - 1) (numDigits (-n).toNat)
    omega

theorem lastBytes_sprintf0_ok (H : Int) : ∃ T, lastBytes (sprintf0 10 H) 10 = .ok T := by
  unfold lastBytes
  rw [if_pos (sprintf0_length_ge 10 H (by norm_num))]
  exact ⟨_, rfl⟩

theorem stampBatchControl_length (c : List Nat) (n : Nat) (D C : Int) (T : List Nat)
    (h : 32 ≤ c.length) : (stampBatchControl c n D C T).length = c.length := by
  unfold stampBatchControl
  have h1 : (overwrite c 4 (sprintf0 6 n)).length = c.length := overwrite_length _ _ _ (by omega)
  have h2 : (overwrite (overwrite c 4 (sprintf0 6 n)) 20 (sprintf0 12 D)).length = c.length := by
    rw [overwrite_length _ _ _ (by omega), h1]
  have h3 : (overwrite (overwrite (overwrite c 4 (sprintf0 6 n)) 20 (sprintf0 12 D)) 32
      (sprintf0 12 C)).length = c.length := by
    rw [overwrite_length _ _ _ (by omega), h2]
  rw [overwrite_length _ _ _ (by omega), h3]

theorem stampBatchControl_hash (c : List Nat) (n : Nat) (D C : Int) (T : List Nat)
    (h : 32 ≤ c.length) (hT : T.length = 10) :
    field (stampBatchControl c n D C T) 10 20 = T := by
  unfold stampBatchControl
  have h1 : (overwrite c 4 (sprintf0 6 n)).length = c.length := overwrite_length _ _ _ (by omega)
  have h2 : (overwrite (overwrite c 4 (sprintf0 6 n)) 20 (sprintf0 12 D)).length = c.length := by
    rw [overwrite_length _ _ _ (by omega), h1]
  have h3 : (overwrite (overwrite (overwrite c 4 (sprintf0 6 n)) 20 (sprintf0 12 D)) 32
      (sprintf0 12 C)).length = c.length := by
    rw [overwrite_length _ _ _ (by omega), h2]
  have := field_overwrite_self (overwrite (overwrite (overwrite c 4 (sprintf0 6 n)) 20
    (sprintf0 12 D)) 32 (sprintf0 12 C)) 10 T (by omega)
  rw [hT] at this
  exact this

theorem stampBatchControl_debit (c : List Nat) (n : Nat) (D C : Int) (T : List Nat)
    (h : 32 ≤ c.length) (hT : T.length = 10) (hD : (sprintf0 12 D).length = 12) :
    field (stampBatchControl c n D C T) 20 32 = sprintf0 12 D := by
  unfold stampBatchControl
  have h1 : (overwrite c 4 (sprintf0 6 n)).length = c.length := overwrite_length _ _ _ (by omega)
  have h2 : (overwrite (overwrite c 4 (sprintf0 6 n)) 20 (sprintf0 12 D)).length = c.length := by
    rw [overwrite_length _ _ _ (by omega), h1]
  have h3 : (overwrite (overwrite (overwrite c 4 (sprintf0 6 n)) 20 (sprintf0 12 D)) 32
      (sprintf0 12 C)).length = c.length := by
    rw [overwrite_length _ _ _ (by omega), h2]
  rw [field_overwrite_disjoint _ 10 T 20 32 (by omega) (Or.inr (by omega))]
  rw [field_overwrite_disjoint _ 32 _ 20 32 (by omega) (Or.inl (le_refl _))]
  have := field_overwrite_self (overwrite c 4 (sprintf0 6 n)) 20 (sprintf0 12 D) (by omega)
  rw [hD] at this
  exact this

theorem stampBatchControl_credit (c : List Nat) (n : Nat) (D C : Int) (T : List Nat)
    (h : 44 ≤ c.length) (hT : T.length = 10) (hC : (sprintf0 12 C).length = 12) :
    field (stampBatchControl c n D C T) 32 44 = sprintf0 12 C := by
  unfold stampBatchControl
  have h1 : (overwrite c 4 (sprintf0 6 n)).length = c.length := overwrite_length _ _ _ (by omega)
  have h2 : (overwrite (overwrite c 4 (sprintf0 6 n)) 20 (sprintf0 12 D)).length = c.length := by
    rw [overwrite_length _ _ _ (by omega), h1]
  have h3 : (overwrite (overwrite (overwrite c 4 (sprintf0 6 n)) 20 (sprintf0 12 D)) 32
      (sprintf0 12 C)).length = c.length := by
    rw [overwrite_length _ _ _ (by omega), h2]
  rw [field_overwrite_disjoint _ 10 T 32 44 (by omega) (Or.inr (by omega))]
  have := field_overwrite_self (overwrite (overwrite c 4 (sprintf0 6 n)) 20 (sprintf0 12 D)) 32
    (sprintf0 12 C) (by omega)
  rw [hC] at this
  exact this

/-- The control record after `setControlTotals`, when the amount and hash
fields of the live entries are digit strings. -/
theorem setControlTotals_of_digits (b : Batch) (hlen : 32 ≤ b.control.length)
    (ha : ∀ e ∈ b.live, e.AmountOk) (hh : ∀ e ∈ b.live, e.HashOk)
    (hd : b.debitCents < 2 ^ 63) (hc : b.creditCents < 2 ^ 63) :
    b.setControlTotals = .ok { b with
      control := (stampBatchControl b.control b.entryCount b.debitCents b.creditCents
        (lastDigits 10 b.hashSum)) } :=
  setControlTotals_eq b _ _ _ _ (debitCreditTotals_eq b ha hd hc) (batch_hash_eq b hh)
    (lastBytes_sprintf0 b.hashSum) hlen

/-- C5 as amended: in a batch whose live entries all have ten-digit amount
fields, each live entry adds exactly its amount field, in cents, to the credit
total when its transaction code is a credit code and to the debit total
otherwise, in `int` arithmetic, and removed entries add nothing; the totals are
the sums of the amount fields reduced into the range of `int`, hence the sums
themselves when these are below `2^63`; when the sums are below `10^12`,
`setControlTotals` leaves the debit sum as twelve zero-padded digits at
`control[20:32)` and the credit sum at `control[32:44)`.  With one debit entry
of 10000 cents and one credit entry of 5000 cents the fields read
"000000010000" and "000000005000". -/
theorem batch_debit_credit_totals (b : Batch) (ha : ∀ e ∈ b.live, e.AmountOk) :
    (∀ e ∈ b.Entries, ∀ tot : Int × Int, wrap64 tot.1 = tot.1 → wrap64 tot.2 = tot.2 →
        debitCreditStep tot e = .ok (if e.Remove then tot
          else if e.isCredit then (tot.1, wrap64 (tot.2 + (e.cents : Int)))
          else (wrap64 (tot.1 + (e.cents : Int)), tot.2)))
    ∧ b.debitCreditTotals = .ok (wrap64 (b.debitCents : Int), wrap64 (b.creditCents : Int))
    ∧ (b.debitCents < 2 ^ 63 → b.creditCents < 2 ^ 63 →
        b.debitCreditTotals = .ok ((b.debitCents : Int), (b.creditCents : Int)))
    ∧ (∀ b1, b.setControlTotals = .ok b1 → 44 ≤ b.control.length →
        b.debitCents < 10 ^ 12 → b.creditCents < 10 ^ 12 →
        field b1.control 20 32 = lastDigits 12 b.debitCents
        ∧ field b1.control 32 44 = lastDigits 12 b.creditCents
        ∧ (field b1.control 20 32).length = 12 ∧ IsDigits (field b1.control 20 32)
        ∧ digitsVal (field b1.control 20 32) = b.debitCents
        ∧ (field b1.control 32 44).length = 12 ∧ IsDigits (field b1.control 32 44)
        ∧ digitsVal (field b1.control 32 44) = b.creditCents)
    ∧ (∀ b1, b.setControlTotals = .ok b1 → 44 ≤ b.control.length →
        b.debitCents = 10000 → b.creditCents = 5000 →
        field b1.control 20 32 = ascii "000000010000"
        ∧ field b1.control 32 44 = ascii "000000005000") := by
  have key : ∀ b1, b.setControlTotals = .ok b1 → 44 ≤ b.control.length →
        b.debitCents < 10 ^ 12 → b.creditCents < 10 ^ 12 →
        field b1.control 20 32 = lastDigits 12 b.debitCents
        ∧ field b1.control 32 44 = lastDigits 12 b.creditCents := by
    intro b1 h1 hlen hd hc
    have hdc := debitCreditTotals_eq b ha (lt_trans hd (by norm_num))
      (lt_trans hc (by norm_num))
    obtain ⟨D, C, H, T, hdc', -, hT, -, rfl⟩ := setControlTotals_inv b b1 h1
    rw [hdc] at hdc'
    simp only [Except.ok.injEq, Prod.mk.injEq] at hdc'
    obtain ⟨rfl, rfl⟩ := hdc'
    have hTl := lastBytes_length _ _ _ hT
    have hD := sprintf0_of_lt 12 b.debitCents (by norm_num) hd
    have hC := sprintf0_of_lt 12 b.creditCents (by norm_num) hc
    constructor
    · rw [← hD]
      exact stampBatchControl_debit _ _ _ _ _ (by omega) hTl (by rw [hD, lastDigits_length])
    · rw [← hC]
      exact stampBatchControl_credit _ _ _ _ _ hlen hTl (by rw [hC, lastDigits_length])
  refine ⟨?_, debitCreditTotals_wrap b ha, debitCreditTotals_eq b ha, ?_, ?_⟩
  · intro e he tot t1 t2
    cases hr : e.Remove with
    | true => rw [debitCreditStep_removed tot e hr]; rfl
    | false =>
      rw [debitCreditStep_live tot e hr
        (ha e (by unfold Batch.live; simp [List.mem_filter, he, hr])) t1 t2]
      rfl
  · intro b1 h1 hlen hd hc
    obtain ⟨k1, k2⟩ := key b1 h1 hlen hd hc
    refine ⟨k1, k2, ?_, ?_, ?_, ?_, ?_, ?_⟩
    · rw [k1, lastDigits_length]
    · rw [k1]; exact lastDigits_isDigits _ _
    · rw [k1, digitsVal_lastDigits, Nat.mod_eq_of_lt hd]
    · rw [k2, lastDigits_length]
    · rw [k2]; exact lastDigits_isDigits _ _
    · rw [k2, digitsVal_lastDigits, Nat.mod_eq_of_lt hc]
  · intro b1 h1 hlen hd hc
    obtain ⟨k1, k2⟩ := key b1 h1 hlen (by rw [hd]; norm_num) (by rw [hc]; norm_num)
    rw [k1, k2, hd, hc]
    constructor <;> decide

theorem sampleBatch_setControlTotals :
    sampleBatch.setControlTotals = .ok { sampleBatch with control := sampleBatchControlSet } := by
  rw [setControlTotals_of_digits sampleBatch (by decide) (by decide) (by decide) (by decide)
    (by decide)]
  decide

/-- Witness for C5: the sample batch, with a debit entry of 10000 cents, a credit
entry of 5000 cents and a removed entry. -/
theorem batch_debit_credit_totals_witness :
    sampleBatch.debitCreditTotals = .ok (10000, 5000)
    ∧ field sampleBatchControlSet 20 32 = ascii "000000010000"
    ∧ field sampleBatchControlSet 32 44 = ascii "000000005000" := by
  have h := batch_debit_credit_totals sampleBatch (by decide)
  refine ⟨?_, ?_⟩
  · rw [h.2.2.1 (by decide) (by decide)]; decide
  · exact h.2.2.2.2 { sampleBatch with control := sampleBatchControlSet }
      sampleBatch_setControlTotals (by decide) (by decide) (by decide)



/-! ### Batch entry hash (C6) -/

theorem lastDigits_mod (w n : Nat) : lastDigits w (n % 10 ^ w) = lastDigits w n := by
  induction w generalizing n with
  | zero => rfl
  | succ w ih =>
    rw [lastDigits, lastDigits]
    have h1 : n % 10 ^ (w + 1) % 10 = n % 10 := by
      apply Nat.mod_mod_of_dvd
      exact Dvd.intro_left (10 ^ w) rfl
    have h2 : n % 10 ^ (w + 1) / 10 = n / 10 % 10 ^ w := by
      rw [pow_succ, Nat.mul_comm, Nat.mod_mul_right_div_self]
    rw [h1, h2, ih]

/-- C6: in a batch whose live entries all have eight ASCII digits at `[3:11)` of
their detail record, after `setControlTotals` the bytes `control[10:20)` are the
ten-digit zero-padded decimal of the sum of those fields over the live entries,
taken modulo `10^10`; the call returns when moreover `postAmt` returns without
error on every live entry (whatever numeral its amount field holds) and the
control record has at least 32 bytes. -/
theorem batch_entry_hash (b : Batch) (hh : ∀ e ∈ b.live, e.HashOk) :
    (∀ b1, b.setControlTotals = .ok b1 →
      field b1.control 10 20 = lastDigits 10 (b.hashSum % 10 ^ 10)
      ∧ (field b1.control 10 20).length = 10 ∧ IsDigits (field b1.control 10 20)
      ∧ digitsVal (field b1.control 10 20) = b.hashSum % 10 ^ 10)
    ∧ ((∀ e ∈ b.live, ∃ amt, e.postAmt = .ok amt) → 32 ≤ b.control.length →
        ∃ b1, b.setControlTotals = .ok b1) := by
  constructor
  · intro b1 h1
    obtain ⟨D, C, H, T, -, hH, hT, hlen, rfl⟩ := setControlTotals_inv b b1 h1
    rw [batch_hash_eq b hh] at hH
    simp only [Except.ok.injEq] at hH
    subst hH
    rw [lastBytes_sprintf0] at hT
    simp only [Except.ok.injEq] at hT
    subst hT
    have key : field (stampBatchControl b.control b.entryCount D C (lastDigits 10 b.hashSum)) 10 20
        = lastDigits 10 (b.hashSum % 10 ^ 10) := by
      rw [stampBatchControl_hash _ _ _ _ _ hlen (lastDigits_length _ _), lastDigits_mod]
    refine ⟨key, ?_, ?_, ?_⟩
    · rw [key, lastDigits_length]
    · rw [key]; exact lastDigits_isDigits _ _
    · rw [key, digitsVal_lastDigits, Nat.mod_mod]
  · intro ha hlen
    obtain ⟨⟨D, C⟩, hdc⟩ := debitCredit_foldlM_ok b.Entries (0, 0)
      (fun e he hr => ha e (by unfold Batch.live; simp [List.mem_filter, he, hr]))
    exact ⟨_, setControlTotals_eq b D C _ _ hdc (batch_hash_eq b hh)
      (lastBytes_sprintf0 b.hashSum) hlen⟩




theorem F64.round_err_cents (c : ℕ) (s : ℚ) (hs : s = 1 ∨ s = -1) :
    |F64.round (s * (c : ℚ) / 100) - s * (c : ℚ) / 100| ≤ (c : ℚ) / 100 * (2 : ℚ) ^ (-53 : ℤ) := by
  have habs : |s * (c : ℚ) / 100| = (c : ℚ) / 100 := by
    rcases hs with rfl | rfl
    · rw [one_mul, abs_of_nonneg (by positivity)]
    · rw [neg_one_mul, neg_div, abs_neg, abs_of_nonneg (by positivity)]
  rcases Nat.eq_zero_or_pos c with h | h
  · subst h; simp [F64.round_zero]
  · have hc1 : (1 : ℚ) ≤ (c : ℚ) := by exact_mod_cast h
    have := F64.round_err (s * (c : ℚ) / 100)
      (by rw [habs]; exact le_trans F64.tiny_le (by linarith))
    rwa [habs] at this

/-- C4: for an entry whose detail record has a ten-digit amount field of value
`c` at `[29:39)`, `postAmt` returns without error the double nearest `-c/100`
when the transaction code at `[1:3)` is in the credit list and the double
nearest `c/100` otherwise, within relative error `2^-53`; code "22" with amount
"0000012345" gives the double nearest -123.45. -/
theorem postAmt_sign_and_value (e : Entry) (hok : e.AmountOk) :
    (e.isCredit = true → e.postAmt = .ok (F64.round (-(e.cents : ℚ) / 100))
        ∧ |F64.round (-(e.cents : ℚ) / 100) - -(e.cents : ℚ) / 100|
            ≤ (e.cents : ℚ) / 100 * (2 : ℚ) ^ (-53 : ℤ))
    ∧ (e.isCredit = false → e.postAmt = .ok (F64.round ((e.cents : ℚ) / 100))
        ∧ |F64.round ((e.cents : ℚ) / 100) - (e.cents : ℚ) / 100|
            ≤ (e.cents : ℚ) / 100 * (2 : ℚ) ^ (-53 : ℤ))
    ∧ (field e.detail 1 3 = ascii "22" → field e.detail 29 39 = ascii "0000012345" →
        e.postAmt = .ok (F64.round (-12345 / 100))
        ∧ F64.round (-12345 / 100) = -8687021468732621 / 70368744177664) := by
  obtain ⟨hne, hlen, hdig⟩ := hok
  have hp := postAmt_eq e e.detail e.data.tail (Entry.data_eq_of_ne_nil e hne) hlen hdig
  refine ⟨?_, ?_, ?_⟩
  · intro hc
    have hmem : field e.detail 1 3 ∈ creditCodes := by simpa [Entry.isCredit] using hc
    rw [if_pos hmem] at hp
    refine ⟨hp, ?_⟩
    have := F64.round_err_cents e.cents (-1) (Or.inr rfl)
    simpa [neg_one_mul] using this
  · intro hc
    have hmem : field e.detail 1 3 ∉ creditCodes := by simpa [Entry.isCredit] using hc
    rw [if_neg hmem] at hp
    refine ⟨hp, ?_⟩
    have := F64.round_err_cents e.cents 1 (Or.inl rfl)
    simpa using this
  · intro hcode hamt
    have hmem : field e.detail 1 3 ∈ creditCodes := by rw [hcode]; decide
    have hval : digitsVal (field e.detail 29 39) = 12345 := by rw [hamt]; decide
    rw [if_pos hmem, hval] at hp
    refine ⟨?_, F64.round_neg_123_45⟩
    rw [hp]; norm_num

/-- Witness for C4: the entry with code "22" and amount "0000012345". -/
theorem postAmt_sign_and_value_witness :
    Entry.postAmt { data := [sampleDetail "22" "09100002" "0000012345"], Remove := false }
      = .ok (F64.round (-12345 / 100))
    ∧ F64.round (-12345 / 100) = -8687021468732621 / 70368744177664 :=
  (postAmt_sign_and_value
    { data := [sampleDetail "22" "09100002" "0000012345"], Remove := false } (by decide)).2.2
    (by decide) (by decide)

/-- Witness for C9: the sample batch has a live entry without addenda, a live
entry with one addenda record and a removed entry. -/
theorem entryCount_eq_sum_live_witness :
    sampleBatch.entryCount = (sampleBatch.live.map (fun e => 1 + e.addendaCount)).sum
    ∧ sampleBatch.entryCount = 3 :=
  ⟨entryCount_eq_sum_live sampleBatch (by decide), by decide⟩




/-! ### Idempotence of the control totals (C8) -/

theorem applyWrites_length (ws : List (Nat × List Nat)) (c : List Nat)
    (h : ∀ w ∈ ws, w.1 ≤ c.length) : (applyWrites ws c).length = c.length := by
  induction ws generalizing c with
  | nil => rfl
  | cons w ws ih =>
    have hw := h w (List.mem_cons_self _ _)
    have hl := overwrite_length c w.1 w.2 hw
    unfold applyWrites
    rw [List.foldl_cons]
    have := ih (overwrite c w.1 w.2) (fun v hv => by rw [hl]; exact h v (List.mem_cons_of_mem _ hv))
    unfold applyWrites at this
    rw [this, hl]

/-- Each byte of the result of a sequence of writes is either independent of the
buffer or the byte the buffer had. -/
theorem applyWrites_pointwise (ws : List (Nat × List Nat)) (x y : List Nat)
    (hxy : x.length = y.length) (h : ∀ w ∈ ws, w.1 ≤ x.length) (i : Nat) :
    (applyWrites ws x)[i]? = (applyWrites ws y)[i]? ∨
      ((applyWrites ws x)[i]? = x[i]? ∧ (applyWrites ws y)[i]? = y[i]?) := by
  induction ws generalizing x y with
  | nil => right; exact ⟨rfl, rfl⟩
  | cons w ws ih =>
    have hw := h w (List.mem_cons_self _ _)
    have hlx := overwrite_length x w.1 w.2 hw
    have hly := overwrite_length y w.1 w.2 (by rw [← hxy]; exact hw)
    have := ih (overwrite x w.1 w.2) (overwrite y w.1 w.2) (by rw [hlx, hly, hxy])
      (fun v hv => by rw [hlx]; exact h v (List.mem_cons_of_mem _ hv))
    unfold applyWrites at this ⊢
    rw [List.foldl_cons, List.foldl_cons]
    rcases this with h1 | ⟨h1, h2⟩
    · left; exact h1
    · rw [h1, h2, getElem?_overwrite x w.1 w.2 hw, getElem?_overwrite y w.1 w.2 (by rw [← hxy]; exact hw),
        ← hxy]
      by_cases hr : w.1 ≤ i ∧ i < w.1 + w.2.length ∧ i < x.length
      · left; rw [if_pos hr, if_pos hr]
      · right; rw [if_neg hr, if_neg hr]; exact ⟨rfl, rfl⟩

theorem applyWrites_idem (ws : List (Nat × List Nat)) (c : List Nat)
    (h : ∀ w ∈ ws, w.1 ≤ c.length) : applyWrites ws (applyWrites ws c) = applyWrites ws c := by
  have hl := applyWrites_length ws c h
  apply List.ext_getElem?
  intro i
  rcases applyWrites_pointwise ws (applyWrites ws c) c hl (fun w hw => by rw [hl]; exact h w hw) i
    with h1 | ⟨h1, -⟩
  · exact h1
  · exact h1

theorem stampBatchControl_eq_applyWrites (c : List Nat) (n : Nat) (D C : Int) (T : List Nat) :
    stampBatchControl c n D C T
      = applyWrites [(4, sprintf0 6 n), (20, sprintf0 12 D), (32, sprintf0 12 C), (10, T)] c := rfl

theorem stampBatchControl_idem (c : List Nat) (n : Nat) (D C : Int) (T : List Nat)
    (h : 32 ≤ c.length) :
    stampBatchControl (stampBatchControl c n D C T) n D C T = stampBatchControl c n D C T := by
  simp only [stampBatchControl_eq_applyWrites]
  apply applyWrites_idem
  intro w hw
  simp only [List.mem_cons, List.mem_singleton, List.not_mem_nil, or_false] at hw
  rcases hw with rfl | rfl | rfl | rfl <;> simp <;> omega

theorem batch_setControlTotals_idem (b b1 : Batch) (h : b.setControlTotals = .ok b1) :
    b1.setControlTotals = .ok b1 := by
  obtain ⟨D, C, H, T, hdc, hH, hT, hlen, rfl⟩ := setControlTotals_inv b b1 h
  have hl := stampBatchControl_length b.control b.entryCount D C T hlen
  have := setControlTotals_eq
    { b with control := stampBatchControl b.control b.entryCount D C T } D C H T hdc hH hT
    (by rw [hl]; exact hlen)
  rw [this]
  simp only [Batch.entryCount, stampBatchControl_idem _ _ _ _ _ hlen]



/-! ### The file control record -/

theorem copyAt_error (dst : List Nat) (k : Nat) (src : List Nat) (hk : ¬ k ≤ dst.length) :
    copyAt dst k src = .error Fault.panic := by
  simp [copyAt, hk]

theorem file_setControlTotals_inv (nf nf1 : NachaFile) (h : nf.setControlTotals = .ok nf1) :
    ∃ t c0 rest H T,
      nf.Batches.foldlM fileTotalsStep { bCount := 0, eCount := 0, debitTot := 0, creditTot := 0 }
        = .ok t ∧
      nf.control = c0 :: rest ∧ nf.Batches.foldlM fileHashStep 0 = .ok H ∧
      lastBytes (sprintf0 10 H) 10 = .ok T ∧ 43 ≤ c0.length ∧
      nf1 = { nf with control := stampFileControl c0 t nf.control.length T :: rest } := by
  unfold NachaFile.setControlTotals at h
  simp only [bind, Except.bind] at h
  cases ht : nf.Batches.foldlM fileTotalsStep
      { bCount := 0, eCount := 0, debitTot := 0, creditTot := 0 } with
  | error f => rw [ht] at h; cases h
  | ok t =>
    rw [ht] at h
    dsimp only at h
    cases hc : nf.control with
    | nil => rw [hc, index_nil] at h; cases h
    | cons c0 rest =>
      rw [hc, index_zero_cons] at h
      dsimp only at h
      by_cases h1 : 1 ≤ c0.length
      swap
      · rw [copyAt_error _ _ _ h1] at h; cases h
      rw [copyAt_ok _ _ _ h1] at h
      dsimp only at h
      have l1 := overwrite_length c0 1 (sprintf0 6 t.bCount) h1
      by_cases h13 : 13 ≤ c0.length
      swap
      · rw [copyAt_error _ _ _ (by rw [l1]; exact h13)] at h; cases h
      rw [copyAt_ok _ _ _ (by rw [l1]; exact h13)] at h
      dsimp only at h
      have l2 := overwrite_length _ 13 (sprintf0 8 t.eCount) (by rw [l1]; exact h13)
      rw [l1] at l2
      by_cases h31 : 31 ≤ c0.length
      swap
      · rw [copyAt_error _ _ _ (by rw [l2]; exact h31)] at h; cases h
      rw [copyAt_ok _ _ _ (by rw [l2]; exact h31)] at h
      dsimp only at h
      have l3 := overwrite_length _ 31 (sprintf0 12 t.debitTot) (by rw [l2]; exact h31)
      rw [l2] at l3
      by_cases h43 : 43 ≤ c0.length
      swap
      · rw [copyAt_error _ _ _ (by rw [l3]; exact h43)] at h; cases h
      rw [copyAt_ok _ _ _ (by rw [l3]; exact h43)] at h
      dsimp only at h
      have l4 := overwrite_length _ 43 (sprintf0 12 t.creditTot) (by rw [l3]; exact h43)
      rw [l3] at l4
      rw [copyAt_ok _ _ _ (by rw [l4]; omega)] at h
      dsimp only at h
      have l5 := overwrite_length _ 7
        (sprintf0 6 (((1 + t.bCount * 2 + t.eCount + (c0 :: rest).length + 9) / 10 : Nat) : Int))
        (show 7 ≤ (overwrite (overwrite (overwrite (overwrite c0 1 (sprintf0 6 t.bCount)) 13
          (sprintf0 8 t.eCount)) 31 (sprintf0 12 t.debitTot)) 43 (sprintf0 12 t.creditTot)).length
          by rw [l4]; omega)
      rw [l4] at l5
      cases hH : nf.Batches.foldlM fileHashStep 0 with
      | error f => rw [hH] at h; cases h
      | ok H =>
        rw [hH] at h
        dsimp only at h
        cases hT : lastBytes (sprintf0 10 H) 10 with
        | error f => rw [hT] at h; cases h
        | ok T =>
          rw [hT] at h
          dsimp only at h
          rw [copyAt_ok _ _ _ (by rw [l5]; omega)] at h
          simp only [pure, Except.pure, Except.ok.injEq, hc, List.tail_cons] at h
          exact ⟨t, c0, rest, H, T, rfl, rfl, rfl, hT, h43, h.symm⟩



theorem stampFileControl_eq_applyWrites (c : List Nat) (t : FileTotals) (n : Nat) (T : List Nat) :
    stampFileControl c t n T
      = applyWrites [(1, sprintf0 6 t.bCount), (13, sprintf0 8 t.eCount),
          (31, sprintf0 12 t.debitTot), (43, sprintf0 12 t.creditTot),
          (7, sprintf0 6 (((1 + t.bCount * 2 + t.eCount + n + 9) / 10 : Nat) : Int)),
          (21, T)] c := rfl

theorem stampFileControl_length (c : List Nat) (t : FileTotals) (n : Nat) (T : List Nat)
    (h : 43 ≤ c.length) : (stampFileControl c t n T).length = c.length := by
  rw [stampFileControl_eq_applyWrites]
  apply applyWrites_length
  intro w hw
  simp only [List.mem_cons, List.mem_singleton, List.not_mem_nil, or_false] at hw
  rcases hw with rfl | rfl | rfl | rfl | rfl | rfl <;> simp <;> omega

theorem stampFileControl_idem (c : List Nat) (t : FileTotals) (n : Nat) (T : List Nat)
    (h : 43 ≤ c.length) :
    stampFileControl (stampFileControl c t n T) t n T = stampFileControl c t n T := by
  simp only [stampFileControl_eq_applyWrites]
  apply applyWrites_idem
  intro w hw
  simp only [List.mem_cons, List.mem_singleton, List.not_mem_nil, or_false] at hw
  rcases hw with rfl | rfl | rfl | rfl | rfl | rfl <;> simp <;> omega

theorem file_setControlTotals_eq (nf : NachaFile) (t : FileTotals) (c0 : List Nat)
    (rest : List (List Nat)) (H : Int) (T : List Nat)
    (ht : nf.Batches.foldlM fileTotalsStep
      { bCount := 0, eCount := 0, debitTot := 0, creditTot := 0 } = .ok t)
    (hc : nf.control = c0 :: rest) (hH : nf.Batches.foldlM fileHashStep 0 = .ok H)
    (hT : lastBytes (sprintf0 10 H) 10 = .ok T) (hlen : 43 ≤ c0.length) :
    nf.setControlTotals
      = .ok { nf with control := stampFileControl c0 t nf.control.length T :: rest } := by
  have l1 := overwrite_length c0 1 (sprintf0 6 t.bCount) (by omega)
  have l2 := overwrite_length (overwrite c0 1 (sprintf0 6 t.bCount)) 13 (sprintf0 8 t.eCount)
    (by rw [l1]; omega)
  rw [l1] at l2
  have l3 := overwrite_length (overwrite (overwrite c0 1 (sprintf0 6 t.bCount)) 13
    (sprintf0 8 t.eCount)) 31 (sprintf0 12 t.debitTot) (by rw [l2]; omega)
  rw [l2] at l3
  have l4 := overwrite_length (overwrite (overwrite (overwrite c0 1 (sprintf0 6 t.bCount)) 13
    (sprintf0 8 t.eCount)) 31 (sprintf0 12 t.debitTot)) 43 (sprintf0 12 t.creditTot)
    (by rw [l3]; omega)
  rw [l3] at l4
  have l5 := overwrite_length (overwrite (overwrite (overwrite (overwrite c0 1
    (sprintf0 6 t.bCount)) 13 (sprintf0 8 t.eCount)) 31 (sprintf0 12 t.debitTot)) 43
    (sprintf0 12 t.creditTot)) 7
    (sprintf0 6 (((1 + t.bCount * 2 + t.eCount + (c0 :: rest).length + 9) / 10 : Nat) : Int))
    (by rw [l4]; omega)
  rw [l4] at l5
  unfold NachaFile.setControlTotals
  simp only [bind, Except.bind, ht, hc, index_zero_cons]
  rw [copyAt_ok _ _ _ (show 1 ≤ c0.length by omega)]
  dsimp only
  rw [copyAt_ok _ _ _ (by rw [l1]; omega)]
  dsimp only
  rw [copyAt_ok _ _ _ (by rw [l2]; omega)]
  dsimp only
  rw [copyAt_ok _ _ _ (by rw [l3]; omega)]
  dsimp only
  rw [copyAt_ok _ _ _ (by rw [l4]; omega)]
  simp only [hH, hT]
  rw [copyAt_ok _ _ _ (by rw [l5]; omega)]
  rfl

theorem file_setControlTotals_idem (nf nf1 : NachaFile) (h : nf.setControlTotals = .ok nf1) :
    nf1.setControlTotals = .ok nf1 := by
  obtain ⟨t, c0, rest, H, T, ht, hc, hH, hT, hlen, rfl⟩ := file_setControlTotals_inv nf nf1 h
  have hl := stampFileControl_length c0 t nf.control.length T hlen
  have := file_setControlTotals_eq
    { nf with control := stampFileControl c0 t nf.control.length T :: rest } t
    (stampFileControl c0 t nf.control.length T) rest H T ht rfl hH hT (by rw [hl]; exact hlen)
  rw [this]
  simp only [List.length_cons, hc, stampFileControl_idem _ _ _ _ hlen]



theorem fileTotals_foldlM (bs : List Batch) (t : FileTotals)
    (h : ∀ b ∈ bs, ∀ e ∈ b.live, e.AmountOk)
    (h1 : wrap64 t.debitTot = t.debitTot) (h2 : wrap64 t.creditTot = t.creditTot) :
    bs.foldlM fileTotalsStep t =
      .ok { bCount := t.bCount + (fileTotalsOf bs).bCount,
            eCount := t.eCount + (fileTotalsOf bs).eCount,
            debitTot := wrap64 (t.debitTot + (fileTotalsOf bs).debitTot),
            creditTot := wrap64 (t.creditTot + (fileTotalsOf bs).creditTot) } := by
  induction bs generalizing t with
  | nil => simp [fileTotalsOf, countedBatches, pure, Except.pure, h1, h2]
  | cons b bs ih =>
    have ih' := fun t => ih t (fun x hx => h x (List.mem_cons_of_mem _ hx))
    have hdc := debitCreditTotals_wrap b (h b (List.mem_cons_self _ _))
    rw [List.foldlM_cons]
    by_cases hc : b.entryCount = 0
    · simp only [fileTotalsStep, hc, if_true, bind, Except.bind, pure, Except.pure]
      rw [ih' t h1 h2]
      simp [fileTotalsOf, countedBatches, List.filter_cons, hc]
    · simp only [fileTotalsStep, hc, if_false, bind, Except.bind, pure, Except.pure, hdc]
      rw [ih' (FileTotals.mk (t.bCount + 1) (t.eCount + b.entryCount)
        (wrap64 (t.debitTot + wrap64 (b.debitCents : Int)))
        (wrap64 (t.creditTot + wrap64 (b.creditCents : Int)))) (wrap64_idem _) (wrap64_idem _)]
      simp only [fileTotalsOf, countedBatches, List.filter_cons, hc, bne_iff_ne, ne_eq,
        not_false_eq_true, decide_True, if_true, List.length_cons, List.map_cons, List.sum_cons,
        wrap64_add_left, wrap64_add_right, Except.ok.injEq, FileTotals.mk.injEq]
      refine ⟨by omega, by omega, ?_, ?_⟩
      · congr 1; push_cast; ring
      · congr 1; push_cast; ring

theorem fileTotals_wrap (bs : List Batch) (h : ∀ b ∈ bs, ∀ e ∈ b.live, e.AmountOk) :
    bs.foldlM fileTotalsStep { bCount := 0, eCount := 0, debitTot := 0, creditTot := 0 }
      = .ok { bCount := (fileTotalsOf bs).bCount, eCount := (fileTotalsOf bs).eCount,
              debitTot := wrap64 (fileTotalsOf bs).debitTot,
              creditTot := wrap64 (fileTotalsOf bs).creditTot } := by
  rw [fileTotals_foldlM bs _ h wrap64_zero wrap64_zero]
  simp

/-- While the sums are in the range of `int`, the totals of the first loop are
the sums. -/
theorem fileTotals_eq (bs : List Batch) (h : ∀ b ∈ bs, ∀ e ∈ b.live, e.AmountOk)
    (hd : (fileTotalsOf bs).debitTot < 2 ^ 63) (hc : (fileTotalsOf bs).creditTot < 2 ^ 63) :
    bs.foldlM fileTotalsStep { bCount := 0, eCount := 0, debitTot := 0, creditTot := 0 }
      = .ok (fileTotalsOf bs) := by
  rw [fileTotals_wrap bs h]
  have e1 : wrap64 (fileTotalsOf bs).debitTot = (fileTotalsOf bs).debitTot :=
    wrap64_of_range _ (by unfold fileTotalsOf; dsimp only; omega) hd
  have e2 : wrap64 (fileTotalsOf bs).creditTot = (fileTotalsOf bs).creditTot :=
    wrap64_of_range _ (by unfold fileTotalsOf; dsimp only; omega) hc
  rw [e1, e2]

theorem fileHash_foldlM (bs : List Batch) (acc : Int)
    (h : ∀ b ∈ bs, ∀ e ∈ b.live, e.HashOk) :
    bs.foldlM fileHashStep acc = .ok (acc + (fileHashSum bs : Int)) := by
  induction bs generalizing acc with
  | nil => simp [fileHashSum, pure, Except.pure]
  | cons b bs ih =>
    rw [List.foldlM_cons]
    unfold fileHashStep
    rw [hash_foldlM b.Entries acc (by
      intro e he hr
      apply h b (List.mem_cons_self _ _)
      unfold Batch.live
      simp [List.mem_filter, he, hr])]
    simp only [bind, Except.bind]
    have := ih (acc + ((((b.Entries.filter (fun e => !e.Remove)).map Entry.hashVal).sum : Nat) : Int))
      (fun x hx => h x (List.mem_cons_of_mem _ hx))
    unfold fileHashStep at this
    rw [this]
    simp [fileHashSum, Batch.hashSum, Batch.live]
    ring

/-- The file after `setControlTotals`, when the amount and hash fields of the
live entries are digit strings. -/
theorem file_setControlTotals_of_digits (nf : NachaFile) (c0 : List Nat)
    (rest : List (List Nat)) (hc : nf.control = c0 :: rest) (hlen : 43 ≤ c0.length)
    (hf : ∀ b ∈ nf.Batches, b.FieldsOk)
    (hd : (fileTotalsOf nf.Batches).debitTot < 2 ^ 63)
    (hcr : (fileTotalsOf nf.Batches).creditTot < 2 ^ 63) :
    nf.setControlTotals = .ok { nf with
      control := (stampFileControl c0 (fileTotalsOf nf.Batches) nf.control.length
        (lastDigits 10 (fileHashSum nf.Batches))) :: rest } := by
  have hH := fileHash_foldlM nf.Batches 0 (fun b hb e he => (hf b hb e he).2)
  rw [Int.zero_add] at hH
  exact file_setControlTotals_eq nf _ c0 rest _ _
    (fileTotals_eq nf.Batches (fun b hb e he => (hf b hb e he).1) hd hcr) hc hH
    (lastBytes_sprintf0 _) hlen

theorem sampleFile_setControlTotals :
    sampleFile.setControlTotals
      = .ok { sampleFile with control := [sampleFileControlSet] } := by
  rw [file_setControlTotals_of_digits sampleFile sampleFileControl [] rfl (by decide) (by decide)
    (by decide) (by decide)]
  decide



theorem hash_foldlM_ok (es : List Entry) (acc : Int)
    (h : ∀ e ∈ es, e.Remove = false → ∃ v, e.hash = .ok v) :
    ∃ r, es.foldlM hashStep acc = .ok r := by
  induction es generalizing acc with
  | nil => exact ⟨acc, rfl⟩
  | cons e es ih =>
    have ih' := fun t => ih t (fun x hx => h x (List.mem_cons_of_mem _ hx))
    rw [List.foldlM_cons]
    cases hr : e.Remove with
    | true =>
      simp only [hashStep, hr, Bool.true_eq_false, if_false, bind, Except.bind, pure, Except.pure]
      exact ih' acc
    | false =>
      obtain ⟨v, hv⟩ := h e (List.mem_cons_self _ _) hr
      simp only [hashStep, hr, if_true, bind, Except.bind, pure, Except.pure, hv]
      exact ih' _

theorem Batch.mem_live (b : Batch) (e : Entry) (he : e ∈ b.Entries) (hr : e.Remove = false) :
    e ∈ b.live := by
  unfold Batch.live
  simp [List.mem_filter, he, hr]

theorem batch_setControlTotals_ok (b : Batch) (hlen : 32 ≤ b.control.length)
    (hp : b.Parseable) : ∃ b1, b.setControlTotals = .ok b1 := by
  obtain ⟨⟨D, C⟩, hdc⟩ := debitCredit_foldlM_ok b.Entries (0, 0)
    (fun e he hr => (hp e (b.mem_live e he hr)).1)
  obtain ⟨H, hH⟩ := hash_foldlM_ok b.Entries 0 (fun e he hr => (hp e (b.mem_live e he hr)).2)
  obtain ⟨T, hT⟩ := lastBytes_sprintf0_ok H
  exact ⟨_, setControlTotals_eq b D C H T hdc hH hT hlen⟩

theorem fileTotals_foldlM_ok (bs : List Batch) (t : FileTotals)
    (h : ∀ b ∈ bs, b.Parseable) : ∃ r, bs.foldlM fileTotalsStep t = .ok r := by
  induction bs generalizing t with
  | nil => exact ⟨t, rfl⟩
  | cons b bs ih =>
    have ih' := fun t => ih t (fun x hx => h x (List.mem_cons_of_mem _ hx))
    obtain ⟨⟨D, C⟩, hdc⟩ := debitCredit_foldlM_ok b.Entries (0, 0)
      (fun e he hr => (h b (List.mem_cons_self _ _) e (b.mem_live e he hr)).1)
    rw [List.foldlM_cons]
    unfold fileTotalsStep
    by_cases hc : b.entryCount = 0
    · simp only [hc, if_true, bind, Except.bind, pure, Except.pure]
      exact ih' _
    · have hdc' : b.debitCreditTotals = .ok (D, C) := hdc
      simp only [hc, if_false, bind, Except.bind, pure, Except.pure, hdc']
      exact ih' _

theorem fileHash_foldlM_ok (bs : List Batch) (acc : Int)
    (h : ∀ b ∈ bs, b.Parseable) : ∃ r, bs.foldlM fileHashStep acc = .ok r := by
  induction bs generalizing acc with
  | nil => exact ⟨acc, rfl⟩
  | cons b bs ih =>
    obtain ⟨H, hH⟩ := hash_foldlM_ok b.Entries acc
      (fun e he hr => (h b (List.mem_cons_self _ _) e (b.mem_live e he hr)).2)
    rw [List.foldlM_cons]
    unfold fileHashStep
    simp only [hH, bind, Except.bind]
    have := ih H (fun x hx => h x (List.mem_cons_of_mem _ hx))
    unfold fileHashStep at this
    exact this

theorem file_setControlTotals_ok (nf : NachaFile) (c0 : List Nat) (rest : List (List Nat))
    (hc : nf.control = c0 :: rest) (hlen : 43 ≤ c0.length) (hp : ∀ b ∈ nf.Batches, b.Parseable) :
    ∃ nf1, nf.setControlTotals = .ok nf1 := by
  obtain ⟨t, ht⟩ := fileTotals_foldlM_ok nf.Batches
    { bCount := 0, eCount := 0, debitTot := 0, creditTot := 0 } hp
  obtain ⟨H, hH⟩ := fileHash_foldlM_ok nf.Batches 0 hp
  obtain ⟨T, hT⟩ := lastBytes_sprintf0_ok H
  exact ⟨_, file_setControlTotals_eq nf t c0 rest H T ht hc hH hT hlen⟩

theorem Entry.parseable_of_digits (e : Entry) (ha : e.AmountOk) (hh : e.HashOk) :
    e.Parseable := by
  refine ⟨?_, ⟨_, Entry.hash_eq e hh⟩⟩
  obtain ⟨hne, hlen, hdig⟩ := ha
  exact ⟨_, postAmt_eq e e.detail e.data.tail (Entry.data_eq_of_ne_nil e hne) hlen hdig⟩

theorem Batch.parseable_of_fieldsOk (b : Batch) (h : b.FieldsOk) : b.Parseable :=
  fun e he => Entry.parseable_of_digits e (h e he).1 (h e he).2

/-- C8: recomputing the control totals is idempotent.  A batch with a 94-byte
control record and parseable entry fields leaves `setControlTotals`, and a second
call leaves the batch, hence its control record, as the first did; the same
holds whenever a first call returns.  Likewise for a file with a 94-byte first
control record and parseable entries, and whenever a first call of
`NachaFile.setControlTotals` returns. -/
theorem setControlTotals_idempotent :
    (∀ b : Batch, b.control.length = 94 → b.Parseable →
      ∃ b1, b.setControlTotals = .ok b1 ∧ b1.setControlTotals = .ok b1)
    ∧ (∀ b b1 : Batch, b.setControlTotals = .ok b1 → b1.setControlTotals = .ok b1)
    ∧ (∀ (nf : NachaFile) (c0 : List Nat) (rest : List (List Nat)),
        nf.control = c0 :: rest → c0.length = 94 → (∀ b ∈ nf.Batches, b.Parseable) →
        ∃ nf1, nf.setControlTotals = .ok nf1 ∧ nf1.setControlTotals = .ok nf1)
    ∧ (∀ nf nf1 : NachaFile, nf.setControlTotals = .ok nf1 →
        nf1.setControlTotals = .ok nf1) := by
  refine ⟨?_, batch_setControlTotals_idem, ?_, file_setControlTotals_idem⟩
  · intro b hlen hp
    obtain ⟨b1, h1⟩ := batch_setControlTotals_ok b (by omega) hp
    exact ⟨b1, h1, batch_setControlTotals_idem b b1 h1⟩
  · intro nf c0 rest hc hlen hp
    obtain ⟨nf1, h1⟩ := file_setControlTotals_ok nf c0 rest hc (by omega) hp
    exact ⟨nf1, h1, file_setControlTotals_idem nf nf1 h1⟩




/-! ### File totals against batch totals (C7) -/

/-- The six fields of the first file control record when no rendered value
exceeds its width. -/
theorem stampFileControl_fields (c : List Nat) (t : FileTotals) (n : Nat) (T : List Nat)
    (h : 55 ≤ c.length) (hb : (sprintf0 6 t.bCount).length = 6)
    (he : (sprintf0 8 t.eCount).length = 8) (hd : (sprintf0 12 t.debitTot).length = 12)
    (hc : (sprintf0 12 t.creditTot).length = 12)
    (hk : (sprintf0 6 (((1 + t.bCount * 2 + t.eCount + n + 9) / 10 : Nat) : Int)).length = 6)
    (hT : T.length = 10) :
    field (stampFileControl c t n T) 1 7 = sprintf0 6 t.bCount
    ∧ field (stampFileControl c t n T) 7 13
        = sprintf0 6 (((1 + t.bCount * 2 + t.eCount + n + 9) / 10 : Nat) : Int)
    ∧ field (stampFileControl c t n T) 13 21 = sprintf0 8 t.eCount
    ∧ field (stampFileControl c t n T) 21 31 = T
    ∧ field (stampFileControl c t n T) 31 43 = sprintf0 12 t.debitTot
    ∧ field (stampFileControl c t n T) 43 55 = sprintf0 12 t.creditTot := by
  unfold stampFileControl
  set s1 := sprintf0 6 t.bCount with hs1
  set s2 := sprintf0 8 t.eCount with hs2
  set s3 := sprintf0 12 t.debitTot with hs3
  set s4 := sprintf0 12 t.creditTot with hs4
  set s5 := sprintf0 6 (((1 + t.bCount * 2 + t.eCount + n + 9) / 10 : Nat) : Int) with hs5
  set x1 := overwrite c 1 s1 with hx1
  have l1 : x1.length = c.length := overwrite_length _ _ _ (by omega)
  set x2 := overwrite x1 13 s2 with hx2
  have l2 : x2.length = c.length := by rw [hx2, overwrite_length _ _ _ (by omega), l1]
  set x3 := overwrite x2 31 s3 with hx3
  have l3 : x3.length = c.length := by rw [hx3, overwrite_length _ _ _ (by omega), l2]
  set x4 := overwrite x3 43 s4 with hx4
  have l4 : x4.length = c.length := by rw [hx4, overwrite_length _ _ _ (by omega), l3]
  set x5 := overwrite x4 7 s5 with hx5
  have l5 : x5.length = c.length := by rw [hx5, overwrite_length _ _ _ (by omega), l4]
  have f1 := field_overwrite_self c 1 s1 (by omega)
  have f2 := field_overwrite_self x1 13 s2 (by omega)
  have f3 := field_overwrite_self x2 31 s3 (by omega)
  have f4 := field_overwrite_self x3 43 s4 (by omega)
  have f5 := field_overwrite_self x4 7 s5 (by omega)
  have f6 := field_overwrite_self x5 21 T (by omega)
  rw [hb] at f1; rw [he] at f2; rw [hd] at f3; rw [hc] at f4; rw [hk] at f5; rw [hT] at f6
  refine ⟨?_, ?_, ?_, ?_, ?_, ?_⟩
  · rw [field_overwrite_disjoint x5 21 T 1 7 (by omega) (Or.inl (by omega)),
      field_overwrite_disjoint x4 7 s5 1 7 (by omega) (Or.inl (by omega)),
      field_overwrite_disjoint x3 43 s4 1 7 (by omega) (Or.inl (by omega)),
      field_overwrite_disjoint x2 31 s3 1 7 (by omega) (Or.inl (by omega)),
      field_overwrite_disjoint x1 13 s2 1 7 (by omega) (Or.inl (by omega))]
    exact f1
  · rw [field_overwrite_disjoint x5 21 T 7 13 (by omega) (Or.inl (by omega))]
    exact f5
  · rw [field_overwrite_disjoint x5 21 T 13 21 (by omega) (Or.inl (by omega)),
      field_overwrite_disjoint x4 7 s5 13 21 (by omega) (Or.inr (by omega)),
      field_overwrite_disjoint x3 43 s4 13 21 (by omega) (Or.inl (by omega)),
      field_overwrite_disjoint x2 31 s3 13 21 (by omega) (Or.inl (by omega))]
    exact f2
  · exact f6
  · rw [field_overwrite_disjoint x5 21 T 31 43 (by omega) (Or.inr (by omega)),
      field_overwrite_disjoint x4 7 s5 31 43 (by omega) (Or.inr (by omega)),
      field_overwrite_disjoint x3 43 s4 31 43 (by omega) (Or.inl (by omega))]
    exact f3
  · rw [field_overwrite_disjoint x5 21 T 43 55 (by omega) (Or.inr (by omega)),
      field_overwrite_disjoint x4 7 s5 43 55 (by omega) (Or.inr (by omega))]
    exact f4



theorem isEmptyLoop_iff (es : List Entry) :
    isEmptyLoop es = true ↔ es.filter (fun e => !e.Remove) = [] := by
  induction es with
  | nil => simp [isEmptyLoop]
  | cons e es ih =>
    cases hr : e.Remove <;> simp [isEmptyLoop, hr, List.filter_cons, ih]

theorem Batch.isEmpty_iff (b : Batch) : b.isEmpty = true ↔ b.live = [] :=
  isEmptyLoop_iff b.Entries

theorem Batch.entryCount_eq_live (b : Batch) :
    b.entryCount = (b.live.map (fun e => e.data.length)).sum := by
  unfold Batch.entryCount Batch.live
  rw [entryCount_foldl, Nat.zero_add]

/-- When every live entry holds a record, a batch has entry count zero exactly
when it is empty. -/
theorem Batch.entryCount_eq_zero_iff (b : Batch) (h : ∀ e ∈ b.live, e.data ≠ []) :
    b.entryCount = 0 ↔ b.isEmpty = true := by
  rw [Batch.isEmpty_iff, Batch.entryCount_eq_live]
  constructor
  · intro hs
    cases hl : b.live with
    | nil => rfl
    | cons e es =>
      exfalso
      have he : e ∈ b.live := by rw [hl]; exact List.mem_cons_self _ _
      have hne := h e he
      rw [hl] at hs
      simp only [List.map_cons, List.sum_cons] at hs
      have : e.data.length = 0 := by omega
      exact hne (List.length_eq_zero.mp this)
  · intro hl; rw [hl]; rfl

theorem countedBatches_eq_nonEmpty (bs : List Batch) (h : ∀ b ∈ bs, b.FieldsOk) :
    countedBatches bs = nonEmptyBatches bs := by
  unfold countedBatches nonEmptyBatches
  apply List.filter_congr
  intro b hb
  have := Batch.entryCount_eq_zero_iff b (fun e he => (h b hb e he).1.1)
  by_cases hc : b.entryCount = 0
  · have he := this.mp hc
    simp [hc, he]
  · have he : b.isEmpty = false := by
      cases hi : b.isEmpty with
      | false => rfl
      | true => exact absurd (this.mpr hi) hc
    simp [hc, he]

theorem Batch.live_congr (b b1 : Batch) (h : b1.Entries = b.Entries) : b1.live = b.live := by
  unfold Batch.live; rw [h]

theorem Batch.totals_of_isEmpty (b : Batch) (h : b.isEmpty = true) :
    b.debitCents = 0 ∧ b.creditCents = 0 ∧ b.hashSum = 0 := by
  have hl := (Batch.isEmpty_iff b).mp h
  simp [Batch.debitCents, Batch.creditCents, Batch.hashSum, hl]

/-- What the batch loop of the write pass leaves in one batch. -/
theorem batchTotalsSet_spec (b b1 : Batch) (hf : b.FieldsOk) (hlen : b.control.length = 94)
    (hd : b.debitCents < 10 ^ 12) (hc : b.creditCents < 10 ^ 12) (h : batchTotalsSet b b1) :
    b1.Entries = b.Entries ∧
    (b.isEmpty = false →
      field b1.control 20 32 = lastDigits 12 b.debitCents
      ∧ field b1.control 32 44 = lastDigits 12 b.creditCents
      ∧ field b1.control 10 20 = lastDigits 10 b.hashSum) := by
  unfold batchTotalsSet at h
  cases he : b.isEmpty with
  | true =>
    rw [he] at h
    simp only [if_true] at h
    subst h
    exact ⟨rfl, fun hne => by cases hne⟩
  | false =>
    rw [he] at h
    simp only [Bool.false_eq_true, if_false] at h
    rw [setControlTotals_of_digits b (by omega) (fun e he => (hf e he).1)
      (fun e he => (hf e he).2) (lt_trans hd (by norm_num)) (lt_trans hc (by norm_num))] at h
    simp only [Except.ok.injEq] at h
    subst h
    refine ⟨rfl, fun _ => ⟨?_, ?_, ?_⟩⟩
    · rw [← sprintf0_of_lt 12 b.debitCents (by norm_num) hd]
      exact stampBatchControl_debit _ _ _ _ _ (by omega) (lastDigits_length _ _)
        (by rw [sprintf0_of_lt 12 b.debitCents (by norm_num) hd, lastDigits_length])
    · rw [← sprintf0_of_lt 12 b.creditCents (by norm_num) hc]
      exact stampBatchControl_credit _ _ _ _ _ (by omega) (lastDigits_length _ _)
        (by rw [sprintf0_of_lt 12 b.creditCents (by norm_num) hc, lastDigits_length])
    · exact stampBatchControl_hash _ _ _ _ _ (by omega) (lastDigits_length _ _)



theorem Batch.entryCount_congr (b b1 : Batch) (h : b1.Entries = b.Entries) :
    b1.entryCount = b.entryCount := by
  unfold Batch.entryCount; rw [h]

theorem Batch.isEmpty_congr (b b1 : Batch) (h : b1.Entries = b.Entries) :
    b1.isEmpty = b.isEmpty := by
  unfold Batch.isEmpty; rw [h]

theorem Batch.debitCents_congr (b b1 : Batch) (h : b1.Entries = b.Entries) :
    b1.debitCents = b.debitCents := by
  unfold Batch.debitCents; rw [Batch.live_congr b b1 h]

theorem Batch.creditCents_congr (b b1 : Batch) (h : b1.Entries = b.Entries) :
    b1.creditCents = b.creditCents := by
  unfold Batch.creditCents; rw [Batch.live_congr b b1 h]

theorem Batch.hashSum_congr (b b1 : Batch) (h : b1.Entries = b.Entries) :
    b1.hashSum = b.hashSum := by
  unfold Batch.hashSum; rw [Batch.live_congr b b1 h]

theorem Batch.fieldsOk_congr (b b1 : Batch) (h : b1.Entries = b.Entries) (hf : b.FieldsOk) :
    b1.FieldsOk := by
  unfold Batch.FieldsOk at hf ⊢
  rw [Batch.live_congr b b1 h]; exact hf

/-- The file totals depend on the entries of the batches only. -/
theorem sameEntries_totals (bs bs1 : List Batch)
    (h : List.Forall₂ (fun b b1 => b1.Entries = b.Entries) bs bs1) :
    fileTotalsOf bs1 = fileTotalsOf bs ∧ fileHashSum bs1 = fileHashSum bs
    ∧ ((∀ b ∈ bs, b.FieldsOk) → ∀ b1 ∈ bs1, b1.FieldsOk) := by
  induction h with
  | nil => exact ⟨rfl, rfl, fun _ b hb => by cases hb⟩
  | @cons b b1 bs bs1 hb _ ih =>
    obtain ⟨i1, i2, i3⟩ := ih
    have e1 := Batch.entryCount_congr b b1 hb
    have e2 := Batch.debitCents_congr b b1 hb
    have e3 := Batch.creditCents_congr b b1 hb
    have e4 := Batch.hashSum_congr b b1 hb
    simp only [fileTotalsOf, FileTotals.mk.injEq] at i1
    obtain ⟨j1, j2, j3, j4⟩ := i1
    refine ⟨?_, ?_, ?_⟩
    · simp only [fileTotalsOf, FileTotals.mk.injEq, countedBatches, List.filter_cons, e1,
        List.map_cons, List.sum_cons]
      unfold countedBatches at j1 j3 j4
      by_cases hc : b.entryCount = 0
      · simp only [hc, bne_self_eq_false, Bool.false_eq_true, if_false]
        exact ⟨j1, by rw [j2], j3, j4⟩
      · have hne : (b.entryCount != 0) = true := by simp [hc]
        simp only [hne, if_true, List.length_cons, List.map_cons, List.sum_cons, e2, e3]
        refine ⟨by rw [j1], by rw [j2], ?_, ?_⟩
        · push_cast at j3 ⊢; rw [j3]
        · push_cast at j4 ⊢; rw [j4]
    · simp only [fileHashSum, List.map_cons, List.sum_cons, e4]
      unfold fileHashSum at i2
      rw [i2]
    · intro hf x hx
      rcases List.mem_cons.mp hx with rfl | hx
      · exact Batch.fieldsOk_congr b _ hb (hf b (List.mem_cons_self _ _))
      · exact i3 (fun y hy => hf y (List.mem_cons_of_mem _ hy)) x hx

/-- The control fields the write pass leaves in the non-empty batches, summed. -/
theorem batchTotalsSet_sums (bs bs1 : List Batch) (hf : ∀ b ∈ bs, b.FieldsOk)
    (hl : ∀ b ∈ bs, b.control.length = 94) (hd : ∀ b ∈ bs, b.debitCents < 10 ^ 12)
    (hc : ∀ b ∈ bs, b.creditCents < 10 ^ 12) (h : List.Forall₂ batchTotalsSet bs bs1) :
    List.Forall₂ (fun b b1 => b1.Entries = b.Entries) bs bs1
    ∧ ((nonEmptyBatches bs1).map (fun b => digitsVal (field b.control 20 32))).sum
        = ((nonEmptyBatches bs).map Batch.debitCents).sum
    ∧ ((nonEmptyBatches bs1).map (fun b => digitsVal (field b.control 32 44))).sum
        = ((nonEmptyBatches bs).map Batch.creditCents).sum
    ∧ ((nonEmptyBatches bs1).map (fun b => digitsVal (field b.control 10 20))).sum
        = ((nonEmptyBatches bs).map (fun b => b.hashSum % 10 ^ 10)).sum
    ∧ (∀ b1 ∈ nonEmptyBatches bs1, IsDigits (field b1.control 20 32)
        ∧ IsDigits (field b1.control 32 44) ∧ IsDigits (field b1.control 10 20)) := by
  induction h with
  | nil => exact ⟨List.Forall₂.nil, rfl, rfl, rfl, fun b hb => by cases hb⟩
  | @cons b b1 bs bs1 hb _ ih =>
    have hmem := List.mem_cons_self b bs
    obtain ⟨i0, i1, i2, i3, i4⟩ := ih (fun x hx => hf x (List.mem_cons_of_mem _ hx))
      (fun x hx => hl x (List.mem_cons_of_mem _ hx))
      (fun x hx => hd x (List.mem_cons_of_mem _ hx))
      (fun x hx => hc x (List.mem_cons_of_mem _ hx))
    obtain ⟨s1, s2⟩ := batchTotalsSet_spec b b1 (hf b hmem) (hl b hmem) (hd b hmem) (hc b hmem) hb
    have e1 := Batch.isEmpty_congr b b1 s1
    refine ⟨List.Forall₂.cons s1 i0, ?_⟩
    unfold nonEmptyBatches at i1 i2 i3 i4 ⊢
    simp only [List.filter_cons, e1]
    cases he : b.isEmpty with
    | true =>
      simp only [Bool.not_true, Bool.false_eq_true, if_false]
      exact ⟨i1, i2, i3, i4⟩
    | false =>
      obtain ⟨f1, f2, f3⟩ := s2 he
      simp only [Bool.not_false, if_true, List.map_cons, List.sum_cons, f1, f2, f3,
        digitsVal_lastDigits, i1, i2, i3, Nat.mod_eq_of_lt (hd b hmem),
        Nat.mod_eq_of_lt (hc b hmem), true_and]
      intro x hx
      rcases List.mem_cons.mp hx with rfl | hx
      · rw [f1, f2, f3]
        exact ⟨lastDigits_isDigits _ _, lastDigits_isDigits _ _, lastDigits_isDigits _ _⟩
      · exact i4 x hx

theorem List.sum_map_mod (xs : List Nat) (m : Nat) :
    (xs.map (fun x => x % m)).sum % m = xs.sum % m := by
  induction xs with
  | nil => rfl
  | cons x xs ih =>
    simp only [List.map_cons, List.sum_cons]
    rw [Nat.add_mod, ih, ← Nat.add_mod, Nat.add_mod (x % m), Nat.mod_mod, ← Nat.add_mod]

theorem sum_map_filter_of_zero (bs : List Batch) (p : Batch → Bool) (f : Batch → Nat)
    (h : ∀ b ∈ bs, p b = false → f b = 0) :
    ((bs.filter p).map f).sum = (bs.map f).sum := by
  induction bs with
  | nil => rfl
  | cons b bs ih =>
    have ih' := ih (fun x hx => h x (List.mem_cons_of_mem _ hx))
    cases hp : p b with
    | true => simp [List.filter_cons, hp, ih']
    | false => simp [List.filter_cons, hp, ih', h b (List.mem_cons_self _ _) hp]

theorem nonEmpty_sums (bs : List Batch) :
    ((nonEmptyBatches bs).map Batch.debitCents).sum = (bs.map Batch.debitCents).sum
    ∧ ((nonEmptyBatches bs).map Batch.creditCents).sum = (bs.map Batch.creditCents).sum
    ∧ ((nonEmptyBatches bs).map Batch.hashSum).sum = (bs.map Batch.hashSum).sum := by
  unfold nonEmptyBatches
  refine ⟨?_, ?_, ?_⟩ <;> apply sum_map_filter_of_zero <;> intro b _ hb <;>
    simp only [Bool.not_eq_false'] at hb
  · exact (Batch.totals_of_isEmpty b hb).1
  · exact (Batch.totals_of_isEmpty b hb).2.1
  · exact (Batch.totals_of_isEmpty b hb).2.2

/-- No batch total exceeds the corresponding file total. -/
theorem batch_totals_le (bs : List Batch) (b : Batch) (hb : b ∈ bs) :
    b.debitCents ≤ ((nonEmptyBatches bs).map Batch.debitCents).sum
    ∧ b.creditCents ≤ ((nonEmptyBatches bs).map Batch.creditCents).sum := by
  obtain ⟨h1, h2, -⟩ := nonEmpty_sums bs
  rw [h1, h2]
  exact ⟨List.le_sum_of_mem (List.mem_map_of_mem _ hb),
    List.le_sum_of_mem (List.mem_map_of_mem _ hb)⟩



/-- C7: for a file of 94-byte records with at least one control record, digit
amount and hash fields in every live entry and no total wider than its field,
after `setControlTotals` has run on every non-empty batch and then on the file,
the debit total at `control[0][31:43)` is the sum of the debit totals at
`control[20:32)` of the non-empty batches, the credit total at
`control[0][43:55)` is the sum of their credit totals at `control[32:44)`, and
the entry hash at `control[0][21:31)` is the sum of their entry hashes at
`control[10:20)` modulo `10^10`; all these fields are digit strings. -/
theorem file_totals_match_batches (nf nf1 : NachaFile) (bs1 : List Batch) (c0 : List Nat)
    (rest : List (List Nat)) (hctl : nf.control = c0 :: rest) (hc0 : c0.length = 94)
    (hbl : ∀ b ∈ nf.Batches, b.control.length = 94) (hf : ∀ b ∈ nf.Batches, b.FieldsOk)
    (hov : nf.NoOverflow) (hb : List.Forall₂ batchTotalsSet nf.Batches bs1)
    (hn : NachaFile.setControlTotals { nf with Batches := bs1 } = .ok nf1) :
    digitsVal (field nf1.control0 31 43)
      = ((nonEmptyBatches bs1).map (fun b => digitsVal (field b.control 20 32))).sum
    ∧ digitsVal (field nf1.control0 43 55)
      = ((nonEmptyBatches bs1).map (fun b => digitsVal (field b.control 32 44))).sum
    ∧ digitsVal (field nf1.control0 21 31)
      = ((nonEmptyBatches bs1).map (fun b => digitsVal (field b.control 10 20))).sum % 10 ^ 10
    ∧ IsDigits (field nf1.control0 31 43) ∧ IsDigits (field nf1.control0 43 55)
    ∧ IsDigits (field nf1.control0 21 31)
    ∧ (∀ b1 ∈ nonEmptyBatches bs1, IsDigits (field b1.control 20 32)
        ∧ IsDigits (field b1.control 32 44) ∧ IsDigits (field b1.control 10 20)) := by
  obtain ⟨ov1, ov2, ov3, ov4, ov5⟩ := hov
  have hcn := countedBatches_eq_nonEmpty nf.Batches hf
  have hD : ((nonEmptyBatches nf.Batches).map Batch.debitCents).sum < 10 ^ 12 := by
    have : (fileTotalsOf nf.Batches).debitTot
        = ((((countedBatches nf.Batches).map Batch.debitCents).sum : Nat) : Int) := rfl
    rw [this, hcn] at ov3
    exact_mod_cast ov3
  have hC : ((nonEmptyBatches nf.Batches).map Batch.creditCents).sum < 10 ^ 12 := by
    have : (fileTotalsOf nf.Batches).creditTot
        = ((((countedBatches nf.Batches).map Batch.creditCents).sum : Nat) : Int) := rfl
    rw [this, hcn] at ov4
    exact_mod_cast ov4
  obtain ⟨i0, i1, i2, i3, i4⟩ := batchTotalsSet_sums nf.Batches bs1 hf hbl
    (fun b hb => lt_of_le_of_lt (batch_totals_le nf.Batches b hb).1 hD)
    (fun b hb => lt_of_le_of_lt (batch_totals_le nf.Batches b hb).2 hC) hb
  obtain ⟨t1, t2, t3⟩ := sameEntries_totals nf.Batches bs1 i0
  have hset := file_setControlTotals_of_digits { nf with Batches := bs1 } c0 rest hctl
    (by omega) (t3 hf) (by rw [t1]; exact lt_trans ov3 (by norm_num))
    (by rw [t1]; exact lt_trans ov4 (by norm_num))
  rw [hset] at hn
  simp only [Except.ok.injEq] at hn
  subst hn
  simp only [NachaFile.control0, List.headD_cons, t1, t2]
  have w1 := sprintf0_of_lt 6 (fileTotalsOf nf.Batches).bCount (by norm_num) ov1
  have w2 := sprintf0_of_lt 8 (fileTotalsOf nf.Batches).eCount (by norm_num) ov2
  have w3 := sprintf0_of_lt 12 (((nonEmptyBatches nf.Batches).map Batch.debitCents).sum)
    (by norm_num) hD
  have w4 := sprintf0_of_lt 12 (((nonEmptyBatches nf.Batches).map Batch.creditCents).sum)
    (by norm_num) hC
  have w5 := sprintf0_of_lt 6 _ (by norm_num) ov5
  have d3 : (fileTotalsOf nf.Batches).debitTot
      = ((((nonEmptyBatches nf.Batches).map Batch.debitCents).sum : Nat) : Int) := by
    rw [← hcn]; rfl
  have d4 : (fileTotalsOf nf.Batches).creditTot
      = ((((nonEmptyBatches nf.Batches).map Batch.creditCents).sum : Nat) : Int) := by
    rw [← hcn]; rfl
  obtain ⟨-, -, -, g4, g5, g6⟩ := stampFileControl_fields c0 (fileTotalsOf nf.Batches)
    nf.control.length (lastDigits 10 (fileHashSum nf.Batches)) (by omega)
    (by rw [w1, lastDigits_length]) (by rw [w2, lastDigits_length])
    (by rw [d3, w3, lastDigits_length]) (by rw [d4, w4, lastDigits_length])
    (by rw [w5, lastDigits_length]) (lastDigits_length _ _)
  rw [g4, g5, g6, d3, d4, w3, w4, i1, i2, i3]
  have hsum : fileHashSum nf.Batches = ((nonEmptyBatches nf.Batches).map Batch.hashSum).sum := by
    rw [(nonEmpty_sums nf.Batches).2.2]; rfl
  refine ⟨?_, ?_, ?_, lastDigits_isDigits _ _, lastDigits_isDigits _ _,
    lastDigits_isDigits _ _, i4⟩
  · rw [digitsVal_lastDigits, Nat.mod_eq_of_lt hD]
  · rw [digitsVal_lastDigits, Nat.mod_eq_of_lt hC]
  · rw [digitsVal_lastDigits, hsum]
    have := List.sum_map_mod ((nonEmptyBatches nf.Batches).map Batch.hashSum) (10 ^ 10)
    rw [List.map_map] at this
    exact this.symm




theorem sampleFile_eq : sampleFile.Batches = [sampleBatch, sampleEmptyBatch] := rfl

theorem sampleBatches_totalsSet :
    List.Forall₂ batchTotalsSet sampleFile.Batches [sampleBatchSet, sampleEmptyBatch] := by
  refine List.Forall₂.cons ?_ (List.Forall₂.cons ?_ List.Forall₂.nil)
  · unfold batchTotalsSet
    rw [if_neg (by decide)]
    exact sampleBatch_setControlTotals
  · unfold batchTotalsSet
    rw [if_pos (by decide)]
    rfl

theorem sampleFileSet_setControlTotals :
    NachaFile.setControlTotals { sampleFile with Batches := [sampleBatchSet, sampleEmptyBatch] }
      = .ok sampleFileSet := by
  rw [file_setControlTotals_of_digits _ sampleFileControl [] rfl (by decide) (by decide)
    (by decide) (by decide)]
  decide

/-- Witness for C7: the sample file, with one non-empty and one empty batch. -/
theorem file_totals_match_batches_witness :
    digitsVal (field sampleFileSet.control0 31 43)
      = ((nonEmptyBatches [sampleBatchSet, sampleEmptyBatch]).map
          (fun b => digitsVal (field b.control 20 32))).sum
    ∧ digitsVal (field sampleFileSet.control0 43 55)
      = ((nonEmptyBatches [sampleBatchSet, sampleEmptyBatch]).map
          (fun b => digitsVal (field b.control 32 44))).sum
    ∧ digitsVal (field sampleFileSet.control0 21 31)
      = ((nonEmptyBatches [sampleBatchSet, sampleEmptyBatch]).map
          (fun b => digitsVal (field b.control 10 20))).sum % 10 ^ 10 := by
  have h := file_totals_match_batches sampleFile sampleFileSet [sampleBatchSet, sampleEmptyBatch]
    sampleFileControl [] rfl (by decide) (by decide) (by decide) (by decide)
    sampleBatches_totalsSet sampleFileSet_setControlTotals
  exact ⟨h.1, h.2.1, h.2.2.1⟩



/-! ### The write pass (C1, C2) -/

theorem streamOf_append (crlf : Bool) (xs ys : List (List Nat)) :
    streamOf crlf (xs ++ ys) = streamOf crlf xs ++ streamOf crlf ys := by
  simp [streamOf]

theorem streamOf_cons (crlf : Bool) (x : List Nat) (xs : List (List Nat)) :
    streamOf crlf (x :: xs) = x ++ (if crlf then crlfBytes else []) ++ streamOf crlf xs := by
  simp [streamOf]

theorem streamOf_false (recs : List (List Nat)) : streamOf false recs = recs.flatten := by
  simp [streamOf]

theorem writeRecord_foldl (crlf : Bool) (st : WriteState) (recs : List (List Nat)) :
    recs.foldl (writeRecord crlf) st =
      { st with out := st.out ++ streamOf crlf recs, records := st.records + recs.length } := by
  induction recs generalizing st with
  | nil => simp [streamOf]
  | cons r rs ih =>
    rw [List.foldl_cons, ih]
    simp only [writeRecord, streamOf_cons, List.length_cons, List.append_assoc]
    congr 1
    omega

theorem writeEntries_eq (crlf : Bool) (st : WriteState) (es : List Entry) :
    writeEntries crlf st es =
      { st with
        out := st.out ++ streamOf crlf ((es.filter (fun e => !e.Remove)).map (fun e => e.data)).flatten,
        records := st.records
          + ((es.filter (fun e => !e.Remove)).map (fun e => e.data)).flatten.length } := by
  unfold writeEntries
  induction es generalizing st with
  | nil => simp [streamOf]
  | cons e es ih =>
    rw [List.foldl_cons, ih]
    cases hr : e.Remove with
    | true => simp [hr, List.filter_cons]
    | false =>
      simp only [hr, Bool.false_eq_true, if_false, writeRecord_foldl, List.filter_cons,
        Bool.not_false, if_true, List.map_cons, List.flatten_cons, streamOf_append,
        List.length_append, List.append_assoc]
      congr 1
      omega

theorem setNumber_entries (b b1 : Batch) (num : Int) (h : b.setNumber num = .ok b1) :
    b1.Entries = b.Entries := by
  unfold Batch.setNumber at h
  simp only [bind, Except.bind] at h
  cases h1 : copyAt b.header 87 (sprintf0 7 num) with
  | error f => rw [h1] at h; cases h
  | ok hd =>
    rw [h1] at h
    dsimp only at h
    cases h2 : copyAt b.control 87 (sprintf0 7 num) with
    | error f => rw [h2] at h; cases h
    | ok ct =>
      rw [h2] at h
      simp only [pure, Except.pure, Except.ok.injEq] at h
      rw [← h]

theorem setControlTotals_entries (b b1 : Batch) (h : b.setControlTotals = .ok b1) :
    b1.Entries = b.Entries ∧ b1.header = b.header := by
  obtain ⟨D, C, H, T, -, -, -, -, rfl⟩ := setControlTotals_inv b b1 h
  exact ⟨rfl, rfl⟩

/-- One iteration of the batch loop: an empty batch is skipped; otherwise the
records of the batch, as the iteration leaves it, are appended. -/
theorem writeBatch_spec (crlf renumber : Bool) (st st1 : WriteState) (b b1 : Batch)
    (h : writeBatch crlf renumber st b = .ok (b1, st1)) :
    b1.Entries = b.Entries ∧
    (b.isEmpty = true → b1 = b ∧ st1 = st) ∧
    (b.isEmpty = false →
      st1.out = st.out ++ streamOf crlf b1.records ∧
      st1.records = st.records + b1.records.length) := by
  unfold writeBatch at h
  cases he : b.isEmpty with
  | true =>
    simp only [he, if_true, pure, Except.pure, Except.ok.injEq, Prod.mk.injEq] at h
    obtain ⟨rfl, rfl⟩ := h
    exact ⟨rfl, fun _ => ⟨rfl, rfl⟩, fun hf => by cases hf⟩
  | false =>
    simp only [he, Bool.false_eq_true, if_false, bind, Except.bind] at h
    have key : ∀ (bn b2 : Batch) (stn : WriteState), bn.Entries = b.Entries → stn.out = st.out →
        stn.records = st.records → bn.setControlTotals = .ok b2 →
        b2.Entries = b.Entries ∧
          (writeRecord crlf (writeEntries crlf (writeRecord crlf stn b2.header) b2.Entries)
            b2.control).out = st.out ++ streamOf crlf b2.records ∧
          (writeRecord crlf (writeEntries crlf (writeRecord crlf stn b2.header) b2.Entries)
            b2.control).records = st.records + b2.records.length := by
      intro bn b2 stn hbn ho hr hs
      obtain ⟨e1, -⟩ := setControlTotals_entries bn b2 hs
      refine ⟨by rw [e1, hbn], ?_, ?_⟩
      · simp only [writeRecord, writeEntries_eq, Batch.records, Batch.liveRecords, Batch.live,
          streamOf_cons, streamOf_append, ho, List.append_assoc, streamOf]
        simp
      · simp only [writeRecord, writeEntries_eq, Batch.records, Batch.liveRecords, Batch.live,
          hr, List.length_cons, List.length_append, List.length_nil]
        omega
    cases hrn : renumber with
    | false =>
      simp only [hrn, Bool.false_eq_true, if_false, pure, Except.pure] at h
      cases hs : b.setControlTotals with
      | error f => rw [hs] at h; cases h
      | ok b2 =>
        rw [hs] at h
        simp only [Except.ok.injEq, Prod.mk.injEq] at h
        obtain ⟨rfl, rfl⟩ := h
        obtain ⟨k1, k2, k3⟩ := key b b2 st rfl rfl rfl hs
        exact ⟨k1, (fun hf => by cases hf), fun _ => ⟨k2, k3⟩⟩
    | true =>
      simp only [hrn, if_true, bind, Except.bind, pure, Except.pure] at h
      cases hn : b.setNumber ((st.batchNum + 1 : Nat) : Int) with
      | error f => rw [hn] at h; cases h
      | ok bn =>
        rw [hn] at h
        dsimp only at h
        cases hs : bn.setControlTotals with
        | error f => rw [hs] at h; cases h
        | ok b2 =>
          rw [hs] at h
          simp only [Except.ok.injEq, Prod.mk.injEq] at h
          obtain ⟨rfl, rfl⟩ := h
          obtain ⟨k1, k2, k3⟩ := key bn b2 { st with batchNum := st.batchNum + 1 }
            (setNumber_entries b bn _ hn) rfl rfl hs
          exact ⟨k1, (fun hf => by cases hf), fun _ => ⟨k2, k3⟩⟩




theorem writeBatches_spec (crlf renumber : Bool) (bs bs1 : List Batch) (st st1 : WriteState)
    (h : writeBatches crlf renumber st bs = .ok (bs1, st1)) :
    List.Forall₂ batchWritten bs bs1 ∧
    st1.out = st.out ++ streamOf crlf ((nonEmptyBatches bs1).map Batch.records).flatten ∧
    st1.records = st.records + ((nonEmptyBatches bs1).map Batch.records).flatten.length := by
  induction bs generalizing bs1 st st1 with
  | nil =>
    simp only [writeBatches, pure, Except.pure, Except.ok.injEq, Prod.mk.injEq] at h
    obtain ⟨rfl, rfl⟩ := h
    exact ⟨List.Forall₂.nil, by simp [nonEmptyBatches, streamOf], by simp [nonEmptyBatches]⟩
  | cons b bs ih =>
    simp only [writeBatches, bind, Except.bind] at h
    cases hb : writeBatch crlf renumber st b with
    | error f => rw [hb] at h; cases h
    | ok r =>
      obtain ⟨b1, stm⟩ := r
      rw [hb] at h
      dsimp only at h
      cases hr : writeBatches crlf renumber stm bs with
      | error f => rw [hr] at h; cases h
      | ok r2 =>
        obtain ⟨bs2, st2⟩ := r2
        rw [hr] at h
        simp only [pure, Except.pure, Except.ok.injEq, Prod.mk.injEq] at h
        obtain ⟨rfl, rfl⟩ := h
        obtain ⟨i1, i2, i3⟩ := ih bs2 stm st2 hr
        obtain ⟨w1, w2, w3⟩ := writeBatch_spec crlf renumber st stm b b1 hb
        have e1 := Batch.isEmpty_congr b b1 w1
        refine ⟨List.Forall₂.cons ⟨w1, fun he => (w2 he).1⟩ i1, ?_, ?_⟩
        · cases he : b.isEmpty with
          | true =>
            obtain ⟨-, rfl⟩ := w2 he
            rw [i2]
            simp [nonEmptyBatches, List.filter_cons, e1, he]
          | false =>
            obtain ⟨o1, -⟩ := w3 he
            rw [i2, o1]
            simp [nonEmptyBatches, List.filter_cons, e1, he, streamOf_append]
        · cases he : b.isEmpty with
          | true =>
            obtain ⟨-, rfl⟩ := w2 he
            rw [i3]
            simp [nonEmptyBatches, List.filter_cons, e1, he]
          | false =>
            obtain ⟨-, o2⟩ := w3 he
            rw [i3, o2]
            simp [nonEmptyBatches, List.filter_cons, e1, he]
            omega

theorem writeFiller_eq (crlf : Bool) (k : Nat) (out : List Nat) :
    writeFiller crlf k out = out ++ streamOf crlf (List.replicate k fillerRecord) := by
  induction k generalizing out with
  | zero => simp [writeFiller, streamOf]
  | succ k ih =>
    rw [writeFiller, ih, List.replicate_succ, streamOf_cons]
    simp

/-- The shape of what `Write` returns. -/
theorem Write_spec (nf nf1 : NachaFile) (out : List Nat) (h : nf.Write = .ok (nf1, out)) :
    nf1.header = nf.header ∧ nf1.crlf = nf.crlf ∧ nf1.renumber = nf.renumber
    ∧ nf1.control.length = nf.control.length ∧ nf1.control.tail = nf.control.tail
    ∧ List.Forall₂ batchWritten nf.Batches nf1.Batches
    ∧ NachaFile.setControlTotals { nf with Batches := nf1.Batches } = .ok nf1
    ∧ out = streamOf nf.crlf nf1.nonFillerRecords
        ++ streamOf nf.crlf
            (List.replicate (fillerCount nf1.nonFillerRecords.length) fillerRecord) := by
  unfold NachaFile.Write at h
  simp only [bind, Except.bind] at h
  cases hb : writeBatches nf.crlf nf.renumber
      (writeRecord nf.crlf { out := [], records := 0, batchNum := 0 } nf.header) nf.Batches with
  | error f => rw [hb] at h; cases h
  | ok r =>
    obtain ⟨bs1, st1⟩ := r
    rw [hb] at h
    dsimp only at h
    cases hs : NachaFile.setControlTotals { nf with Batches := bs1 } with
    | error f => rw [hs] at h; cases h
    | ok nf2 =>
      rw [hs] at h
      simp only [pure, Except.pure, Except.ok.injEq, Prod.mk.injEq] at h
      obtain ⟨rfl, rfl⟩ := h
      obtain ⟨t, c0, rest, H, T, -, hc, -, -, -, hnf⟩ := file_setControlTotals_inv _ _ hs
      obtain ⟨i1, i2, i3⟩ := writeBatches_spec _ _ _ _ _ _ hb
      have hB : nf2.Batches = bs1 := by rw [hnf]
      have hH : nf2.header = nf.header := by rw [hnf]
      have hC : nf2.crlf = nf.crlf := by rw [hnf]
      have hR : nf2.renumber = nf.renumber := by rw [hnf]
      have hctl : nf.control = c0 :: rest := hc
      have hK : nf2.control = stampFileControl c0 t nf.control.length T :: rest := by rw [hnf]
      refine ⟨hH, hC, hR, ?_, ?_, ?_, ?_, ?_⟩
      · rw [hK, hctl, List.length_cons, List.length_cons]
      · rw [hK, hctl, List.tail_cons, List.tail_cons]
      · rw [hB]; exact i1
      · rw [hB]; exact hs
      · have hrec : st1.records + nf2.control.length = nf2.nonFillerRecords.length := by
          rw [i3]
          simp only [writeRecord, NachaFile.nonFillerRecords, hB, List.length_cons,
            List.length_append]
          omega
        rw [writeFiller_eq, writeRecord_foldl, hC]
        dsimp only
        rw [hrec, i2]
        simp only [writeRecord, NachaFile.nonFillerRecords, hB, hH, streamOf_cons,
          streamOf_append, List.append_assoc, List.nil_append, fillerCount]



theorem setNumber_ok (b : Batch) (num : Int) (h1 : 87 ≤ b.header.length)
    (h2 : 87 ≤ b.control.length) :
    b.setNumber num = .ok { b with header := overwrite b.header 87 (sprintf0 7 num),
                                   control := overwrite b.control 87 (sprintf0 7 num) } := by
  unfold Batch.setNumber
  dsimp only
  rw [copyAt_ok _ _ _ h1]
  simp only [bind, Except.bind]
  rw [copyAt_ok _ _ _ h2]
  rfl

theorem batchWritten_entries (bs bs1 : List Batch) (h : List.Forall₂ batchWritten bs bs1) :
    List.Forall₂ (fun b b1 => b1.Entries = b.Entries) bs bs1 :=
  List.Forall₂.imp (fun _ _ hab => hab.1) h

theorem flatten_map_flatten (xs : List (List (List Nat))) :
    xs.flatten.flatten = (xs.map List.flatten).flatten := by
  induction xs with
  | nil => rfl
  | cons x xs ih => simp [ih]

theorem Batch.records_flatten (b : Batch) : b.records.flatten = b.bytes := by
  unfold Batch.records Batch.bytes Batch.liveRecords
  simp only [List.flatten_cons, List.flatten_append, flatten_map_flatten, List.map_map,
    List.flatten_nil, List.append_nil, List.append_assoc]
  rfl

theorem nonFillerRecords_flatten (nf : NachaFile) :
    nf.nonFillerRecords.flatten
      = nf.header ++ ((nonEmptyBatches nf.Batches).map Batch.bytes).flatten
          ++ nf.control.flatten := by
  unfold NachaFile.nonFillerRecords
  simp only [List.flatten_cons, List.flatten_append, flatten_map_flatten, List.map_map,
    List.append_assoc]
  congr 2
  apply congrArg
  apply List.map_congr_left
  intro b _
  exact Batch.records_flatten b




theorem writeBatch_noRenumber (crlf : Bool) (st : WriteState) (b b2 : Batch)
    (he : b.isEmpty = false) (hs : b.setControlTotals = .ok b2) :
    writeBatch crlf false st b
      = .ok (b2, writeRecord crlf (writeEntries crlf (writeRecord crlf st b2.header)
            b2.Entries) b2.control) := by
  unfold writeBatch
  simp only [he, Bool.false_eq_true, if_false, bind, Except.bind, pure, Except.pure, hs]

theorem writeBatch_empty (crlf renumber : Bool) (st : WriteState) (b : Batch)
    (he : b.isEmpty = true) : writeBatch crlf renumber st b = .ok (b, st) := by
  unfold writeBatch
  simp only [he, if_true, pure, Except.pure]


theorem sample_isEmpty : sampleBatch.isEmpty = false := by decide
theorem sample_empty_isEmpty : sampleEmptyBatch.isEmpty = true := by decide

theorem sample_h1 (st : WriteState) : writeBatch false false st sampleBatch
      = .ok (sampleBatchSet, writeRecord false (writeEntries false (writeRecord false st sampleBatchSet.header)
            sampleBatchSet.Entries) sampleBatchSet.control) :=
  writeBatch_noRenumber false st sampleBatch sampleBatchSet sample_isEmpty
    sampleBatch_setControlTotals


theorem writeBatches_pair (crlf renumber : Bool) (st st1 st2 : WriteState) (b1 b2 r1 r2 : Batch)
    (h1 : writeBatch crlf renumber st b1 = .ok (r1, st1))
    (h2 : writeBatch crlf renumber st1 b2 = .ok (r2, st2)) :
    writeBatches crlf renumber st [b1, b2] = .ok ([r1, r2], st2) := by
  simp only [writeBatches, bind, Except.bind, h1, h2, pure, Except.pure]

theorem sample_writeBatches (st : WriteState) :
    writeBatches false false st [sampleBatch, sampleEmptyBatch]
      = .ok ([sampleBatchSet, sampleEmptyBatch],
          writeRecord false (writeEntries false (writeRecord false st sampleBatchSet.header)
            sampleBatchSet.Entries) sampleBatchSet.control) :=
  writeBatches_pair false false st _ _ sampleBatch sampleEmptyBatch sampleBatchSet
    sampleEmptyBatch (sample_h1 st)
    (writeBatch_empty false false _ sampleEmptyBatch sample_empty_isEmpty)


theorem Write_eq_of (nf nf1 : NachaFile) (bs1 : List Batch) (st1 : WriteState)
    (hb : writeBatches nf.crlf nf.renumber
      (writeRecord nf.crlf { out := [], records := 0, batchNum := 0 } nf.header) nf.Batches
        = .ok (bs1, st1))
    (hs : NachaFile.setControlTotals { nf with Batches := bs1 } = .ok nf1) :
    ∃ out, nf.Write = .ok (nf1, out) := by
  unfold NachaFile.Write
  simp only [bind, Except.bind, hb, hs, pure, Except.pure]
  exact ⟨_, rfl⟩

set_option maxRecDepth 20000 in
theorem sampleOutput_eq :
    streamOf false sampleFileSet.nonFillerRecords
      ++ streamOf false (List.replicate (fillerCount sampleFileSet.nonFillerRecords.length)
          fillerRecord) = sampleOutput := by
  decide

theorem sampleFile_Write : sampleFile.Write = .ok (sampleFileSet, sampleOutput) := by
  obtain ⟨out, h⟩ := Write_eq_of sampleFile sampleFileSet [sampleBatchSet, sampleEmptyBatch] _
    (sample_writeBatches _) sampleFileSet_setControlTotals
  obtain ⟨-, -, -, -, -, -, -, w8⟩ := Write_spec sampleFile sampleFileSet out h
  rw [h, w8]
  exact congrArg (fun o => Except.ok (sampleFileSet, o)) sampleOutput_eq



theorem streamOf_replicate_filler (k : Nat) :
    streamOf false (List.replicate k fillerRecord) = List.replicate (94 * k) 57 := by
  rw [streamOf_false]
  unfold fillerRecord
  rw [List.flatten_replicate_replicate, Nat.mul_comm]

theorem Batch.parseable_congr (b b1 : Batch) (h : b1.Entries = b.Entries) (hp : b.Parseable) :
    b1.Parseable := by
  unfold Batch.Parseable at hp ⊢
  rw [Batch.live_congr b b1 h]; exact hp

theorem writeBatch_ok_parseable (crlf renumber : Bool) (st : WriteState) (b : Batch)
    (h1 : 87 ≤ b.header.length) (h2 : 87 ≤ b.control.length) (hp : b.Parseable) :
    ∃ r, writeBatch crlf renumber st b = .ok r := by
  unfold writeBatch
  cases he : b.isEmpty with
  | true => exact ⟨_, rfl⟩
  | false =>
    simp only [Bool.false_eq_true, if_false, bind, Except.bind]
    cases hrn : renumber with
    | false =>
      simp only [Bool.false_eq_true, if_false, pure, Except.pure]
      obtain ⟨b1, hb1⟩ := batch_setControlTotals_ok b (by omega) hp
      rw [hb1]
      exact ⟨_, rfl⟩
    | true =>
      simp only [if_true, bind, Except.bind, pure, Except.pure]
      rw [setNumber_ok b _ h1 h2]
      dsimp only
      have hp2 : Batch.Parseable { b with
          header := overwrite b.header 87 (sprintf0 7 ((st.batchNum + 1 : Nat) : Int)),
          control := overwrite b.control 87 (sprintf0 7 ((st.batchNum + 1 : Nat) : Int)) } :=
        Batch.parseable_congr b _ rfl hp
      obtain ⟨b1, hb1⟩ := batch_setControlTotals_ok _
        (by rw [overwrite_length _ _ _ h2]; omega) hp2
      rw [hb1]
      exact ⟨_, rfl⟩

theorem writeBatches_ok_parseable (crlf renumber : Bool) (bs : List Batch) (st : WriteState)
    (hb : ∀ b ∈ bs, 87 ≤ b.header.length ∧ 87 ≤ b.control.length)
    (hp : ∀ b ∈ bs, b.Parseable) : ∃ r, writeBatches crlf renumber st bs = .ok r := by
  induction bs generalizing st with
  | nil => exact ⟨_, rfl⟩
  | cons b bs ih =>
    obtain ⟨⟨b1, st1⟩, h1⟩ := writeBatch_ok_parseable crlf renumber st b
      (hb b (List.mem_cons_self _ _)).1 (hb b (List.mem_cons_self _ _)).2
      (hp b (List.mem_cons_self _ _))
    obtain ⟨⟨bs2, st2⟩, h2⟩ := ih st1 (fun x hx => hb x (List.mem_cons_of_mem _ hx))
      (fun x hx => hp x (List.mem_cons_of_mem _ hx))
    refine ⟨(b1 :: bs2, st2), ?_⟩
    simp only [writeBatches, bind, Except.bind, h1, h2, pure, Except.pure]

theorem sameEntries_parseable (bs bs1 : List Batch)
    (h : List.Forall₂ (fun b b1 => b1.Entries = b.Entries) bs bs1)
    (hp : ∀ b ∈ bs, b.Parseable) : ∀ b ∈ bs1, b.Parseable := by
  induction h with
  | nil => intro b hb; cases hb
  | @cons b b1 bs bs1 hb _ ih =>
    intro x hx
    rcases List.mem_cons.mp hx with rfl | hx
    · exact Batch.parseable_congr b _ hb (hp b (List.mem_cons_self _ _))
    · exact ih (fun y hy => hp y (List.mem_cons_of_mem _ hy)) x hx

/-- `Write` returns on a file whose first control record has at least 43 bytes,
whose batch headers and control records have at least 87 bytes and whose live
entries have amount and hash fields that parse. -/
theorem Write_ok_parseable (nf : NachaFile) (c0 : List Nat) (rest : List (List Nat))
    (hc : nf.control = c0 :: rest) (hl : 43 ≤ c0.length)
    (hb : ∀ b ∈ nf.Batches, 87 ≤ b.header.length ∧ 87 ≤ b.control.length)
    (hp : ∀ b ∈ nf.Batches, b.Parseable) : ∃ r, nf.Write = .ok r := by
  obtain ⟨⟨bs1, st1⟩, h1⟩ := writeBatches_ok_parseable nf.crlf nf.renumber nf.Batches
    (writeRecord nf.crlf { out := [], records := 0, batchNum := 0 } nf.header) hb hp
  obtain ⟨i1, -, -⟩ := writeBatches_spec _ _ _ _ _ _ h1
  have hp1 := sameEntries_parseable nf.Batches bs1 (batchWritten_entries _ _ i1) hp
  obtain ⟨nf1, h2⟩ := file_setControlTotals_ok { nf with Batches := bs1 } c0 rest hc hl hp1
  unfold NachaFile.Write
  simp only [bind, Except.bind, h1, h2, pure, Except.pure]
  exact ⟨_, rfl⟩

/-- `Write` returns on a file whose first control record has at least 43 bytes,
whose batch headers and control records have at least 87 bytes and whose live
entries have digit amount and hash fields. -/
theorem Write_ok (nf : NachaFile) (c0 : List Nat) (rest : List (List Nat))
    (hc : nf.control = c0 :: rest) (hl : 43 ≤ c0.length)
    (hb : ∀ b ∈ nf.Batches, 87 ≤ b.header.length ∧ 87 ≤ b.control.length)
    (hf : ∀ b ∈ nf.Batches, b.FieldsOk) : ∃ r, nf.Write = .ok r :=
  Write_ok_parseable nf c0 rest hc hl hb (fun b h => Batch.parseable_of_fieldsOk b (hf b h))

/-- C1: for a file with a 94-byte header, at least one file control record and
batches that each have a 94-byte header and control record, with CRLF off, the
bytes `Write` produces are: the file header; then, for each batch in order that
has a live entry, its header, the records of its live entries in order and its
control record, as the write pass leaves them; then the file control records;
then only bytes `'9'`, a whole number of 94-byte filler records.  The entries
are those of the input and an empty batch is left as it was; empty batches and
removed entries contribute no bytes.  `Write` returns when moreover the control
records have 94 bytes and the amount and hash fields of the live entries parse
(`postAmt` returns without error and `hash` without panic). -/
theorem write_stream_structure (nf : NachaFile) (hh : nf.header.length = 94)
    (hc : nf.control ≠ []) (hb : ∀ b ∈ nf.Batches, b.header.length = 94 ∧ b.control.length = 94)
    (hcrlf : nf.crlf = false) :
    (∀ nf1 out, nf.Write = .ok (nf1, out) →
      out = nf.header ++ ((nonEmptyBatches nf1.Batches).map Batch.bytes).flatten
              ++ nf1.control.flatten
              ++ List.replicate (94 * fillerCount nf1.nonFillerRecords.length) 57
      ∧ List.Forall₂ batchWritten nf.Batches nf1.Batches
      ∧ nf1.control.length = nf.control.length)
    ∧ ((∀ c ∈ nf.control, c.length = 94) → (∀ b ∈ nf.Batches, b.Parseable) →
        ∃ r, nf.Write = .ok r) := by
  constructor
  · intro nf1 out h
    obtain ⟨w1, -, -, w4, -, w6, -, w8⟩ := Write_spec nf nf1 out h
    refine ⟨?_, w6, w4⟩
    rw [w8, hcrlf, streamOf_false, streamOf_replicate_filler, nonFillerRecords_flatten, w1]
  · intro hl hf
    cases hctl : nf.control with
    | nil => exact absurd hctl hc
    | cons c0 rest =>
      have h0 : c0.length = 94 := hl c0 (by rw [hctl]; exact List.mem_cons_self _ _)
      exact Write_ok_parseable nf c0 rest hctl (by omega)
        (fun b hb' => ⟨by have := (hb b hb').1; omega, by have := (hb b hb').2; omega⟩) hf


/-- C2: when `Write` has emitted the `n` records that are not filler (file
header, batch headers, entry records, batch controls, file controls), it emits
exactly `10 - n % 10` filler records of 94 bytes `'9'`, each followed by CRLF
when CRLF is on; the total number of records is a multiple of 10, and when `n`
is a multiple of 10 there are 10 filler records. -/
theorem write_filler_count (nf nf1 : NachaFile) (out : List Nat)
    (h : nf.Write = .ok (nf1, out)) :
    out = streamOf nf.crlf nf1.nonFillerRecords
        ++ streamOf nf.crlf (List.replicate (10 - nf1.nonFillerRecords.length % 10) fillerRecord)
    ∧ fillerRecord = List.replicate 94 57
    ∧ (nf1.nonFillerRecords.length + (10 - nf1.nonFillerRecords.length % 10)) % 10 = 0
    ∧ (nf1.nonFillerRecords.length % 10 = 0 → 10 - nf1.nonFillerRecords.length % 10 = 10) := by
  obtain ⟨-, -, -, -, -, -, -, w8⟩ := Write_spec nf nf1 out h
  refine ⟨w8, rfl, by omega, fun hz => by omega⟩




/-! ### Loading a well-formed record sequence -/

theorem updateAt_append_last {α : Type} (B : List α) (x : α) (f : α → α) :
    updateAt (B ++ [x]) B.length f = B ++ [f x] := by
  induction B with
  | nil => rfl
  | cons b B ih => simp [updateAt, ih]

theorem index_append_last {α : Type} (B : List α) (x : α) :
    index (B ++ [x]) B.length = .ok x := by
  unfold index
  simp

theorem loadStep_header (st : LoadState) (d : List Nat) (h : d.head? = some 49)
    (h0 : st.nf.header = []) :
    loadStep st d = .ok { st with nf := { st.nf with header := d } } := by
  cases d with
  | nil => simp at h
  | cons c tl =>
    simp only [List.head?_cons, Option.some.injEq] at h
    subst h
    simp [loadStep, index_zero_cons, bind, Except.bind, h0, pure, Except.pure]

theorem loadStep_open (st : LoadState) (d : List Nat) (h : d.head? = some 53)
    (hc : st.Closed) : loadStep st d = .ok (openBatch st d) := by
  cases d with
  | nil => simp at h
  | cons c tl =>
    simp only [List.head?_cons, Option.some.injEq] at h
    subst h
    unfold LoadState.Closed at hc
    cases hcb : st.curBatch with
    | none => simp [loadStep, index_zero_cons, bind, Except.bind, hcb, pure, Except.pure]
    | some i =>
      rw [hcb] at hc
      obtain ⟨cur, hget, hne⟩ := hc
      have hidx : index st.nf.Batches i = .ok cur := by
        unfold index; rw [hget]
      have hlen : cur.control.length ≠ 0 := fun hz => hne (List.length_eq_zero.mp hz)
      simp [loadStep, index_zero_cons, bind, Except.bind, hcb, hidx, hlen, pure, Except.pure]

theorem loadStep_entry (nf0 : NachaFile) (B : List Batch) (cur : Batch)
    (ce : Option (Nat × Nat)) (d : List Nat) (h : d.head? = some 54) :
    loadStep (midBatch nf0 B cur ce) d =
      .ok (midBatch nf0 B { cur with Entries := cur.Entries ++ [{ data := [d], Remove := false }] }
        (some (B.length, cur.Entries.length))) := by
  cases d with
  | nil => simp at h
  | cons c tl =>
    simp only [List.head?_cons, Option.some.injEq] at h
    subst h
    simp [loadStep, midBatch, index_zero_cons, bind, Except.bind, index_append_last,
      appendEntry, updateAt_append_last, pure, Except.pure]

theorem loadStep_addenda (nf0 : NachaFile) (B : List Batch) (hd : List Nat) (es : List Entry)
    (e : Entry) (ctl : List Nat) (d : List Nat) (h : d.head? = some 55) :
    loadStep (midBatch nf0 B { header := hd, Entries := es ++ [e], control := ctl }
        (some (B.length, es.length))) d =
      .ok (midBatch nf0 B
        { header := hd, Entries := es ++ [{ e with data := e.data ++ [d] }], control := ctl }
        (some (B.length, es.length))) := by
  cases d with
  | nil => simp at h
  | cons c tl =>
    simp only [List.head?_cons, Option.some.injEq] at h
    subst h
    simp [loadStep, midBatch, index_zero_cons, bind, Except.bind, appendAddenda,
      updateAt_append_last, pure, Except.pure]

theorem loadStep_control (nf0 : NachaFile) (B : List Batch) (cur : Batch)
    (ce : Option (Nat × Nat)) (d : List Nat) (h : d.head? = some 56) (hc : cur.control = []) :
    loadStep (midBatch nf0 B cur ce) d = .ok (midBatch nf0 B { cur with control := d } ce) := by
  cases d with
  | nil => simp at h
  | cons c tl =>
    simp only [List.head?_cons, Option.some.injEq] at h
    subst h
    simp [loadStep, midBatch, index_zero_cons, bind, Except.bind, index_append_last,
      setControl, updateAt_append_last, hc, pure, Except.pure]

theorem loadStep_fileControl (st : LoadState) (d : List Nat) (h : d.head? = some 57)
    (hi : isControl d = true) :
    loadStep st d = .ok { st with nf := { st.nf with control := st.nf.control ++ [d] } } := by
  cases d with
  | nil => simp at h
  | cons c tl =>
    simp only [List.head?_cons, Option.some.injEq] at h
    subst h
    simp [loadStep, index_zero_cons, bind, Except.bind, hi, pure, Except.pure]

theorem loadStep_skip (st : LoadState) (d : List Nat) (h : d.head? = some 57)
    (hi : isControl d = false) : loadStep st d = .ok st := by
  cases d with
  | nil => simp at h
  | cons c tl =>
    simp only [List.head?_cons, Option.some.injEq] at h
    subst h
    simp [loadStep, index_zero_cons, bind, Except.bind, hi, pure, Except.pure]

theorem loadStep_filler (st : LoadState) : loadStep st fillerRecord = .ok st :=
  loadStep_skip st fillerRecord (by decide) (by decide)



theorem loadLoop_cons_ok (st st1 : LoadState) (d : List Nat) (rest : List (List Nat))
    (h : loadStep st d = .ok st1) : loadLoop st (d :: rest) = loadLoop st1 rest := by
  simp only [loadLoop, bind, Except.bind, h]

theorem load_addenda (as : List (List Nat)) (nf0 : NachaFile) (B : List Batch) (hd : List Nat)
    (es : List Entry) (e : Entry) (ctl : List Nat) (rest : List (List Nat))
    (h : ∀ a ∈ as, a.head? = some 55) :
    loadLoop (midBatch nf0 B { header := hd, Entries := es ++ [e], control := ctl }
        (some (B.length, es.length))) (as ++ rest)
      = loadLoop (midBatch nf0 B
          { header := hd, Entries := es ++ [{ e with data := e.data ++ as }], control := ctl }
          (some (B.length, es.length))) rest := by
  induction as generalizing e with
  | nil => simp
  | cons a as ih =>
    rw [List.cons_append, loadLoop_cons_ok _ _ _ _
      (loadStep_addenda nf0 B hd es e ctl a (h a (List.mem_cons_self _ _)))]
    rw [ih _ (fun x hx => h x (List.mem_cons_of_mem _ hx))]
    simp

theorem load_entry (er : EntryRecs) (nf0 : NachaFile) (B : List Batch) (hd : List Nat)
    (es : List Entry) (ctl : List Nat) (ce : Option (Nat × Nat)) (rest : List (List Nat))
    (h : er.WellFormed) :
    loadLoop (midBatch nf0 B { header := hd, Entries := es, control := ctl } ce)
        (er.records ++ rest)
      = loadLoop (midBatch nf0 B
          { header := hd, Entries := es ++ [er.toEntry], control := ctl }
          (some (B.length, es.length))) rest := by
  unfold EntryRecs.records
  rw [List.cons_append, loadLoop_cons_ok _ _ _ _ (loadStep_entry nf0 B _ ce er.detail h.1)]
  exact load_addenda er.addenda nf0 B hd es { data := [er.detail], Remove := false } ctl rest h.2

theorem load_entries (ers : List EntryRecs) (nf0 : NachaFile) (B : List Batch) (hd : List Nat)
    (es : List Entry) (ctl : List Nat) (ce : Option (Nat × Nat)) (rest : List (List Nat))
    (h : ∀ er ∈ ers, er.WellFormed) :
    ∃ ce1, loadLoop (midBatch nf0 B { header := hd, Entries := es, control := ctl } ce)
        ((ers.map EntryRecs.records).flatten ++ rest)
      = loadLoop (midBatch nf0 B
          { header := hd, Entries := es ++ ers.map EntryRecs.toEntry, control := ctl } ce1)
          rest := by
  induction ers generalizing es ce with
  | nil => exact ⟨ce, by simp⟩
  | cons er ers ih =>
    obtain ⟨ce1, h1⟩ := ih (es ++ [er.toEntry]) (some (B.length, es.length))
      (fun x hx => h x (List.mem_cons_of_mem _ hx))
    refine ⟨ce1, ?_⟩
    rw [List.map_cons, List.flatten_cons, List.append_assoc,
      load_entry er nf0 B hd es ctl ce _ (h er (List.mem_cons_self _ _)), h1]
    simp

theorem load_batch (br : BatchRecs) (st : LoadState) (rest : List (List Nat))
    (hc : st.Closed) (h : br.WellFormed) :
    ∃ ce1, loadLoop st (br.records ++ rest)
      = loadLoop (midBatch st.nf st.nf.Batches br.toBatch ce1) rest := by
  obtain ⟨h5, -, he, h8⟩ := h
  obtain ⟨ce1, h1⟩ := load_entries br.entries st.nf st.nf.Batches br.header [] []
    st.curEntry ([br.control] ++ rest) he
  refine ⟨ce1, ?_⟩
  unfold BatchRecs.records
  rw [List.cons_append, loadLoop_cons_ok _ _ _ _ (loadStep_open st br.header h5 hc)]
  have ho : openBatch st br.header
      = midBatch st.nf st.nf.Batches { header := br.header, Entries := [], control := [] }
          st.curEntry := rfl
  rw [ho, List.append_assoc, h1]
  rw [List.singleton_append, loadLoop_cons_ok _ _ _ _
    (loadStep_control st.nf st.nf.Batches _ ce1 br.control h8 rfl)]
  rfl

theorem midBatch_closed (nf0 : NachaFile) (B : List Batch) (cur : Batch)
    (ce : Option (Nat × Nat)) (h : cur.control ≠ []) : (midBatch nf0 B cur ce).Closed := by
  unfold LoadState.Closed midBatch
  exact ⟨cur, by simp, h⟩

theorem load_batches (brs : List BatchRecs) (st : LoadState) (rest : List (List Nat))
    (hc : st.Closed) (h : ∀ br ∈ brs, br.WellFormed) :
    ∃ st1, loadLoop st ((brs.map BatchRecs.records).flatten ++ rest) = loadLoop st1 rest
      ∧ st1.Closed
      ∧ st1.nf = { st.nf with Batches := st.nf.Batches ++ brs.map BatchRecs.toBatch } := by
  induction brs generalizing st with
  | nil => exact ⟨st, by simp, hc, by simp⟩
  | cons br brs ih =>
    have hw := h br (List.mem_cons_self _ _)
    obtain ⟨ce1, h1⟩ := load_batch br st ((brs.map BatchRecs.records).flatten ++ rest) hc hw
    have hne : br.toBatch.control ≠ [] := by
      intro hn
      have h8 := hw.2.2.2
      have : br.control = [] := hn
      rw [this] at h8
      simp at h8
    obtain ⟨st1, i1, i2, i3⟩ := ih (midBatch st.nf st.nf.Batches br.toBatch ce1)
      (midBatch_closed _ _ _ _ hne) (fun x hx => h x (List.mem_cons_of_mem _ hx))
    refine ⟨st1, ?_, i2, ?_⟩
    · rw [List.map_cons, List.flatten_cons, List.append_assoc, h1, i1]
    · rw [i3]
      simp [midBatch]

theorem load_controls (cs : List (List Nat)) (st : LoadState) (rest : List (List Nat))
    (h : ∀ c ∈ cs, c.head? = some 57 ∧ isControl c = true) :
    loadLoop st (cs ++ rest)
      = loadLoop { st with nf := { st.nf with control := st.nf.control ++ cs } } rest := by
  induction cs generalizing st with
  | nil => simp
  | cons c cs ih =>
    have hc := h c (List.mem_cons_self _ _)
    rw [List.cons_append, loadLoop_cons_ok _ _ _ _ (loadStep_fileControl st c hc.1 hc.2)]
    rw [ih _ (fun x hx => h x (List.mem_cons_of_mem _ hx))]
    simp

theorem load_fillers (n : Nat) (st : LoadState) :
    loadLoop st (List.replicate n fillerRecord) = .ok st := by
  induction n with
  | zero => rfl
  | succ n ih => rw [List.replicate_succ, loadLoop_cons_ok _ _ _ _ (loadStep_filler st), ih]

/-- Loading a well-formed record sequence builds the file of its records. -/
theorem load_wellFormed (name : String) (h : List Nat) (bs : List BatchRecs)
    (cs : List (List Nat)) (nfill : Nat) (hw : WellFormedFile h bs cs) :
    LoadNachaFile name (fileRecords h bs cs nfill) = .ok (loadedFile name h bs cs) := by
  obtain ⟨h1, hb, -, h9⟩ := hw
  unfold LoadNachaFile fileRecords plainRecords
  rw [List.cons_append, loadLoop_cons_ok _ _ _ _ (loadStep_header (loadInit name) h h1 rfl)]
  obtain ⟨st1, i1, -, i3⟩ := load_batches bs
    { loadInit name with nf := { (loadInit name).nf with header := h } }
    (cs ++ List.replicate nfill fillerRecord) trivial hb
  rw [List.append_assoc, i1, load_controls cs st1 _ h9, load_fillers]
  simp only [bind, Except.bind, pure, Except.pure, i3]
  simp [loadedFile, loadInit]




/-! ### Round trip (C3) -/

theorem toBatch_live (b : BatchRecs) : b.toBatch.live = b.entries.map EntryRecs.toEntry := by
  unfold Batch.live BatchRecs.toBatch
  apply List.filter_eq_self.mpr
  intro e he
  obtain ⟨er, -, rfl⟩ := List.mem_map.mp he
  rfl

theorem toBatch_isEmpty (b : BatchRecs) (h : b.entries ≠ []) : b.toBatch.isEmpty = false := by
  cases hi : b.toBatch.isEmpty with
  | false => rfl
  | true =>
    have := (Batch.isEmpty_iff _).mp hi
    rw [toBatch_live] at this
    exact absurd (List.map_eq_nil_iff.mp this) h

theorem toBatch_records (b : BatchRecs) : b.toBatch.records = b.records := by
  unfold Batch.records Batch.liveRecords BatchRecs.records
  rw [toBatch_live, List.map_map]
  rfl

theorem nonEmptyBatches_toBatch (bs : List BatchRecs) (h : ∀ b ∈ bs, b.WellFormed) :
    nonEmptyBatches (bs.map BatchRecs.toBatch) = bs.map BatchRecs.toBatch := by
  unfold nonEmptyBatches
  apply List.filter_eq_self.mpr
  intro x hx
  obtain ⟨b, hb, rfl⟩ := List.mem_map.mp hx
  simp [toBatch_isEmpty b (h b hb).2.1]

theorem loadedFile_nonFillerRecords (name : String) (h : List Nat) (bs : List BatchRecs)
    (cs : List (List Nat)) (hw : ∀ b ∈ bs, b.WellFormed) :
    (loadedFile name h bs cs).nonFillerRecords = plainRecords h bs cs := by
  unfold NachaFile.nonFillerRecords plainRecords loadedFile
  simp only [nonEmptyBatches_toBatch bs hw, List.map_map]
  congr 3
  apply List.map_congr_left
  intro b _
  exact toBatch_records b

theorem writeBatches_fixed (crlf : Bool) (bs : List Batch) (st : WriteState)
    (h : ∀ b ∈ bs, b.isEmpty = false ∧ b.setControlTotals = .ok b) :
    ∃ st1, writeBatches crlf false st bs = .ok (bs, st1) := by
  induction bs generalizing st with
  | nil => exact ⟨st, rfl⟩
  | cons b bs ih =>
    obtain ⟨h1, h2⟩ := h b (List.mem_cons_self _ _)
    have hb := writeBatch_noRenumber crlf st b b h1 h2
    obtain ⟨st1, hr⟩ := ih
      (writeRecord crlf (writeEntries crlf (writeRecord crlf st b.header) b.Entries) b.control)
      (fun x hx => h x (List.mem_cons_of_mem _ hx))
    exact ⟨st1, by simp only [writeBatches, bind, Except.bind, hb, hr, pure, Except.pure]⟩

/-- C3: round trip.  For a well-formed record sequence (one `'1'` header;
batches of a `'5'` header, one or more entries of a `'6'` record and its `'7'`
records, and an `'8'` control; one or more `'9'` control records that are not
all nines; filler) whose batch and file control records already hold the totals
the write pass computes, the load returns a file, and writing that file with
renumbering and CRLF off returns the original records that are not filler,
byte for byte and in order, followed by filler bytes only. -/
theorem load_write_round_trip (name : String) (h : List Nat) (bs : List BatchRecs)
    (cs : List (List Nat)) (nfill : Nat) (hw : WellFormedFile h bs cs)
    (hcb : ∀ b ∈ bs, b.toBatch.setControlTotals = .ok b.toBatch)
    (hcf : (loadedFile name h bs cs).setControlTotals = .ok (loadedFile name h bs cs)) :
    LoadNachaFile name (fileRecords h bs cs nfill) = .ok (loadedFile name h bs cs)
    ∧ (loadedFile name h bs cs).DisableBatchRenumber.DisableCrlf.Write
        = .ok (loadedFile name h bs cs,
            (plainRecords h bs cs).flatten
              ++ List.replicate (94 * fillerCount (plainRecords h bs cs).length) 57) := by
  refine ⟨load_wellFormed name h bs cs nfill hw, ?_⟩
  have hsame : (loadedFile name h bs cs).DisableBatchRenumber.DisableCrlf
      = loadedFile name h bs cs := rfl
  rw [hsame]
  obtain ⟨st1, hb⟩ := writeBatches_fixed false (bs.map BatchRecs.toBatch)
    (writeRecord false { out := [], records := 0, batchNum := 0 } h)
    (fun x hx => by
      obtain ⟨b, hb, rfl⟩ := List.mem_map.mp hx
      exact ⟨toBatch_isEmpty b (hw.2.1 b hb).2.1, hcb b hb⟩)
  obtain ⟨out, hout⟩ := Write_eq_of (loadedFile name h bs cs) (loadedFile name h bs cs)
    (bs.map BatchRecs.toBatch) st1 hb hcf
  obtain ⟨-, -, -, -, -, -, -, w8⟩ := Write_spec _ _ out hout
  rw [hout, w8, loadedFile_nonFillerRecords name h bs cs hw.2.1]
  have hcr : (loadedFile name h bs cs).crlf = false := rfl
  rw [hcr, streamOf_false, streamOf_replicate_filler]



theorem sampleBatchRecs_consistent :
    sampleBatchRecs.toBatch.setControlTotals = .ok sampleBatchRecs.toBatch := by
  rw [setControlTotals_of_digits sampleBatchRecs.toBatch (by decide) (by decide) (by decide)
    (by decide) (by decide)]
  decide

theorem sampleLoaded_consistent :
    (loadedFile "sample.ach" sampleFileHeader [sampleBatchRecs] [sampleFileControlSet]).setControlTotals
      = .ok (loadedFile "sample.ach" sampleFileHeader [sampleBatchRecs] [sampleFileControlSet]) := by
  rw [file_setControlTotals_of_digits _ sampleFileControlSet [] rfl (by decide) (by decide)
    (by decide) (by decide)]
  decide

/-- Witness for C3: a header, one batch of two entries (the second with an
addenda record), one file control record and three filler records. -/
theorem load_write_round_trip_witness :
    LoadNachaFile "sample.ach"
        (fileRecords sampleFileHeader [sampleBatchRecs] [sampleFileControlSet] 3)
      = .ok (loadedFile "sample.ach" sampleFileHeader [sampleBatchRecs] [sampleFileControlSet])
    ∧ (loadedFile "sample.ach" sampleFileHeader [sampleBatchRecs]
          [sampleFileControlSet]).DisableBatchRenumber.DisableCrlf.Write
        = .ok (loadedFile "sample.ach" sampleFileHeader [sampleBatchRecs] [sampleFileControlSet],
            (plainRecords sampleFileHeader [sampleBatchRecs] [sampleFileControlSet]).flatten
              ++ List.replicate (94 * fillerCount
                  (plainRecords sampleFileHeader [sampleBatchRecs]
                    [sampleFileControlSet]).length) 57) :=
  load_write_round_trip "sample.ach" sampleFileHeader [sampleBatchRecs] [sampleFileControlSet] 3
    (by decide)
    (fun b hb => by
      rw [List.mem_singleton] at hb
      subst hb
      exact sampleBatchRecs_consistent)
    sampleLoaded_consistent




/-! ### Entries and addenda outside their batch (C11, C12) -/

/-- C11, the code at the failing input: an entry detail record that follows the
control record of a batch, with no new batch header, is accepted and attached
to the closed batch. -/
theorem load_entry_after_batch_control :
    LoadNachaFile "in.ach" sampleEntryAfterControl
      = .ok { name := "in.ach", header := sampleFileHeader,
              Batches := [{ header := sampleBatchHeader,
                            Entries := [{ data := [sampleDetail "27" "09100001" "0000010000"],
                                          Remove := false },
                                        { data := [sampleDetailB], Remove := false }],
                            control := sampleBatchControl }],
              control := [sampleFileControl], crlf := false, renumber := false } := by
  decide

/-- C12, the code at the failing input: an addenda record that arrives in the
second batch before any entry detail record of that batch is accepted and
attached to the last entry of the first batch. -/
theorem load_addenda_in_second_batch :
    LoadNachaFile "in.ach" sampleAddendaInSecondBatch
      = .ok { name := "in.ach", header := sampleFileHeader,
              Batches := [{ header := sampleBatchHeader,
                            Entries := [{ data := [sampleDetail "27" "09100001" "0000010000",
                                                   sampleAddenda],
                                          Remove := false }],
                            control := sampleBatchControl },
                          { header := sampleBatchHeader, Entries := [],
                            control := sampleBatchControl }],
              control := [sampleFileControl], crlf := false, renumber := false } := by
  decide




/-! ### What a successful load guarantees (C18) -/

theorem updateAt_length {α : Type} (xs : List α) (i : Nat) (f : α → α) :
    (updateAt xs i f).length = xs.length := by
  induction xs generalizing i with
  | nil => rfl
  | cons x xs ih => cases i <;> simp [updateAt, ih]

theorem updateAt_forall {α : Type} (P : α → Prop) (xs : List α) (i : Nat) (f : α → α)
    (h : ∀ x ∈ xs, P x) (hf : ∀ x, P x → P (f x)) : ∀ x ∈ updateAt xs i f, P x := by
  induction xs generalizing i with
  | nil => intro x hx; simp [updateAt] at hx
  | cons y ys ih =>
    cases i with
    | zero =>
      intro x hx
      simp only [updateAt, List.mem_cons] at hx
      rcases hx with rfl | hx
      · exact hf y (h y (List.mem_cons_self _ _))
      · exact h x (List.mem_cons_of_mem _ hx)
    | succ i =>
      intro x hx
      simp only [updateAt, List.mem_cons] at hx
      rcases hx with rfl | hx
      · exact h x (List.mem_cons_self _ _)
      · exact ih i (fun z hz => h z (List.mem_cons_of_mem _ hz)) x hx

theorem updateAt_ne_nil {α : Type} (xs : List α) (i : Nat) (f : α → α) (h : xs ≠ []) :
    updateAt xs i f ≠ [] := by
  intro hn
  have := updateAt_length xs i f
  rw [hn] at this
  exact h (List.length_eq_zero.mp this.symm)

theorem updateAt_dropLast {α : Type} (xs : List α) (i : Nat) (f : α → α) :
    (updateAt xs i f).dropLast = updateAt xs.dropLast i f := by
  induction xs generalizing i with
  | nil => rfl
  | cons x xs ih =>
    cases xs with
    | nil => cases i <;> simp [updateAt]
    | cons y ys =>
      cases i with
      | zero => simp [updateAt]
      | succ i =>
        have hne : updateAt (y :: ys) i f ≠ [] := updateAt_ne_nil _ i f (by simp)
        have e : (x :: y :: ys).dropLast = x :: (y :: ys).dropLast :=
          List.dropLast_cons_of_ne_nil (by simp)
        rw [e]
        show (x :: updateAt (y :: ys) i f).dropLast = x :: updateAt (y :: ys).dropLast i f
        rw [List.dropLast_cons_of_ne_nil hne, ih i]

theorem eq_dropLast_append_of_get? {α : Type} (xs : List α) (i : Nat) (x : α)
    (hi : i + 1 = xs.length) (hg : xs.get? i = some x) : xs = xs.dropLast ++ [x] := by
  induction xs generalizing i with
  | nil => simp at hi
  | cons a t ih =>
    cases t with
    | nil =>
      simp only [List.length_singleton] at hi
      have : i = 0 := by omega
      subst this
      simp only [List.get?_cons_zero, Option.some.injEq] at hg
      subst hg
      rfl
    | cons b t =>
      cases i with
      | zero => simp at hi
      | succ j =>
        simp only [List.get?_cons_succ] at hg
        have := ih j (by simp only [List.length_cons] at hi ⊢; omega) hg
        rw [List.dropLast_cons_of_ne_nil (by simp), List.cons_append, ← this]

theorem Batch.loaded_addEntry (b : Batch) (d : List Nat) (hd : d.length = 94) (h : b.Loaded) :
    Batch.Loaded { b with Entries := b.Entries ++ [{ data := [d], Remove := false }] } := by
  obtain ⟨h1, h2, h3⟩ := h
  refine ⟨h1, h2, ?_⟩
  intro e he
  rcases List.mem_append.mp he with he | he
  · exact h3 e he
  · rw [List.mem_singleton] at he
    subst he
    refine ⟨by simp, ?_⟩
    intro x hx
    rw [List.mem_singleton] at hx
    rw [hx]; exact hd

theorem Batch.loaded_addAddenda (b : Batch) (ei : Nat) (d : List Nat) (hd : d.length = 94)
    (h : b.Loaded) :
    Batch.Loaded
      { b with Entries := (updateAt b.Entries ei (fun e => { e with data := e.data ++ [d] })) } := by
  obtain ⟨h1, h2, h3⟩ := h
  refine ⟨h1, h2, ?_⟩
  apply updateAt_forall (fun e : Entry => e.data ≠ [] ∧ ∀ x ∈ e.data, x.length = 94) _ _ _ h3
  intro e ⟨_, he2⟩
  refine ⟨by simp, ?_⟩
  intro x hx
  rcases List.mem_append.mp hx with hx | hx
  · exact he2 x hx
  · rw [List.mem_singleton] at hx
    rw [hx]; exact hd

theorem Batch.loaded_setControl (b : Batch) (d : List Nat) (hd : d.length = 94)
    (h : b.Loaded) : Batch.Loaded { b with control := d } :=
  ⟨h.1, Or.inr hd, h.2.2⟩

/-- A batch header record is accepted only when the current batch, if any, has
its control record; the step then opens a batch. -/
theorem loadStep_open_inv (st st1 : LoadState) (tl : List Nat)
    (h : loadStep st (53 :: tl) = .ok st1) :
    st1 = openBatch st (53 :: tl)
    ∧ ∀ i, st.curBatch = some i →
        ∃ cur, st.nf.Batches.get? i = some cur ∧ cur.control ≠ [] := by
  simp only [loadStep, index_zero_cons, bind, Except.bind, show ¬ (53 : Nat) = 49 by decide,
    if_false, if_true] at h
  cases hcb : st.curBatch with
  | none =>
    rw [hcb] at h
    simp only [pure, Except.pure, Except.ok.injEq] at h
    exact ⟨h.symm, fun i hi => by cases hi⟩
  | some i =>
    rw [hcb] at h
    simp only at h
    cases hg : st.nf.Batches.get? i with
    | none => simp only [index, hg] at h; cases h
    | some cur =>
      simp only [index, hg] at h
      by_cases hz : cur.control.length = 0
      · simp only [hz, if_true] at h; cases h
      · simp only [hz, if_false, pure, Except.pure, Except.ok.injEq] at h
        refine ⟨h.symm, fun j hj => ?_⟩
        cases hj
        exact ⟨cur, hg, fun hn => hz (by rw [hn]; rfl)⟩

theorem openBatch_inv (st : LoadState) (d : List Nat) (hd : d.length = 94) (hi : st.Inv)
    (hc : ∀ i, st.curBatch = some i →
        ∃ cur, st.nf.Batches.get? i = some cur ∧ cur.control ≠ []) :
    (openBatch st d).Inv := by
  obtain ⟨⟨i1, i2, i3, i4⟩, i5⟩ := hi
  refine ⟨⟨i1, i2, ?_, ?_⟩, ?_⟩
  · intro b hb
    simp only [openBatch, List.mem_append, List.mem_singleton] at hb
    rcases hb with hb | hb
    · exact i3 b hb
    · subst hb
      exact ⟨hd, Or.inl rfl, fun e he => by cases he⟩
  · simp only [openBatch, List.dropLast_concat]
    intro b hb
    cases hcb : st.curBatch with
    | none =>
      rw [hcb] at i5
      simp only at i5
      rw [i5] at hb
      cases hb
    | some i =>
      rw [hcb] at i5
      simp only at i5
      obtain ⟨cur, hg, hne⟩ := hc i hcb
      have hlast := eq_dropLast_append_of_get? st.nf.Batches i cur i5 hg
      rw [hlast] at hb
      rcases List.mem_append.mp hb with hb | hb
      · exact i4 b hb
      · rw [List.mem_singleton] at hb
        subst hb
        have hcm : b ∈ st.nf.Batches := by
          rw [hlast]; simp
        rcases (i3 b hcm).2.1 with hcc | hcc
        · exact absurd hcc hne
        · exact hcc
  · simp [openBatch]

theorem loadStep_inv (st st1 : LoadState) (d : List Nat) (hd : d.length = 94)
    (hi : st.Inv) (h : loadStep st d = .ok st1) : st1.Inv := by
  cases d with
  | nil => simp at hd
  | cons c tl =>
    by_cases h5 : c = 53
    · subst h5
      obtain ⟨rfl, hc⟩ := loadStep_open_inv st st1 tl h
      exact openBatch_inv st _ hd hi hc
    obtain ⟨⟨i1, i2, i3, i4⟩, i5⟩ := hi
    simp only [loadStep, index_zero_cons, bind, Except.bind, h5, if_false] at h
    by_cases h1 : c = 49
    · subst h1
      simp only [if_true] at h
      split_ifs at h
      simp only [pure, Except.pure, Except.ok.injEq] at h
      subst h
      exact ⟨⟨Or.inr hd, i2, i3, i4⟩, i5⟩
    by_cases h6 : c = 54
    · subst h6
      simp only [show ¬ (54 : Nat) = 49 by decide, if_true, if_false] at h
      cases hcb : st.curBatch with
      | none => rw [hcb] at h; cases h
      | some i =>
        rw [hcb] at h i5
        simp only at h i5
        cases hidx : index st.nf.Batches i with
        | error f => rw [hidx] at h; cases h
        | ok cur =>
          rw [hidx] at h
          simp only [pure, Except.pure, Except.ok.injEq] at h
          subst h
          refine ⟨⟨i1, i2, ?_, ?_⟩, ?_⟩
          · exact updateAt_forall Batch.Loaded _ _ _ i3
              (fun b hb => Batch.loaded_addEntry b _ hd hb)
          · simp only [appendEntry, updateAt_dropLast]
            exact updateAt_forall (fun b : Batch => b.control.length = 94) _ _ _ i4
              (fun b hb => hb)
          · simp only [hcb, appendEntry, updateAt_length]
            exact i5
    by_cases h7 : c = 55
    · subst h7
      simp only [show ¬ (55 : Nat) = 49 by decide, show ¬ (55 : Nat) = 54 by decide, if_true,
        if_false] at h
      cases hcb : st.curBatch with
      | none => rw [hcb] at h; cases h
      | some i =>
        rw [hcb] at h i5
        simp only at h i5
        cases hce : st.curEntry with
        | none => rw [hce] at h; cases h
        | some p =>
          obtain ⟨bi, ei⟩ := p
          rw [hce] at h
          simp only [pure, Except.pure, Except.ok.injEq] at h
          subst h
          refine ⟨⟨i1, i2, ?_, ?_⟩, ?_⟩
          · exact updateAt_forall Batch.Loaded _ _ _ i3
              (fun b hb => Batch.loaded_addAddenda b ei _ hd hb)
          · simp only [appendAddenda, updateAt_dropLast]
            exact updateAt_forall (fun b : Batch => b.control.length = 94) _ _ _ i4
              (fun b hb => hb)
          · simp only [hcb, appendAddenda, updateAt_length]
            exact i5
    by_cases h8 : c = 56
    · subst h8
      simp only [show ¬ (56 : Nat) = 49 by decide, show ¬ (56 : Nat) = 54 by decide,
        show ¬ (56 : Nat) = 55 by decide, if_true, if_false] at h
      cases hcb : st.curBatch with
      | none => rw [hcb] at h; cases h
      | some i =>
        rw [hcb] at h i5
        simp only at h i5
        cases hidx : index st.nf.Batches i with
        | error f => rw [hidx] at h; cases h
        | ok cur =>
          rw [hidx] at h
          simp only at h
          split_ifs at h
          simp only [pure, Except.pure, Except.ok.injEq] at h
          subst h
          refine ⟨⟨i1, i2, ?_, ?_⟩, ?_⟩
          · exact updateAt_forall Batch.Loaded _ _ _ i3
              (fun b hb => Batch.loaded_setControl b _ hd hb)
          · simp only [setControl, updateAt_dropLast]
            exact updateAt_forall (fun b : Batch => b.control.length = 94) _ _ _ i4
              (fun b _ => hd)
          · simp only [hcb, setControl, updateAt_length]
            exact i5
    by_cases h9 : c = 57
    · subst h9
      simp only [show ¬ (57 : Nat) = 49 by decide, show ¬ (57 : Nat) = 54 by decide,
        show ¬ (57 : Nat) = 55 by decide, show ¬ (57 : Nat) = 56 by decide, if_true,
        if_false] at h
      split_ifs at h
      · simp only [pure, Except.pure, Except.ok.injEq] at h
        subst h
        refine ⟨⟨i1, ?_, i3, i4⟩, i5⟩
        intro x hx
        rcases List.mem_append.mp hx with hx | hx
        · exact i2 x hx
        · rw [List.mem_singleton] at hx
          rw [hx]; exact hd
      · simp only [pure, Except.pure, Except.ok.injEq] at h
        subst h
        exact ⟨⟨i1, i2, i3, i4⟩, i5⟩
    · simp only [h1, h6, h7, h8, h9, if_false] at h
      cases h




theorem loadLoop_inv (recs : List (List Nat)) (st st1 : LoadState)
    (hl : ∀ r ∈ recs, r.length = 94) (hi : st.Inv) (h : loadLoop st recs = .ok st1) :
    st1.Inv := by
  induction recs generalizing st with
  | nil =>
    simp only [loadLoop, pure, Except.pure, Except.ok.injEq] at h
    rw [← h]; exact hi
  | cons r rest ih =>
    simp only [loadLoop, bind, Except.bind] at h
    cases hs : loadStep st r with
    | error f => rw [hs] at h; cases h
    | ok st2 =>
      rw [hs] at h
      exact ih st2 (fun x hx => hl x (List.mem_cons_of_mem _ hx))
        (loadStep_inv st st2 r (hl r (List.mem_cons_self _ _)) hi hs) h

theorem loadInit_inv (name : String) : (loadInit name).Inv := by
  refine ⟨⟨Or.inl rfl, ?_, ?_, ?_⟩, rfl⟩
  · intro c hc; cases hc
  · intro b hb; cases hb
  · intro b hb; cases hb

/-- An entry whose detail record has 94 bytes and whose amount and hash fields
parse: `postAmt` and `hash` index existing bytes and return. -/
theorem Entry.parseable_of_fieldsParse (e : Entry) (hne : e.data ≠ [])
    (hlen : ∀ d ∈ e.data, d.length = 94) (hp : e.FieldsParse) : e.Parseable := by
  have hdata := Entry.data_eq_of_ne_nil e hne
  have hmem : e.detail ∈ e.data := by
    rw [hdata]; exact List.mem_cons_self _ _
  have hl := hlen e.detail hmem
  obtain ⟨h1, h2⟩ := hp
  constructor
  · cases hc : parseCurrency (field e.detail 29 39) with
    | none => exact absurd hc h1
    | some amt =>
      unfold Entry.postAmt
      rw [hdata, index_zero_cons]
      simp only [bind, Except.bind, slice_eq_field e.detail 29 39 (by omega) (by omega),
        slice_eq_field e.detail 1 3 (by omega) (show 3 ≤ e.detail.length by omega), hc,
        pure, Except.pure]
      exact ⟨_, rfl⟩
  · cases hc : parseInt (field e.detail 3 11) with
    | none => exact absurd hc h2
    | some v =>
      unfold Entry.hash
      rw [hdata, index_zero_cons]
      simp only [bind, Except.bind, slice_eq_field e.detail 3 11 (by omega) (by omega), hc,
        pure, Except.pure]
      exact ⟨_, rfl⟩

/-- On a file as the loader builds it that has a file control record, a control
record in every batch, and live entries whose amount and hash fields parse,
`setControlTotals` and `Write` return: every index and slice expression they
evaluate is in range. -/
theorem loaded_complete_ok (nf : NachaFile) (hld : nf.Loaded) (hc : nf.control ≠ [])
    (hbc : ∀ b ∈ nf.Batches, b.control ≠ [])
    (hfp : ∀ b ∈ nf.Batches, ∀ e ∈ b.live, e.FieldsParse) :
    (∃ nf1, nf.setControlTotals = .ok nf1) ∧ ∃ r, nf.Write = .ok r := by
  obtain ⟨-, l2, l3, -⟩ := hld
  have hp : ∀ b ∈ nf.Batches, b.Parseable := by
    intro b hb e he
    have hmem : e ∈ b.Entries := (List.mem_filter.mp he).1
    obtain ⟨-, -, k3⟩ := l3 b hb
    exact Entry.parseable_of_fieldsParse e (k3 e hmem).1 (k3 e hmem).2 (hfp b hb e he)
  have hlen : ∀ b ∈ nf.Batches, 87 ≤ b.header.length ∧ 87 ≤ b.control.length := by
    intro b hb
    obtain ⟨k1, k2, -⟩ := l3 b hb
    rcases k2 with k2 | k2
    · exact absurd k2 (hbc b hb)
    · omega
  cases hctl : nf.control with
  | nil => exact absurd hctl hc
  | cons c0 rest =>
    have h0 : c0.length = 94 := l2 c0 (by rw [hctl]; exact List.mem_cons_self _ _)
    exact ⟨file_setControlTotals_ok nf c0 rest hctl (by omega) hp,
      Write_ok_parseable nf c0 rest hctl (by omega) hlen hp⟩

/-- C18 as amended: every file returned by a successful load of 94-byte records
has a header that is absent or 94 bytes, file control records of 94 bytes, and
batches with a 94-byte header and entries that each hold at least one 94-byte
record; the control record of every batch but the last is present and 94 bytes,
that of the last batch is absent or 94 bytes.  When such a file has a file
control record and a control record in every batch, and the amount and hash
fields of its live entries parse, `setControlTotals` and `Write` return on it:
they index only existing bytes. -/
theorem load_structure (name : String) (recs : List (List Nat)) (nf : NachaFile)
    (hl : ∀ r ∈ recs, r.length = 94) (h : LoadNachaFile name recs = .ok nf) :
    (nf.header = [] ∨ nf.header.length = 94)
    ∧ (∀ c ∈ nf.control, c.length = 94)
    ∧ (∀ b ∈ nf.Batches, b.header.length = 94 ∧ (b.control = [] ∨ b.control.length = 94)
        ∧ ∀ e ∈ b.Entries, e.data ≠ [] ∧ ∀ d ∈ e.data, d.length = 94)
    ∧ (∀ b ∈ nf.Batches.dropLast, b.control.length = 94)
    ∧ (nf.control ≠ [] → (∀ b ∈ nf.Batches, b.control ≠ []) →
        (∀ b ∈ nf.Batches, ∀ e ∈ b.live, e.FieldsParse) →
        (∃ nf1, nf.setControlTotals = .ok nf1) ∧ ∃ r, nf.Write = .ok r) := by
  unfold LoadNachaFile at h
  simp only [bind, Except.bind] at h
  cases hs : loadLoop (loadInit name) recs with
  | error f => rw [hs] at h; cases h
  | ok st =>
    rw [hs] at h
    simp only [pure, Except.pure, Except.ok.injEq] at h
    subst h
    have hinv := (loadLoop_inv recs _ st hl (loadInit_inv name) hs).1
    exact ⟨hinv.1, hinv.2.1, hinv.2.2.1, hinv.2.2.2,
      fun hc hbc hfp => loaded_complete_ok st.nf hinv hc hbc hfp⟩

/-- C18, counterexample: the load of no record at all succeeds and returns a
file without header and without control record, on which `setControlTotals`
panics; the load of a sequence that stops inside its first batch succeeds and
returns a file without control record whose batch has no control record. -/
theorem load_returns_incomplete_file :
    LoadNachaFile "in.ach" [] = .ok sampleEmptyLoaded
    ∧ ¬ sampleEmptyLoaded.Complete
    ∧ sampleEmptyLoaded.setControlTotals = .error Fault.panic
    ∧ LoadNachaFile "in.ach" sampleOpenBatch = .ok sampleOpenLoaded
    ∧ ¬ sampleOpenLoaded.Complete := by
  refine ⟨by decide, by decide, by decide, by decide, by decide⟩

theorem Entry.fieldsParse_of_digits (e : Entry) (ha : e.AmountOk) (hh : e.HashOk) :
    e.FieldsParse := by
  obtain ⟨-, hlen, hdig⟩ := ha
  obtain ⟨-, hlen2, hdig2⟩ := hh
  have hl : (field e.detail 29 39).length = 10 := field_length _ 29 39 (by omega) hlen
  have hl2 : (field e.detail 3 11).length = 8 := field_length _ 3 11 (by omega) hlen2
  constructor
  · rw [parseCurrency_of_digits _ hdig hl]; exact fun hn => by cases hn
  · have hlt : digitsVal (field e.detail 3 11) < 2 ^ 63 := by
      have := digitsVal_lt _ hdig2
      rw [hl2] at this
      omega
    rw [parseInt_of_digits _ hdig2 (by intro hn; rw [hn] at hl2; simp at hl2) hlt]
    exact fun hn => by cases hn

/-- Witness for C18 as amended: the load of the sequence that stops inside its
first batch, and the load of a complete sequence, on which `setControlTotals`
and `Write` return. -/
theorem load_structure_witness :
    ((sampleOpenLoaded.header = [] ∨ sampleOpenLoaded.header.length = 94)
      ∧ (∀ c ∈ sampleOpenLoaded.control, c.length = 94)
      ∧ (∀ b ∈ sampleOpenLoaded.Batches,
          b.header.length = 94 ∧ (b.control = [] ∨ b.control.length = 94)
          ∧ ∀ e ∈ b.Entries, e.data ≠ [] ∧ ∀ d ∈ e.data, d.length = 94)
      ∧ (∀ b ∈ sampleOpenLoaded.Batches.dropLast, b.control.length = 94))
    ∧ ((∃ nf1, (loadedFile "sample.ach" sampleFileHeader [sampleBatchRecs]
          [sampleFileControlSet]).setControlTotals = .ok nf1)
      ∧ ∃ r, (loadedFile "sample.ach" sampleFileHeader [sampleBatchRecs]
          [sampleFileControlSet]).Write = .ok r) :=
  have h1 := load_structure "in.ach" sampleOpenBatch sampleOpenLoaded (by decide) (by decide)
  have h2 := load_structure "sample.ach"
    (fileRecords sampleFileHeader [sampleBatchRecs] [sampleFileControlSet] 3)
    (loadedFile "sample.ach" sampleFileHeader [sampleBatchRecs] [sampleFileControlSet])
    (by decide)
    (load_wellFormed "sample.ach" sampleFileHeader [sampleBatchRecs] [sampleFileControlSet] 3
      (by decide))
  ⟨⟨h1.1, h1.2.1, h1.2.2.1, h1.2.2.2.1⟩,
    h2.2.2.2.2 (by decide) (by decide)
      (fun b hb e he => Entry.fieldsParse_of_digits e
        (((by decide : ∀ b ∈ (loadedFile "sample.ach" sampleFileHeader [sampleBatchRecs]
            [sampleFileControlSet]).Batches, b.FieldsOk) b hb) e he).1
        (((by decide : ∀ b ∈ (loadedFile "sample.ach" sampleFileHeader [sampleBatchRecs]
            [sampleFileControlSet]).Batches, b.FieldsOk) b hb) e he).2)⟩




/-! ### Accessors on a file without control record (C20) -/

theorem debitCredit_foldlM_fault (es : List Entry) (tot : Int × Int) (f : Fault)
    (h : es.foldlM debitCreditStep tot = .error f) : f = Fault.panic := by
  induction es generalizing tot with
  | nil => simp [pure, Except.pure] at h
  | cons e es ih =>
    rw [List.foldlM_cons] at h
    cases hs : debitCreditStep tot e with
    | error g =>
      rw [hs] at h
      simp only [bind, Except.bind, Except.error.injEq] at h
      subst h
      unfold debitCreditStep at hs
      split_ifs at hs
      · cases hs
      · cases hp : e.postAmt with
        | error x =>
          rw [hp] at hs
          simp only [throw, throwThe, MonadExceptOf.throw, Except.error.injEq] at hs
          exact hs.symm
        | ok amt =>
          rw [hp] at hs
          simp only at hs
          split_ifs at hs <;> cases hs
    | ok r =>
      rw [hs] at h
      exact ih r h

theorem fileTotals_foldlM_fault (bs : List Batch) (t : FileTotals) (f : Fault)
    (h : bs.foldlM fileTotalsStep t = .error f) : f = Fault.panic := by
  induction bs generalizing t with
  | nil => simp [pure, Except.pure] at h
  | cons b bs ih =>
    rw [List.foldlM_cons] at h
    cases hs : fileTotalsStep t b with
    | error g =>
      rw [hs] at h
      simp only [bind, Except.bind, Except.error.injEq] at h
      subst h
      unfold fileTotalsStep at hs
      simp only at hs
      split_ifs at hs
      · cases hs
      · cases hd : b.debitCreditTotals with
        | error x =>
          rw [hd] at hs
          simp only [bind, Except.bind, Except.error.injEq] at hs
          rw [← hs]
          exact debitCredit_foldlM_fault b.Entries (0, 0) x hd
        | ok r =>
          rw [hd] at hs
          simp only [bind, Except.bind, pure, Except.pure] at hs
          cases hs
    | ok r =>
      rw [hs] at h
      exact ih r h

/-- Without a file control record `setControlTotals` panics: the index
expression `nf.control[0]` is out of range. -/
theorem setControlTotals_panics_without_control (nf : NachaFile) (h : nf.control = []) :
    nf.setControlTotals = .error Fault.panic := by
  unfold NachaFile.setControlTotals
  simp only [bind, Except.bind]
  cases ht : nf.Batches.foldlM fileTotalsStep
      { bCount := 0, eCount := 0, debitTot := 0, creditTot := 0 } with
  | error f => rw [fileTotals_foldlM_fault _ _ f ht]
  | ok t => simp only [h, index_nil]

/-- On every file without control record each of the six accessors panics
inside `setControlTotals`, before its guard on `len(nf.control)` is reached. -/
theorem accessors_panic_of_no_control (nf : NachaFile) (h : nf.control = []) :
    nf.BatchCount = .error Fault.panic ∧ nf.EntryCount = .error Fault.panic
    ∧ nf.BlockCount = .error Fault.panic ∧ nf.DebitTotal = .error Fault.panic
    ∧ nf.CreditTotal = .error Fault.panic ∧ nf.Hash = .error Fault.panic := by
  have hp := setControlTotals_panics_without_control nf h
  refine ⟨?_, ?_, ?_, ?_, ?_, ?_⟩
  · simp only [NachaFile.BatchCount, hp, bind, Except.bind]
  · simp only [NachaFile.EntryCount, hp, bind, Except.bind]
  · simp only [NachaFile.BlockCount, hp, bind, Except.bind]
  · simp only [NachaFile.DebitTotal, hp, bind, Except.bind]
  · simp only [NachaFile.CreditTotal, hp, bind, Except.bind]
  · simp only [NachaFile.Hash, hp, bind, Except.bind]

/-- C20, the code on the file loaded from an empty stream, which has no file
control record: each of the six accessors panics (inside `setControlTotals`,
at `nf.control[0]`) instead of returning zero through its guard. -/
theorem accessors_panic_without_control :
    LoadNachaFile "in.ach" [] = .ok sampleEmptyLoaded
    ∧ sampleEmptyLoaded.control = []
    ∧ sampleEmptyLoaded.BatchCount = .error Fault.panic
    ∧ sampleEmptyLoaded.EntryCount = .error Fault.panic
    ∧ sampleEmptyLoaded.BlockCount = .error Fault.panic
    ∧ sampleEmptyLoaded.DebitTotal = .error Fault.panic
    ∧ sampleEmptyLoaded.CreditTotal = .error Fault.panic
    ∧ sampleEmptyLoaded.Hash = .error Fault.panic :=
  ⟨by decide, rfl, accessors_panic_of_no_control sampleEmptyLoaded rfl⟩



/-! ### Block count and filler on a file of ten records (C17) -/

theorem writeBatches_single (crlf renumber : Bool) (st st1 : WriteState) (b r : Batch)
    (h : writeBatch crlf renumber st b = .ok (r, st1)) :
    writeBatches crlf renumber st [b] = .ok ([r], st1) := by
  simp only [writeBatches, bind, Except.bind, h, pure, Except.pure]

theorem sampleTenBatch_setControlTotals :
    sampleTenBatch.setControlTotals = .ok sampleTenBatchSet := by
  rw [setControlTotals_of_digits sampleTenBatch (by decide) (by decide) (by decide)
    (by decide) (by decide)]
  decide

theorem sampleTen_writeBatches (st : WriteState) :
    writeBatches false false st [sampleTenBatch]
      = .ok ([sampleTenBatchSet],
          writeRecord false (writeEntries false (writeRecord false st sampleTenBatchSet.header)
            sampleTenBatchSet.Entries) sampleTenBatchSet.control) := by
  have h := writeBatch_noRenumber false st sampleTenBatch sampleTenBatchSet (by decide)
    sampleTenBatch_setControlTotals
  exact writeBatches_single false false st _ sampleTenBatch sampleTenBatchSet h

theorem sampleTenFileSet_setControlTotals :
    NachaFile.setControlTotals { sampleTenFile with Batches := [sampleTenBatchSet] }
      = .ok sampleTenFileSet := by
  rw [file_setControlTotals_of_digits _ sampleFileControl [] rfl (by decide) (by decide)
    (by decide) (by decide)]
  decide

set_option maxRecDepth 20000 in
theorem sampleTen_stream_length :
    (streamOf false sampleTenFileSet.nonFillerRecords).length = 940 := by
  decide

/-- C17, the code on a file of ten records that are not filler (file header,
batch header, six entry records, batch control, file control): `Write`
succeeds, leaves block count 1 at `control[0][7:13)`, and emits the ten records
followed by ten filler records, twenty records of 94 bytes in all. -/
theorem write_block_count_ten_records :
    ∃ out, sampleTenFile.Write = .ok (sampleTenFileSet, out)
      ∧ sampleTenFile.header.length = 94
      ∧ field sampleTenFileSet.control0 7 13 = ascii "000001"
      ∧ sampleTenFileSet.nonFillerRecords.length = 10
      ∧ out = streamOf false sampleTenFileSet.nonFillerRecords
          ++ streamOf false (List.replicate 10 fillerRecord)
      ∧ out.length = 94 * 20
      ∧ digitsVal (field sampleTenFileSet.control0 7 13) * 10 ≠ 20 := by
  obtain ⟨out, h⟩ := Write_eq_of sampleTenFile sampleTenFileSet [sampleTenBatchSet] _
    (sampleTen_writeBatches _) sampleTenFileSet_setControlTotals
  obtain ⟨-, -, -, -, -, -, -, w8⟩ := Write_spec sampleTenFile sampleTenFileSet out h
  have hn : sampleTenFileSet.nonFillerRecords.length = 10 := by decide
  have hf : fillerCount sampleTenFileSet.nonFillerRecords.length = 10 := by rw [hn]; rfl
  rw [hf] at w8
  have w9 : out = streamOf false sampleTenFileSet.nonFillerRecords
      ++ streamOf false (List.replicate 10 fillerRecord) := w8
  refine ⟨out, h, by decide, by decide, hn, w9, ?_, by decide⟩
  rw [w9, List.length_append, streamOf_replicate_filler, List.length_replicate]
  rw [sampleTen_stream_length]



/-! ### Empty batches and the counts of the file control record (C19) -/

theorem fileTotals_counts (bs : List Batch) (t r : FileTotals)
    (h : bs.foldlM fileTotalsStep t = .ok r) :
    r.bCount = t.bCount + (countedBatches bs).length
    ∧ r.eCount = t.eCount + (bs.map Batch.entryCount).sum := by
  induction bs generalizing t with
  | nil =>
    simp only [List.foldlM_nil, pure, Except.pure, Except.ok.injEq] at h
    subst h
    simp [countedBatches]
  | cons b bs ih =>
    rw [List.foldlM_cons] at h
    cases hs : fileTotalsStep t b with
    | error f => rw [hs] at h; simp only [bind, Except.bind] at h; cases h
    | ok t1 =>
      rw [hs] at h
      obtain ⟨i1, i2⟩ := ih t1 h
      unfold fileTotalsStep at hs
      dsimp only at hs
      by_cases hc : b.entryCount = 0
      · rw [if_pos hc] at hs
        simp only [pure, Except.pure, Except.ok.injEq] at hs
        subst hs
        refine ⟨?_, ?_⟩
        · rw [i1]; simp [countedBatches, List.filter_cons, hc]
        · rw [i2]; simp [hc]
      · rw [if_neg hc] at hs
        cases hd : b.debitCreditTotals with
        | error f => rw [hd] at hs; simp only [bind, Except.bind] at hs; cases hs
        | ok dc =>
          rw [hd] at hs
          simp only [bind, Except.bind, pure, Except.pure, Except.ok.injEq] at hs
          subst hs
          refine ⟨?_, ?_⟩
          · rw [i1]; simp [countedBatches, List.filter_cons, hc]; omega
          · rw [i2]; simp; omega

theorem Batch.isEmpty_iff_entryCount (b : Batch) (h : ∀ e ∈ b.Entries, e.data ≠ []) :
    b.isEmpty = true ↔ b.entryCount = 0 :=
  (Batch.entryCount_eq_zero_iff b
    (fun e he => h e (List.mem_filter.mp he).1)).symm

theorem countedBatches_eq_nonEmpty_of_data (bs : List Batch)
    (h : ∀ b ∈ bs, ∀ e ∈ b.Entries, e.data ≠ []) : countedBatches bs = nonEmptyBatches bs := by
  unfold countedBatches nonEmptyBatches
  apply List.filter_congr
  intro b hb
  have := Batch.isEmpty_iff_entryCount b (h b hb)
  by_cases hc : b.entryCount = 0
  · have he := this.mpr hc
    simp [hc, he]
  · have he : b.isEmpty = false := by
      cases hi : b.isEmpty with
      | false => rfl
      | true => exact absurd (this.mp hi) hc
    simp [hc, he]

theorem Batch.liveRecords_length (b : Batch) : b.liveRecords.length = b.entryCount := by
  rw [Batch.entryCount_eq_live]
  unfold Batch.liveRecords
  rw [List.length_flatten, List.map_map]
  rfl

theorem liveRecords_sum (bs : List Batch) :
    ((nonEmptyBatches bs).map (fun b => b.liveRecords.length)).sum
      = (bs.map Batch.entryCount).sum := by
  have e : (fun b : Batch => b.liveRecords.length) = Batch.entryCount :=
    funext Batch.liveRecords_length
  rw [e]
  unfold nonEmptyBatches
  apply sum_map_filter_of_zero
  intro b _ hb
  simp only [Bool.not_eq_false'] at hb
  rw [Batch.entryCount_eq_live, (Batch.isEmpty_iff b).mp hb]
  rfl

theorem stampFileControl_counts (c : List Nat) (t : FileTotals) (n : Nat) (T : List Nat)
    (h : 43 ≤ c.length) (hb : (sprintf0 6 t.bCount).length = 6)
    (he : (sprintf0 8 t.eCount).length = 8)
    (hk : (sprintf0 6 (((1 + t.bCount * 2 + t.eCount + n + 9) / 10 : Nat) : Int)).length = 6) :
    field (stampFileControl c t n T) 1 7 = sprintf0 6 t.bCount
    ∧ field (stampFileControl c t n T) 13 21 = sprintf0 8 t.eCount := by
  unfold stampFileControl
  have l1 := overwrite_length c 1 (sprintf0 6 t.bCount) (by omega)
  have l2 := overwrite_length (overwrite c 1 (sprintf0 6 t.bCount)) 13 (sprintf0 8 t.eCount)
    (by rw [l1]; omega)
  rw [l1] at l2
  have l3 := overwrite_length (overwrite (overwrite c 1 (sprintf0 6 t.bCount)) 13
    (sprintf0 8 t.eCount)) 31 (sprintf0 12 t.debitTot) (by rw [l2]; omega)
  rw [l2] at l3
  have l4 := overwrite_length (overwrite (overwrite (overwrite c 1 (sprintf0 6 t.bCount)) 13
    (sprintf0 8 t.eCount)) 31 (sprintf0 12 t.debitTot)) 43 (sprintf0 12 t.creditTot)
    (by rw [l3]; omega)
  rw [l3] at l4
  have l5 := overwrite_length (overwrite (overwrite (overwrite (overwrite c 1
    (sprintf0 6 t.bCount)) 13 (sprintf0 8 t.eCount)) 31 (sprintf0 12 t.debitTot)) 43
    (sprintf0 12 t.creditTot)) 7
    (sprintf0 6 (((1 + t.bCount * 2 + t.eCount + n + 9) / 10 : Nat) : Int)) (by rw [l4]; omega)
  rw [l4] at l5
  constructor
  · rw [field_overwrite_disjoint _ _ _ _ _ (by rw [l5]; omega) (Or.inl (by omega)),
      field_overwrite_disjoint _ _ _ _ _ (by rw [l4]; omega) (Or.inl (by omega)),
      field_overwrite_disjoint _ _ _ _ _ (by rw [l3]; omega) (Or.inl (by omega)),
      field_overwrite_disjoint _ _ _ _ _ (by rw [l2]; omega) (Or.inl (by omega)),
      field_overwrite_disjoint _ _ _ _ _ (by rw [l1]; omega) (Or.inl (by omega))]
    have := field_overwrite_self c 1 (sprintf0 6 t.bCount) (by rw [hb]; omega)
    rw [hb] at this
    exact this
  · rw [field_overwrite_disjoint _ _ _ _ _ (by rw [l5]; omega) (Or.inl (by omega)),
      field_overwrite_disjoint _ _ _ _ _ (by rw [l4]; omega) (Or.inr (by rw [hk])),
      field_overwrite_disjoint _ _ _ _ _ (by rw [l3]; omega) (Or.inl (by omega)),
      field_overwrite_disjoint _ _ _ _ _ (by rw [l2]; omega) (Or.inl (by omega))]
    have := field_overwrite_self (overwrite c 1 (sprintf0 6 t.bCount)) 13 (sprintf0 8 t.eCount)
      (by rw [he, l1]; omega)
    rw [he] at this
    exact this

theorem sameEntries_data (bs bs1 : List Batch)
    (h : List.Forall₂ (fun b b1 => b1.Entries = b.Entries) bs bs1)
    (hd : ∀ b ∈ bs, ∀ e ∈ b.Entries, e.data ≠ []) :
    ∀ b ∈ bs1, ∀ e ∈ b.Entries, e.data ≠ [] := by
  induction h with
  | nil => intro b hb; cases hb
  | @cons b b1 bs bs1 hb _ ih =>
    intro x hx
    rcases List.mem_cons.mp hx with rfl | hx
    · rw [hb]; exact hd b (List.mem_cons_self _ _)
    · exact ih (fun y hy => hd y (List.mem_cons_of_mem _ hy)) x hx

/-- C19 as amended: a batch in which each entry holds at least one record is
empty exactly when its entry count is zero.  Consequently, when `Write` returns
on a file of such batches whose counts fit their fields (fewer than 10^6 batches
with a live entry, block count below 10^6), the digits it leaves at
`control[0][1:7)` are the number of batches it emits and the digits at
`control[0][13:21)` are the number of entry records (detail and addenda) it
emits. -/
theorem isEmpty_iff_entryCount_zero (nf nf1 : NachaFile) (out : List Nat)
    (hd : ∀ b ∈ nf.Batches, ∀ e ∈ b.Entries, e.data ≠ [])
    (hw : nf.Write = .ok (nf1, out))
    (hb : (nonEmptyBatches nf.Batches).length < 10 ^ 6)
    (hk : (1 + (nonEmptyBatches nf.Batches).length * 2
        + ((nonEmptyBatches nf.Batches).map (fun b => b.liveRecords.length)).sum
        + nf.control.length + 9) / 10 < 10 ^ 6) :
    (∀ b : Batch, (∀ e ∈ b.Entries, e.data ≠ []) → (b.isEmpty = true ↔ b.entryCount = 0))
    ∧ out = streamOf nf.crlf
          (nf1.header :: (((nonEmptyBatches nf1.Batches).map Batch.records).flatten
            ++ nf1.control))
        ++ streamOf nf.crlf
            (List.replicate (fillerCount nf1.nonFillerRecords.length) fillerRecord)
    ∧ IsDigits (field nf1.control0 1 7)
    ∧ digitsVal (field nf1.control0 1 7) = (nonEmptyBatches nf1.Batches).length
    ∧ IsDigits (field nf1.control0 13 21)
    ∧ digitsVal (field nf1.control0 13 21)
        = ((nonEmptyBatches nf1.Batches).map (fun b => b.liveRecords.length)).sum := by
  obtain ⟨-, -, -, -, -, w6, w7, w8⟩ := Write_spec nf nf1 out hw
  obtain ⟨t, c0, rest, H, T, ht, hc, -, -, hlen, hnf1⟩ := file_setControlTotals_inv _ _ w7
  dsimp only at ht hc hnf1
  have hctl := congrArg NachaFile.control hnf1
  dsimp only at hctl
  obtain ⟨c1, c2⟩ := fileTotals_counts _ _ _ ht
  dsimp only at c1 c2
  rw [Nat.zero_add] at c1 c2
  have hse := batchWritten_entries _ _ w6
  have hd1 := sameEntries_data _ _ hse hd
  obtain ⟨s1, -, -⟩ := sameEntries_totals nf.Batches nf1.Batches hse
  simp only [fileTotalsOf, FileTotals.mk.injEq] at s1
  obtain ⟨s1, s2, -, -⟩ := s1
  rw [countedBatches_eq_nonEmpty_of_data _ hd1] at c1 s1
  rw [countedBatches_eq_nonEmpty_of_data _ hd] at s1
  rw [← liveRecords_sum] at c2 s2
  rw [← liveRecords_sum nf.Batches] at s2
  rw [← s1] at hb hk
  rw [← s2] at hk
  rw [← c1] at hb
  rw [← c1, ← c2] at hk
  have hE : t.eCount < 10 ^ 8 := by omega
  have w1 := sprintf0_of_lt 6 t.bCount (by norm_num) hb
  have w2 := sprintf0_of_lt 8 t.eCount (by norm_num) hE
  have w3 := sprintf0_of_lt 6 ((1 + t.bCount * 2 + t.eCount + nf.control.length + 9) / 10)
    (by norm_num) hk
  obtain ⟨f1, f2⟩ := stampFileControl_counts c0 t nf.control.length T hlen
    (by rw [w1, lastDigits_length]) (by rw [w2, lastDigits_length])
    (by rw [w3, lastDigits_length])
  have h0 : nf1.control0 = stampFileControl c0 t nf.control.length T := by
    unfold NachaFile.control0
    rw [hctl]
    rfl
  rw [h0, f1, f2, w1, w2, ← c1, ← c2]
  refine ⟨fun b h => Batch.isEmpty_iff_entryCount b h, w8, lastDigits_isDigits _ _, ?_,
    lastDigits_isDigits _ _, ?_⟩
  · rw [digitsVal_lastDigits, Nat.mod_eq_of_lt hb]
  · rw [digitsVal_lastDigits, Nat.mod_eq_of_lt hE]

/-- Witness for C19 as amended: the sample file, written with one batch and three entry
records; its second batch has no live entry and is not counted. -/
theorem isEmpty_iff_entryCount_zero_witness :
    digitsVal (field sampleFileSet.control0 1 7) = (nonEmptyBatches sampleFileSet.Batches).length
    ∧ digitsVal (field sampleFileSet.control0 13 21)
        = ((nonEmptyBatches sampleFileSet.Batches).map (fun b => b.liveRecords.length)).sum
    ∧ (nonEmptyBatches sampleFileSet.Batches).length = 1
    ∧ ((nonEmptyBatches sampleFileSet.Batches).map (fun b => b.liveRecords.length)).sum = 3 :=
  have h := isEmpty_iff_entryCount_zero sampleFile sampleFileSet sampleOutput (by decide)
    sampleFile_Write (by decide) (by decide)
  ⟨h.2.2.2.1, h.2.2.2.2.2, by decide, by decide⟩



/-! ### Batch numbers (C16) -/

theorem sprintf0_length_le (w : Nat) (n : Int) (h1 : -(10 ^ 19) < n) (h2 : n < 10 ^ 19) :
    (sprintf0 w n).length ≤ max w 20 := by
  unfold sprintf0
  split_ifs with h
  · rw [lastDigits_length]
    have hn : n.toNat < 10 ^ 19 := by omega
    have := numDigitsAux_le n.toNat n.toNat 19 (by norm_num) hn
    unfold numDigits
    omega
  · rw [List.length_cons, lastDigits_length]
    have hn : (-n).toNat < 10 ^ 19 := by omega
    have := numDigitsAux_le (-n).toNat (-n).toNat 19 (by norm_num) hn
    unfold numDigits
    omega

theorem stampBatchControl_tail (c : List Nat) (n : Nat) (D C : Int) (T : List Nat)
    (h : 32 ≤ c.length) (h1 : (sprintf0 6 n).length ≤ 83) (h2 : (sprintf0 12 D).length ≤ 67)
    (h3 : (sprintf0 12 C).length ≤ 55) (h4 : T.length ≤ 77) :
    field (stampBatchControl c n D C T) 87 94 = field c 87 94 := by
  unfold stampBatchControl
  have l1 : (overwrite c 4 (sprintf0 6 n)).length = c.length := overwrite_length _ _ _ (by omega)
  have l2 : (overwrite (overwrite c 4 (sprintf0 6 n)) 20 (sprintf0 12 D)).length = c.length := by
    rw [overwrite_length _ _ _ (by omega), l1]
  have l3 : (overwrite (overwrite (overwrite c 4 (sprintf0 6 n)) 20 (sprintf0 12 D)) 32
      (sprintf0 12 C)).length = c.length := by
    rw [overwrite_length _ _ _ (by omega), l2]
  rw [field_overwrite_disjoint _ _ _ _ _ (by rw [l3]; omega) (Or.inr (by omega)),
    field_overwrite_disjoint _ _ _ _ _ (by rw [l2]; omega) (Or.inr (by omega)),
    field_overwrite_disjoint _ _ _ _ _ (by rw [l1]; omega) (Or.inr (by omega)),
    field_overwrite_disjoint _ _ _ _ _ (by omega) (Or.inr (by omega))]

/-- The bytes 87 to 93 of the control record survive `setControlTotals` on a
batch whose entry count is in range. -/
theorem setControlTotals_tail (b b1 : Batch) (hr : b.InRange)
    (h : b.setControlTotals = .ok b1) :
    field b1.control 87 94 = field b.control 87 94 ∧ b1.header = b.header
    ∧ b1.Entries = b.Entries := by
  obtain ⟨D, C, H, T, hdc, -, hT, hlen, rfl⟩ := setControlTotals_inv b b1 h
  have r1 : b.entryCount < 2 ^ 63 := hr
  obtain ⟨d1, d2, c1, c2⟩ := debitCreditTotals_range b D C hdc
  refine ⟨?_, rfl, rfl⟩
  dsimp only
  apply stampBatchControl_tail _ _ _ _ _ hlen
  · have := sprintf0_length_le 6 (b.entryCount : Int) (by omega) (by omega)
    omega
  · have := sprintf0_length_le 12 D (by omega) (by omega)
    omega
  · have := sprintf0_length_le 12 C (by omega) (by omega)
    omega
  · rw [lastBytes_length _ _ _ hT]; omega

theorem Batch.inRange_congr (b b1 : Batch) (h : b1.Entries = b.Entries) (hr : b.InRange) :
    b1.InRange := by
  unfold Batch.InRange at *
  rw [Batch.entryCount_congr b b1 h]
  exact hr



theorem writeEntries_batchNum (crlf : Bool) (st : WriteState) (es : List Entry) :
    (writeEntries crlf st es).batchNum = st.batchNum := by
  rw [writeEntries_eq]

/-- One iteration of the batch loop with renumbering on, for a non-empty batch:
the counter is incremented and its value stamped on header and control. -/
theorem writeBatch_renumber (crlf : Bool) (st st1 : WriteState) (b b1 : Batch)
    (he : b.isEmpty = false) (hh : b.header.length = 94) (hc : b.control.length = 94)
    (hr : b.InRange) (hn : st.batchNum + 1 < 10 ^ 7)
    (h : writeBatch crlf true st b = .ok (b1, st1)) :
    st1.batchNum = st.batchNum + 1 ∧ batchNumbered (st.batchNum, b) b1 := by
  unfold writeBatch at h
  simp only [he, Bool.false_eq_true, if_false, if_true, bind, Except.bind, pure,
    Except.pure] at h
  rw [setNumber_ok b _ (by omega) (by omega)] at h
  dsimp only at h
  have w := sprintf0_of_lt 7 (st.batchNum + 1) (by norm_num) hn
  rw [w] at h
  cases hs : Batch.setControlTotals { b with
      header := overwrite b.header 87 (lastDigits 7 (st.batchNum + 1)),
      control := overwrite b.control 87 (lastDigits 7 (st.batchNum + 1)) } with
  | error f => rw [hs] at h; cases h
  | ok b2 =>
    rw [hs] at h
    simp only [Except.ok.injEq, Prod.mk.injEq] at h
    obtain ⟨rfl, rfl⟩ := h
    have hr2 : Batch.InRange { b with
        header := overwrite b.header 87 (lastDigits 7 (st.batchNum + 1)),
        control := overwrite b.control 87 (lastDigits 7 (st.batchNum + 1)) } :=
      Batch.inRange_congr b _ rfl hr
    obtain ⟨t1, t2, -⟩ := setControlTotals_tail _ b2 hr2 hs
    dsimp only at t1 t2
    refine ⟨?_, ?_, ?_, ?_, ?_⟩
    · simp only [writeRecord, writeEntries_batchNum]
    · rw [t2]
      have := field_overwrite_self b.header 87 (lastDigits 7 (st.batchNum + 1))
        (by rw [lastDigits_length]; omega)
      rw [lastDigits_length] at this
      exact this
    · rw [t1]
      have := field_overwrite_self b.control 87 (lastDigits 7 (st.batchNum + 1))
        (by rw [lastDigits_length]; omega)
      rw [lastDigits_length] at this
      exact this
    · rw [t2]
      exact field_overwrite_disjoint _ _ _ _ _ (by omega) (Or.inl (le_refl _))
    · rw [t2]
      exact overwrite_length _ _ _ (by omega)

/-- One iteration of the batch loop with renumbering off, for a non-empty
batch: header and bytes 87 to 93 of the control record stay. -/
theorem writeBatch_keeps_number (crlf : Bool) (st st1 : WriteState) (b b1 : Batch)
    (hr : b.InRange) (h : writeBatch crlf false st b = .ok (b1, st1)) :
    b1.header = b.header ∧ field b1.control 87 94 = field b.control 87 94 := by
  unfold writeBatch at h
  cases he : b.isEmpty with
  | true =>
    simp only [he, if_true, pure, Except.pure, Except.ok.injEq, Prod.mk.injEq] at h
    obtain ⟨rfl, -⟩ := h
    exact ⟨rfl, rfl⟩
  | false =>
    simp only [he, Bool.false_eq_true, if_false, bind, Except.bind, pure, Except.pure] at h
    cases hs : b.setControlTotals with
    | error f => rw [hs] at h; cases h
    | ok b2 =>
      rw [hs] at h
      simp only [Except.ok.injEq, Prod.mk.injEq] at h
      obtain ⟨rfl, -⟩ := h
      obtain ⟨t1, t2, -⟩ := setControlTotals_tail b b2 hr hs
      exact ⟨t2, t1⟩

theorem nonEmptyBatches_cons (b : Batch) (bs : List Batch) :
    nonEmptyBatches (b :: bs)
      = if b.isEmpty = true then nonEmptyBatches bs else b :: nonEmptyBatches bs := by
  unfold nonEmptyBatches
  cases he : b.isEmpty <;> simp [List.filter_cons, he]

/-- The batch loop with renumbering on: the non-empty batches are numbered
from the counter on, in order. -/
theorem writeBatches_renumber (crlf : Bool) (bs bs1 : List Batch) (st st1 : WriteState)
    (hl : ∀ b ∈ bs, b.header.length = 94 ∧ b.control.length = 94)
    (hr : ∀ b ∈ bs, b.InRange)
    (hn : st.batchNum + (nonEmptyBatches bs).length < 10 ^ 7)
    (h : writeBatches crlf true st bs = .ok (bs1, st1)) :
    List.Forall₂ batchNumbered ((nonEmptyBatches bs).enumFrom st.batchNum)
      (nonEmptyBatches bs1) := by
  induction bs generalizing bs1 st with
  | nil =>
    simp only [writeBatches, pure, Except.pure, Except.ok.injEq, Prod.mk.injEq] at h
    obtain ⟨rfl, -⟩ := h
    exact List.Forall₂.nil
  | cons b bs ih =>
    simp only [writeBatches, bind, Except.bind] at h
    cases hb : writeBatch crlf true st b with
    | error f => rw [hb] at h; cases h
    | ok r =>
      obtain ⟨b1, st2⟩ := r
      rw [hb] at h
      dsimp only at h
      cases hrest : writeBatches crlf true st2 bs with
      | error f => rw [hrest] at h; cases h
      | ok r2 =>
        obtain ⟨bs2, st3⟩ := r2
        rw [hrest] at h
        simp only [pure, Except.pure, Except.ok.injEq, Prod.mk.injEq] at h
        obtain ⟨rfl, rfl⟩ := h
        obtain ⟨e1, e2, -⟩ := writeBatch_spec crlf true st st2 b b1 hb
        have hem : b1.isEmpty = b.isEmpty := Batch.isEmpty_congr b b1 e1
        rw [nonEmptyBatches_cons] at hn ⊢
        rw [nonEmptyBatches_cons b1, hem]
        cases he : b.isEmpty with
        | true =>
          rw [he] at hn
          simp only [if_true] at hn ⊢
          obtain ⟨-, e3⟩ := e2 he
          rw [e3] at hrest
          exact ih bs2 st (fun x hx => hl x (List.mem_cons_of_mem _ hx))
            (fun x hx => hr x (List.mem_cons_of_mem _ hx)) hn hrest
        | false =>
          rw [he] at hn
          simp only [Bool.false_eq_true, if_false, List.length_cons] at hn ⊢
          obtain ⟨n1, n2⟩ := writeBatch_renumber crlf st st2 b b1 he
            (hl b (List.mem_cons_self _ _)).1 (hl b (List.mem_cons_self _ _)).2
            (hr b (List.mem_cons_self _ _)) (by omega) hb
          rw [List.enumFrom_cons]
          refine List.Forall₂.cons n2 ?_
          rw [← n1]
          exact ih bs2 st2 (fun x hx => hl x (List.mem_cons_of_mem _ hx))
            (fun x hx => hr x (List.mem_cons_of_mem _ hx)) (by rw [n1]; omega) hrest

/-- The batch loop with renumbering off: every header and the bytes 87 to 93 of
every control record stay. -/
theorem writeBatches_keep_number (crlf : Bool) (bs bs1 : List Batch) (st st1 : WriteState)
    (hr : ∀ b ∈ bs, b.InRange) (h : writeBatches crlf false st bs = .ok (bs1, st1)) :
    List.Forall₂ (fun b b1 => b1.header = b.header
      ∧ field b1.control 87 94 = field b.control 87 94) bs bs1 := by
  induction bs generalizing bs1 st with
  | nil =>
    simp only [writeBatches, pure, Except.pure, Except.ok.injEq, Prod.mk.injEq] at h
    obtain ⟨rfl, -⟩ := h
    exact List.Forall₂.nil
  | cons b bs ih =>
    simp only [writeBatches, bind, Except.bind] at h
    cases hb : writeBatch crlf false st b with
    | error f => rw [hb] at h; cases h
    | ok r =>
      obtain ⟨b1, st2⟩ := r
      rw [hb] at h
      dsimp only at h
      cases hrest : writeBatches crlf false st2 bs with
      | error f => rw [hrest] at h; cases h
      | ok r2 =>
        obtain ⟨bs2, st3⟩ := r2
        rw [hrest] at h
        simp only [pure, Except.pure, Except.ok.injEq, Prod.mk.injEq] at h
        obtain ⟨rfl, rfl⟩ := h
        exact List.Forall₂.cons
          (writeBatch_keeps_number crlf st st2 b b1 (hr b (List.mem_cons_self _ _)) hb)
          (ih bs2 st2 (fun x hx => hr x (List.mem_cons_of_mem _ hx)) hrest)

/-- The batches of the file `Write` returns are those its batch loop leaves. -/
theorem Write_batches (nf nf1 : NachaFile) (out : List Nat) (h : nf.Write = .ok (nf1, out)) :
    ∃ st1, writeBatches nf.crlf nf.renumber
      (writeRecord nf.crlf { out := [], records := 0, batchNum := 0 } nf.header) nf.Batches
        = .ok (nf1.Batches, st1) := by
  unfold NachaFile.Write at h
  simp only [bind, Except.bind] at h
  cases hb : writeBatches nf.crlf nf.renumber
      (writeRecord nf.crlf { out := [], records := 0, batchNum := 0 } nf.header) nf.Batches with
  | error f => rw [hb] at h; cases h
  | ok r =>
    obtain ⟨bs1, st1⟩ := r
    rw [hb] at h
    dsimp only at h
    cases hs : NachaFile.setControlTotals { nf with Batches := bs1 } with
    | error f => rw [hs] at h; cases h
    | ok nf2 =>
      rw [hs] at h
      simp only [pure, Except.pure, Except.ok.injEq, Prod.mk.injEq] at h
      obtain ⟨rfl, -⟩ := h
      obtain ⟨t, c0, rest, H, T, -, -, -, -, -, hnf⟩ := file_setControlTotals_inv _ _ hs
      have hB : nf2.Batches = bs1 := by rw [hnf]
      rw [hB]
      exact ⟨st1, rfl⟩



theorem sampleFile_inRange : ∀ b ∈ sampleFile.Batches, b.InRange := by decide

/-- C16: when `Write` returns on a file whose batch headers and control records
have 94 bytes, with fewer than 10^7 non-empty batches (entry counts in the range
of `int`, as the results of `entryCount` are): an empty batch is left as it is;
with renumbering on, the
batch written for the `k`-th non-empty batch carries the seven digits of `k` at
bytes 87 to 93 of header and control record and keeps the other header bytes;
with renumbering off every header and the bytes 87 to 93 of every control
record are unchanged. -/
theorem write_renumbers_batches (nf nf1 : NachaFile) (out : List Nat)
    (hl : ∀ b ∈ nf.Batches, b.header.length = 94 ∧ b.control.length = 94)
    (hr : ∀ b ∈ nf.Batches, b.InRange)
    (hn : (nonEmptyBatches nf.Batches).length < 10 ^ 7)
    (hw : nf.Write = .ok (nf1, out)) :
    List.Forall₂ batchWritten nf.Batches nf1.Batches
    ∧ (nf.renumber = true →
        List.Forall₂ batchNumbered (nonEmptyBatches nf.Batches).enum
          (nonEmptyBatches nf1.Batches))
    ∧ (nf.renumber = false →
        List.Forall₂ (fun b b1 => b1.header = b.header
          ∧ field b1.control 87 94 = field b.control 87 94) nf.Batches nf1.Batches)
    ∧ (∀ k, k < 10 ^ 7 → lastDigits 7 k = sprintf0 7 (k : Int)
        ∧ (lastDigits 7 k).length = 7 ∧ IsDigits (lastDigits 7 k)
        ∧ digitsVal (lastDigits 7 k) = k) := by
  obtain ⟨-, -, -, -, -, w6, -, -⟩ := Write_spec nf nf1 out hw
  obtain ⟨st1, hb⟩ := Write_batches nf nf1 out hw
  refine ⟨w6, ?_, ?_, ?_⟩
  · intro hren
    rw [hren] at hb
    exact writeBatches_renumber nf.crlf nf.Batches nf1.Batches _ st1 hl hr
      (by simpa [writeRecord] using hn) hb
  · intro hren
    rw [hren] at hb
    exact writeBatches_keep_number nf.crlf nf.Batches nf1.Batches _ st1 hr hb
  · intro k hk
    exact ⟨(sprintf0_of_lt 7 k (by norm_num) hk).symm, lastDigits_length _ _,
      lastDigits_isDigits _ _, by rw [digitsVal_lastDigits, Nat.mod_eq_of_lt hk]⟩

/-- Witness for C16: the sample file with renumbering on; its one non-empty
batch is written with number 1, its empty batch is left as it is. -/
theorem write_renumbers_batches_witness :
    ∃ nf1 out, sampleFile.EnableBatchRenumber.Write = .ok (nf1, out)
      ∧ List.Forall₂ batchWritten [sampleBatch, sampleEmptyBatch] nf1.Batches
      ∧ List.Forall₂ batchNumbered [(0, sampleBatch)] (nonEmptyBatches nf1.Batches)
      ∧ lastDigits 7 (0 + 1) = ascii "0000001" := by
  obtain ⟨⟨nf1, out⟩, h⟩ := Write_ok sampleFile.EnableBatchRenumber sampleFileControl [] rfl
    (by decide) (by decide) (by decide)
  have t := write_renumbers_batches sampleFile.EnableBatchRenumber nf1 out (by decide)
    sampleFile_inRange (by decide) h
  exact ⟨nf1, out, h, t.1, t.2.1 rfl, by decide⟩




/-! ### The record splitter (C13, C14, C15) -/

theorem indexByte_eq_none (data : List Nat) (c : Nat) (h : c ∉ data) : indexByte data c = none := by
  induction data with
  | nil => rfl
  | cons x xs ih =>
    have hx : ¬ x = c := fun e => h (e ▸ List.mem_cons_self _ _)
    have hxs : c ∉ xs := fun m => h (List.mem_cons_of_mem _ m)
    simp only [indexByte, if_neg hx, ih hxs, Option.map_none']

theorem indexByte_append (a b : List Nat) (c : Nat) (h : c ∉ a) :
    indexByte (a ++ c :: b) c = some a.length := by
  induction a with
  | nil => simp [indexByte]
  | cons x xs ih =>
    have hx : ¬ x = c := fun e => h (e ▸ List.mem_cons_self _ _)
    have hxs : c ∉ xs := fun m => h (List.mem_cons_of_mem _ m)
    rw [List.cons_append, indexByte, if_neg hx, ih hxs]
    rfl

theorem dropCR_of_no_cr (d : List Nat) (h : 13 ∉ d) : dropCR d = d := by
  unfold dropCR
  rw [if_neg]
  rintro ⟨-, h2⟩
  exact h (List.mem_of_getLast?_eq_some h2)

theorem dropCR_append_cr (d : List Nat) : dropCR (d ++ [13]) = d := by
  unfold dropCR
  rw [if_pos ⟨by simp, by simp⟩]
  simp

theorem dropSub_length_ge (d : List Nat) : d.length - 1 ≤ (dropSub d).length := by
  unfold dropSub
  split_ifs
  · rw [List.length_take]; omega
  · omega

/-- A record without LF or CR followed by LF is delivered whole; the advance
is 95. -/
theorem split_lf (r rest : List Nat) (hl : r.length = 94) (h10 : 10 ∉ r) (h13 : 13 ∉ r) :
    splitScanAt 94 (r ++ 10 :: rest) true = .ok (95, some r) := by
  unfold splitScanAt
  have hs := dropSub_length_ge (r ++ 10 :: rest)
  rw [List.length_append, List.length_cons] at hs
  rw [if_neg (by omega), indexByte_append r rest 10 h10]
  dsimp only
  rw [List.take_left, dropCR_of_no_cr r h13, if_pos hl, hl]

/-- A record without LF followed by CR LF is delivered whole; the advance is
96. -/
theorem split_crlf (r rest : List Nat) (hl : r.length = 94) (h10 : 10 ∉ r) :
    splitScanAt 94 (r ++ 13 :: 10 :: rest) true = .ok (96, some r) := by
  unfold splitScanAt
  have hs := dropSub_length_ge (r ++ 13 :: 10 :: rest)
  rw [List.length_append, List.length_cons, List.length_cons] at hs
  rw [if_neg (by omega)]
  have e : r ++ 13 :: 10 :: rest = (r ++ [13]) ++ 10 :: rest := by simp
  have h10' : 10 ∉ r ++ [13] := by simp [h10]
  rw [e, indexByte_append (r ++ [13]) rest 10 h10']
  dsimp only
  rw [List.take_left, dropCR_append_cr, if_pos hl, List.length_append, hl]
  rfl

/-- A buffer without LF that holds at least 94 bytes delivers its first 94
bytes; the advance is 94. -/
theorem split_plain (r rest : List Nat) (hl : r.length = 94) (h10 : 10 ∉ r ++ rest) :
    splitScanAt 94 (r ++ rest) true = .ok (94, some r) := by
  unfold splitScanAt
  have hs := dropSub_length_ge (r ++ rest)
  rw [List.length_append] at hs
  rw [if_neg (by omega), indexByte_eq_none _ _ h10]
  dsimp only
  rw [if_pos (by rw [List.length_append]; omega), ← hl, List.take_left]



theorem indexByte_lt (data : List Nat) (c i : Nat) (h : indexByte data c = some i) :
    i < data.length := by
  induction data generalizing i with
  | nil => cases h
  | cons x xs ih =>
    unfold indexByte at h
    split_ifs at h with hx
    · cases h; simp
    · cases hi : indexByte xs c with
      | none => rw [hi] at h; cases h
      | some j =>
        rw [hi] at h
        simp only [Option.map_some', Option.some.injEq] at h
        subst h
        have := ih j hi
        simp only [List.length_cons]
        omega

/-- A token is delivered with a positive advance. -/
theorem split_advance_pos (data : List Nat) (adv : Nat) (tok : List Nat)
    (h : splitScanAt 94 data true = .ok (adv, some tok)) : 0 < adv ∧ adv ≤ data.length := by
  unfold splitScanAt at h
  by_cases h1 : true = true ∧ (dropSub data).length = 0
  · rw [if_pos h1] at h; cases h
  · rw [if_neg h1] at h
    cases hi : indexByte data 10 with
    | some i =>
      rw [hi] at h
      dsimp only at h
      have hlt := indexByte_lt data 10 i hi
      by_cases h2 : (dropCR (List.take i data)).length = 94
      · rw [if_pos h2] at h
        simp only [Except.ok.injEq, Prod.mk.injEq] at h
        omega
      · rw [if_neg h2] at h
        split_ifs at h
        simp only [Except.ok.injEq, Prod.mk.injEq] at h
        cases h.2
    | none =>
      rw [hi] at h
      dsimp only at h
      by_cases h2 : 94 ≤ data.length
      · rw [if_pos h2] at h
        simp only [Except.ok.injEq, Prod.mk.injEq] at h
        omega
      · rw [if_neg h2] at h
        cases h

/-- The scan does not depend on the fuel once the fuel exceeds the length of
the buffer. -/
theorem scanLoop_fuel (f1 f2 : Nat) (data : List Nat) (h1 : data.length < f1)
    (h2 : data.length < f2) : scanLoop 94 f1 data = scanLoop 94 f2 data := by
  induction f1 generalizing f2 data with
  | zero => omega
  | succ f1 ih =>
    obtain ⟨g, rfl⟩ : ∃ g, f2 = g + 1 := ⟨f2 - 1, by omega⟩
    unfold scanLoop
    cases hs : splitScanAt 94 data true with
    | error e => rfl
    | ok r =>
      obtain ⟨adv, tok⟩ := r
      cases tok with
      | none => rfl
      | some t =>
        dsimp only
        obtain ⟨p1, p2⟩ := split_advance_pos data adv t hs
        have hl : (data.drop adv).length < data.length := by
          rw [List.length_drop]; omega
        rw [ih g (data.drop adv) (by omega) (by omega)]

theorem scanAll_token (data : List Nat) (adv : Nat) (tok : List Nat)
    (h : splitScanAt 94 data true = .ok (adv, some tok)) :
    scanAll 94 data = (tok :: (scanAll 94 (data.drop adv)).1, (scanAll 94 (data.drop adv)).2) := by
  obtain ⟨p1, p2⟩ := split_advance_pos data adv tok h
  unfold scanAll
  rw [scanLoop, h]
  dsimp only
  rw [scanLoop_fuel data.length ((data.drop adv).length + 1) (data.drop adv)
    (by rw [List.length_drop]; omega) (by omega)]

theorem scanAll_stop (data : List Nat) (adv : Nat)
    (h : splitScanAt 94 data true = .ok (adv, none)) : scanAll 94 data = ([], none) := by
  unfold scanAll
  rw [scanLoop, h]

theorem scanAll_error (data : List Nat) (e : SplitErr)
    (h : splitScanAt 94 data true = .error e) : scanAll 94 data = ([], some e) := by
  unfold scanAll
  rw [scanLoop, h]



theorem indexByte_mem (a b : List Nat) (c : Nat) (h : c ∈ a) :
    ∃ i, indexByte (a ++ b) c = some i ∧ i < a.length := by
  induction a with
  | nil => cases h
  | cons x xs ih =>
    rw [List.cons_append, indexByte]
    by_cases hx : x = c
    · rw [if_pos hx]; exact ⟨0, rfl, by simp⟩
    · rw [if_neg hx]
      have hm : c ∈ xs := by
        rcases List.mem_cons.mp h with e | e
        · exact absurd e.symm hx
        · exact e
      obtain ⟨i, h1, h2⟩ := ih hm
      rw [h1]
      exact ⟨i + 1, rfl, by simp only [List.length_cons]; omega⟩

theorem dropCR_length_le (d : List Nat) : (dropCR d).length ≤ d.length := by
  unfold dropCR
  split_ifs
  · rw [List.length_take]; omega
  · exact le_refl _

theorem dropCR_of_last (d : List Nat) (h : d.getLast? ≠ some 13) : dropCR d = d := by
  unfold dropCR
  rw [if_neg]
  rintro ⟨-, h2⟩
  exact h h2

/-- A record without LF that does not end in CR, followed by LF, is delivered
whole. -/
theorem split_lf_last (r rest : List Nat) (hl : r.length = 94) (h10 : 10 ∉ r)
    (h13 : r.getLast? ≠ some 13) :
    splitScanAt 94 (r ++ 10 :: rest) true = .ok (95, some r) := by
  unfold splitScanAt
  have hs := dropSub_length_ge (r ++ 10 :: rest)
  rw [List.length_append, List.length_cons] at hs
  rw [if_neg (by omega), indexByte_append r rest 10 h10]
  dsimp only
  rw [List.take_left, dropCR_of_last r h13, if_pos hl, hl]

/-- A record without LF that ends in CR, followed by LF: the line found has 93
bytes, an error. -/
theorem split_lf_cr (r rest : List Nat) (hl : r.length = 94) (h10 : 10 ∉ r)
    (h13 : r.getLast? = some 13) :
    splitScanAt 94 (r ++ 10 :: rest) true
      = .error (SplitErr.badNewline (r ++ 10 :: rest)) := by
  unfold splitScanAt
  have hs := dropSub_length_ge (r ++ 10 :: rest)
  rw [List.length_append, List.length_cons] at hs
  rw [if_neg (by omega), indexByte_append r rest 10 h10]
  dsimp only
  have hd : (dropCR (List.take r.length (r ++ 10 :: rest))).length = 93 := by
    rw [List.take_left]
    unfold dropCR
    rw [if_pos ⟨by omega, h13⟩, List.length_take]
    omega
  rw [hd, if_neg (by omega), if_neg (by omega)]

/-- A record of 94 bytes that holds LF, followed by at least one byte: the line
found is shorter than 94 bytes and is not a blank line at the end, an error. -/
theorem split_inner_lf (r rest : List Nat) (hl : r.length = 94) (h10 : 10 ∈ r)
    (hr : rest ≠ []) :
    splitScanAt 94 (r ++ rest) true = .error (SplitErr.badNewline (r ++ rest)) := by
  unfold splitScanAt
  have hs := dropSub_length_ge (r ++ rest)
  rw [List.length_append] at hs
  rw [if_neg (by omega)]
  obtain ⟨i, h1, h2⟩ := indexByte_mem r rest 10 h10
  rw [h1]
  dsimp only
  have hd := dropCR_length_le (List.take i (r ++ rest))
  rw [List.length_take] at hd
  have hrl : 0 < rest.length := List.length_pos.mpr hr
  rw [if_neg (by omega), if_neg (by rw [List.length_append]; omega)]

theorem terminatedStream_cons (p : List Nat × Terminator) (ts : List (List Nat × Terminator)) :
    terminatedStream (p :: ts) = p.1 ++ p.2.bytes ++ terminatedStream ts := by
  simp [terminatedStream]

/-- One step of the scan on a terminated record. -/
theorem split_terminated (r : List Nat) (t : Terminator) (rest : List Nat)
    (hl : r.length = 94) (ht : t ≠ Terminator.none) :
    (accepted (r, t) = true →
      splitScanAt 94 (r ++ t.bytes ++ rest) true = .ok (94 + t.bytes.length, some r))
    ∧ (accepted (r, t) = false →
      splitScanAt 94 (r ++ t.bytes ++ rest) true
        = .error (SplitErr.badNewline (r ++ t.bytes ++ rest))) := by
  unfold accepted
  simp only [decide_eq_true_eq, decide_eq_false_iff_not]
  cases t with
  | none => exact absurd rfl ht
  | lf =>
    have e : r ++ Terminator.lf.bytes ++ rest = r ++ 10 :: rest := by
      simp [Terminator.bytes]
    rw [e]
    constructor
    · rintro ⟨h1, h2⟩
      exact split_lf_last r rest hl h1 (h2 rfl)
    · intro hn
      by_cases h10 : 10 ∈ r
      · exact split_inner_lf r (10 :: rest) hl h10 (by simp)
      · have h13 : r.getLast? = some 13 := by
          by_contra h13
          exact hn ⟨h10, fun _ => h13⟩
        exact split_lf_cr r rest hl h10 h13
  | crlf =>
    have e : r ++ Terminator.crlf.bytes ++ rest = r ++ 13 :: 10 :: rest := by
      simp [Terminator.bytes]
    rw [e]
    constructor
    · rintro ⟨h1, -⟩
      exact split_crlf r rest hl h1
    · intro hn
      have h10 : 10 ∈ r := by
        by_contra h10
        exact hn ⟨h10, fun h => by cases h⟩
      exact split_inner_lf r (13 :: 10 :: rest) hl h10 (by simp)



/-- The scan of a stream of terminated 94-byte records followed by `tail`: the
records are delivered up to the first one that is not accepted, where the scan
stops with an error; when all are accepted the scan goes on with `tail`. -/
theorem scanAll_terminated (ts : List (List Nat × Terminator)) (tail : List Nat)
    (h : ∀ p ∈ ts, p.1.length = 94 ∧ p.2 ≠ Terminator.none) :
    scanAll 94 (terminatedStream ts ++ tail)
      = ((ts.takeWhile accepted).map Prod.fst
            ++ (if ts.all accepted = true then (scanAll 94 tail).1 else []),
         if ts.all accepted = true then (scanAll 94 tail).2
         else some (SplitErr.badNewline (terminatedStream (ts.dropWhile accepted) ++ tail))) := by
  induction ts with
  | nil => simp [terminatedStream]
  | cons p ts ih =>
    obtain ⟨r, t⟩ := p
    obtain ⟨hl, ht⟩ := h (r, t) (List.mem_cons_self _ _)
    have ih' := ih (fun q hq => h q (List.mem_cons_of_mem _ hq))
    have e : terminatedStream ((r, t) :: ts) ++ tail
        = r ++ t.bytes ++ (terminatedStream ts ++ tail) := by
      rw [terminatedStream_cons, List.append_assoc]
    obtain ⟨s1, s2⟩ := split_terminated r t (terminatedStream ts ++ tail) hl ht
    cases ha : accepted (r, t) with
    | true =>
      have hd : (r ++ t.bytes ++ (terminatedStream ts ++ tail)).drop (94 + t.bytes.length)
          = terminatedStream ts ++ tail := by
        have : (r ++ t.bytes).length = 94 + t.bytes.length := by
          rw [List.length_append, hl]
        rw [← this, List.drop_left]
      rw [e, scanAll_token _ _ _ (s1 ha), hd, ih']
      simp only [List.takeWhile_cons, ha, if_true, List.map_cons, List.all_cons, Bool.true_and,
        List.dropWhile_cons, List.cons_append]
    | false =>
      rw [e, scanAll_error _ _ (s2 ha)]
      simp only [List.takeWhile_cons, ha, Bool.false_eq_true, if_false, List.map_nil,
        List.all_cons, Bool.false_and, List.dropWhile_cons, List.nil_append]
      rw [e]

/-- The scan of unterminated 94-byte records without LF delivers them all. -/
theorem scanAll_plain (us : List (List Nat)) (h : ∀ r ∈ us, r.length = 94 ∧ 10 ∉ r) :
    scanAll 94 us.flatten = (us, none) := by
  induction us with
  | nil => exact scanAll_stop [] 0 (by decide)
  | cons r us ih =>
    obtain ⟨hl, h10⟩ := h r (List.mem_cons_self _ _)
    have hrest : ∀ x ∈ us, x.length = 94 ∧ 10 ∉ x := fun x hx => h x (List.mem_cons_of_mem _ hx)
    have hn : 10 ∉ r ++ us.flatten := by
      intro hm
      rcases List.mem_append.mp hm with hm | hm
      · exact h10 hm
      · obtain ⟨x, hx, hxm⟩ := List.mem_flatten.mp hm
        exact (hrest x hx).2 hxm
    have hd : (r ++ us.flatten).drop 94 = us.flatten := by
      rw [← hl, List.drop_left]
    rw [List.flatten_cons, scanAll_token _ _ _ (split_plain r us.flatten hl hn), hd, ih hrest]

theorem terminatedStream_none (us : List (List Nat × Terminator))
    (h : ∀ p ∈ us, p.2 = Terminator.none) :
    terminatedStream us = (us.map Prod.fst).flatten := by
  induction us with
  | nil => rfl
  | cons p us ih =>
    rw [terminatedStream_cons, ih (fun q hq => h q (List.mem_cons_of_mem _ hq)),
      h p (List.mem_cons_self _ _)]
    simp [Terminator.bytes]

theorem terminatedStream_append (ts us : List (List Nat × Terminator)) :
    terminatedStream (ts ++ us) = terminatedStream ts ++ terminatedStream us := by
  simp [terminatedStream]

theorem accepted_of_clean (p : List Nat × Terminator) (h10 : 10 ∉ p.1) (h13 : 13 ∉ p.1) :
    accepted p = true := by
  unfold accepted
  simp only [decide_eq_true_eq]
  exact ⟨h10, fun _ hl => h13 (List.mem_of_getLast?_eq_some hl)⟩



theorem sampleLine_clean : sampleLine.length = 94 ∧ 10 ∉ sampleLine ∧ 13 ∉ sampleLine := by
  unfold sampleLine
  refine ⟨List.length_replicate _ _, ?_, ?_⟩ <;>
  · intro h
    have := List.eq_of_mem_replicate h
    omega

set_option maxRecDepth 20000 in
theorem sample_unterminated_first :
    scanAll 94 (terminatedStream [(sampleLine, Terminator.none), (sampleLine, Terminator.lf)])
      = ([], some (SplitErr.badNewline (sampleLine ++ sampleLine ++ [10]))) := by
  decide

/-- C13, the code at the failing input: a 94-byte record without terminator
followed by a 94-byte record terminated by LF, neither holding CR or LF.  The
split function finds the LF at index 188, takes the 188 bytes before it for one
line, and returns the error for a new-line at an invalid location; no token at
all is delivered, where the two records were to be delivered. -/
theorem scan_unterminated_before_terminated :
    sampleLine.length = 94 ∧ 10 ∉ sampleLine ∧ 13 ∉ sampleLine
    ∧ scanAll 94 (terminatedStream [(sampleLine, Terminator.none), (sampleLine, Terminator.lf)])
      = ([], some (SplitErr.badNewline (sampleLine ++ sampleLine ++ [10])))
    ∧ scanAll 94 (terminatedStream [(sampleLine, Terminator.none), (sampleLine, Terminator.lf)])
      ≠ ([sampleLine, sampleLine], none) := by
  refine ⟨sampleLine_clean.1, sampleLine_clean.2.1, sampleLine_clean.2.2,
    sample_unterminated_first, ?_⟩
  rw [sample_unterminated_first]
  intro h
  cases h

/-- Where the scan does deliver every record: for 94-byte records without CR or
LF of which the first ones are each followed by LF or by CR LF, chosen record
by record, and the others by nothing, the repeated split of the whole stream at
end of input delivers exactly the records, in order, without error; every token
has 94 bytes. -/
theorem scan_mixed_terminators (ts us : List (List Nat × Terminator))
    (hts : ∀ p ∈ ts, p.2 ≠ Terminator.none) (hus : ∀ p ∈ us, p.2 = Terminator.none)
    (hrec : ∀ p ∈ ts ++ us, p.1.length = 94 ∧ 10 ∉ p.1 ∧ 13 ∉ p.1) :
    scanAll 94 (terminatedStream (ts ++ us)) = ((ts ++ us).map Prod.fst, none)
    ∧ ∀ tok ∈ (scanAll 94 (terminatedStream (ts ++ us))).1, tok.length = 94 := by
  have hall : ts.all accepted = true := by
    rw [List.all_eq_true]
    intro p hp
    have := hrec p (List.mem_append_left _ hp)
    exact accepted_of_clean p this.2.1 this.2.2
  have htw : ts.takeWhile accepted = ts := by
    rw [List.takeWhile_eq_self_iff]
    exact fun p hp => List.all_eq_true.mp hall p hp
  have hplain := scanAll_plain (us.map Prod.fst) (fun r hr => by
    obtain ⟨p, hp, rfl⟩ := List.mem_map.mp hr
    have := hrec p (List.mem_append_right _ hp)
    exact ⟨this.1, this.2.1⟩)
  have key : scanAll 94 (terminatedStream (ts ++ us)) = ((ts ++ us).map Prod.fst, none) := by
    rw [terminatedStream_append, scanAll_terminated ts _ (fun p hp =>
      ⟨(hrec p (List.mem_append_left _ hp)).1, hts p hp⟩), hall, htw,
      terminatedStream_none us hus, hplain]
    simp
  refine ⟨key, ?_⟩
  rw [key]
  intro tok htok
  obtain ⟨p, hp, rfl⟩ := List.mem_map.mp htok
  exact (hrec p hp).1

/-- An instance of `scan_mixed_terminators`: a record followed by LF, one
followed by CR LF and one followed by nothing. -/
theorem scan_mixed_terminators_witness :
    scanAll 94 (terminatedStream ([(sampleLine, Terminator.lf), (sampleLine, Terminator.crlf)]
        ++ [(sampleLine, Terminator.none)]))
      = ([sampleLine, sampleLine, sampleLine], none) :=
  (scan_mixed_terminators [(sampleLine, Terminator.lf), (sampleLine, Terminator.crlf)]
    [(sampleLine, Terminator.none)]
    (by decide) (by decide)
    (by
      intro p hp
      have hp1 : p.1 = sampleLine := by
        simp only [List.cons_append, List.nil_append, List.mem_cons, List.mem_singleton,
          List.not_mem_nil, or_false] at hp
        rcases hp with rfl | rfl | rfl <;> rfl
      rw [hp1]
      exact sampleLine_clean)).1



/-- C14, the code on a buffer of 93 bytes followed by the byte SUB, at end of
input: the buffer holds no LF, and with the trailing SUB stripped it is not
empty and shorter than 94 bytes; the split function returns the 94 bytes, SUB
included, as a token, and no error.  One byte less, and it returns the error
for a short record at end of file. -/
theorem split_short_record_with_sub :
    indexByte sampleShortSub 10 = none
    ∧ dropSub sampleShortSub = List.replicate 93 65
    ∧ splitScanAt 94 sampleShortSub true = .ok (94, some sampleShortSub)
    ∧ splitScanAt 94 (List.replicate 92 65 ++ [26]) true
        = .error (SplitErr.shortAtEOF (List.replicate 92 65 ++ [26]))
    ∧ splitScanAt 94 [26] true = .ok (0, none) := by
  refine ⟨by decide, by decide, by decide, by decide, by decide⟩

theorem mem_takeWhile_mem {α : Type} (p : α → Bool) (l : List α) (x : α)
    (h : x ∈ l.takeWhile p) : x ∈ l :=
  (List.takeWhile_sublist p).subset h

/-- C15: for 94-byte records each followed by LF, or each by CR LF, and a blank
line (LF or CR LF) appended to the stream: the split function applied to the
blank line at end of input returns advance 0, no token and no error; the scan
of the stream with the blank line delivers the same tokens as the scan without
it, and ends without error exactly when that one does; every token has 94
bytes; and when no record holds CR or LF both scans deliver exactly the
records, without error. -/
theorem scan_trailing_blank_line (rs : List (List Nat)) (t : Terminator) (blank : List Nat)
    (hl : ∀ r ∈ rs, r.length = 94) (ht : t = Terminator.lf ∨ t = Terminator.crlf)
    (hb : blank = [10] ∨ blank = [13, 10]) :
    splitScanAt 94 blank true = .ok (0, none)
    ∧ (scanAll 94 (terminatedStream (rs.map (fun r => (r, t))) ++ blank)).1
        = (scanAll 94 (terminatedStream (rs.map (fun r => (r, t))))).1
    ∧ ((scanAll 94 (terminatedStream (rs.map (fun r => (r, t))) ++ blank)).2 = none
        ↔ (scanAll 94 (terminatedStream (rs.map (fun r => (r, t))))).2 = none)
    ∧ (∀ tok ∈ (scanAll 94 (terminatedStream (rs.map (fun r => (r, t))) ++ blank)).1,
        tok.length = 94)
    ∧ ((∀ r ∈ rs, 10 ∉ r ∧ 13 ∉ r) →
        scanAll 94 (terminatedStream (rs.map (fun r => (r, t))) ++ blank) = (rs, none)
        ∧ scanAll 94 (terminatedStream (rs.map (fun r => (r, t)))) = (rs, none)) := by
  have hsplit : splitScanAt 94 blank true = .ok (0, none) := by
    rcases hb with rfl | rfl <;> decide
  have hblank : scanAll 94 blank = ([], none) := scanAll_stop blank 0 hsplit
  have hnil : scanAll 94 [] = ([], none) := scanAll_stop [] 0 (by decide)
  have hts : ∀ p ∈ rs.map (fun r => (r, t)), p.1.length = 94 ∧ p.2 ≠ Terminator.none := by
    intro p hp
    obtain ⟨r, hr, rfl⟩ := List.mem_map.mp hp
    refine ⟨hl r hr, ?_⟩
    rcases ht with rfl | rfl <;> intro h <;> cases h
  have h1 := scanAll_terminated (rs.map (fun r => (r, t))) blank hts
  have h2 := scanAll_terminated (rs.map (fun r => (r, t))) [] hts
  rw [List.append_nil] at h2
  rw [hblank] at h1
  rw [hnil] at h2
  rw [h1, h2]
  refine ⟨hsplit, ?_, ?_, ?_, ?_⟩
  · simp
  · by_cases ha : (rs.map (fun r => (r, t))).all accepted = true
    · simp [ha]
    · simp [ha]
  · intro tok htok
    simp only [ite_self, List.append_nil] at htok
    obtain ⟨p, hp, rfl⟩ := List.mem_map.mp htok
    exact (hts p (mem_takeWhile_mem _ _ _ hp)).1
  · intro hclean
    have hall : (rs.map (fun r => (r, t))).all accepted = true := by
      rw [List.all_eq_true]
      intro p hp
      obtain ⟨r, hr, rfl⟩ := List.mem_map.mp hp
      exact accepted_of_clean (r, t) (hclean r hr).1 (hclean r hr).2
    have htw : (rs.map (fun r => (r, t))).takeWhile accepted = rs.map (fun r => (r, t)) := by
      rw [List.takeWhile_eq_self_iff]
      exact fun p hp => List.all_eq_true.mp hall p hp
    have hmap : (rs.map (fun r => (r, t))).map Prod.fst = rs := by
      rw [List.map_map]
      exact List.map_id _
    rw [hall, htw, hmap]
    simp

/-- Witness for C15: two records, each followed by LF, and a blank line CR LF
after them. -/
theorem scan_trailing_blank_line_witness :
    (scanAll 94 (terminatedStream ([sampleLine, sampleLine].map
        (fun r => (r, Terminator.lf))) ++ [13, 10])).1
      = (scanAll 94 (terminatedStream ([sampleLine, sampleLine].map
        (fun r => (r, Terminator.lf))))).1
    ∧ scanAll 94 (terminatedStream ([sampleLine, sampleLine].map
        (fun r => (r, Terminator.lf))) ++ [13, 10]) = ([sampleLine, sampleLine], none) :=
  have h := scan_trailing_blank_line [sampleLine, sampleLine] Terminator.lf [13, 10]
    (by decide) (Or.inl rfl) (Or.inr rfl)
  ⟨h.2.1, (h.2.2.2.2 (fun r hr => by
    have e : r = sampleLine := by
      simp only [List.mem_cons, List.mem_singleton, List.not_mem_nil, or_false] at hr
      rcases hr with rfl | rfl <;> rfl
    rw [e]
    exact sampleLine_clean.2)).1⟩



/-! ### A batch count that does not fit its field (C19) -/

/-- The first bytes of what `copy` wrote, read back. -/
theorem field_overwrite_prefix (dst : List Nat) (k m : Nat) (src : List Nat)
    (hm : m ≤ src.length) (h : k + src.length ≤ dst.length) :
    field (overwrite dst k src) k (k + m) = src.take m := by
  apply List.ext_getElem?
  intro j
  rw [getElem?_field, getElem?_overwrite dst k src (by omega)]
  by_cases hj : j < m
  · rw [if_pos (by omega), if_pos (by omega), List.getElem?_take_of_lt hj]
    congr 1; omega
  · rw [if_neg (by omega), List.getElem?_eq_none (by rw [List.length_take]; omega)]

theorem countedBatches_replicate (n : Nat) (b : Batch) (h : b.entryCount ≠ 0) :
    countedBatches (List.replicate n b) = List.replicate n b := by
  unfold countedBatches
  apply List.filter_eq_self.mpr
  intro x hx
  rw [List.eq_of_mem_replicate hx]
  simpa using h

theorem nonEmptyBatches_replicate (n : Nat) (b : Batch) (h : b.isEmpty = false) :
    nonEmptyBatches (List.replicate n b) = List.replicate n b := by
  unfold nonEmptyBatches
  apply List.filter_eq_self.mpr
  intro x hx
  rw [List.eq_of_mem_replicate hx]
  simp [h]

theorem sameEntries_nonEmpty_length (bs bs1 : List Batch)
    (h : List.Forall₂ (fun b b1 => b1.Entries = b.Entries) bs bs1) :
    (nonEmptyBatches bs1).length = (nonEmptyBatches bs).length := by
  induction h with
  | nil => rfl
  | @cons b b1 bs bs1 hb _ ih =>
    rw [nonEmptyBatches_cons, nonEmptyBatches_cons, Batch.isEmpty_congr b b1 hb]
    cases b.isEmpty <;> simp [ih]

/-- The batch count written for a file of one million non-empty batches: the
seven characters of `1000000` are copied to `[1:8)` and the block count then
overwrites byte 7, so `[1:7)` reads `100000`. -/
theorem stampFileControl_million (c : List Nat) (t : FileTotals) (n : Nat) (T : List Nat)
    (h : 43 ≤ c.length) (hb : t.bCount = 1000000) :
    field (stampFileControl c t n T) 1 7 = ascii "100000" := by
  unfold stampFileControl
  have l1 := overwrite_length c 1 (sprintf0 6 t.bCount) (by omega)
  have l2 := overwrite_length (overwrite c 1 (sprintf0 6 t.bCount)) 13 (sprintf0 8 t.eCount)
    (by rw [l1]; omega)
  rw [l1] at l2
  have l3 := overwrite_length (overwrite (overwrite c 1 (sprintf0 6 t.bCount)) 13
    (sprintf0 8 t.eCount)) 31 (sprintf0 12 t.debitTot) (by rw [l2]; omega)
  rw [l2] at l3
  have l4 := overwrite_length (overwrite (overwrite (overwrite c 1 (sprintf0 6 t.bCount)) 13
    (sprintf0 8 t.eCount)) 31 (sprintf0 12 t.debitTot)) 43 (sprintf0 12 t.creditTot)
    (by rw [l3]; omega)
  rw [l3] at l4
  have l5 := overwrite_length (overwrite (overwrite (overwrite (overwrite c 1
    (sprintf0 6 t.bCount)) 13 (sprintf0 8 t.eCount)) 31 (sprintf0 12 t.debitTot)) 43
    (sprintf0 12 t.creditTot)) 7
    (sprintf0 6 (((1 + t.bCount * 2 + t.eCount + n + 9) / 10 : Nat) : Int)) (by rw [l4]; omega)
  rw [l4] at l5
  rw [field_overwrite_disjoint _ _ _ _ _ (by rw [l5]; omega) (Or.inl (by omega)),
    field_overwrite_disjoint _ _ _ _ _ (by rw [l4]; omega) (Or.inl (by omega)),
    field_overwrite_disjoint _ _ _ _ _ (by rw [l3]; omega) (Or.inl (by omega)),
    field_overwrite_disjoint _ _ _ _ _ (by rw [l2]; omega) (Or.inl (by omega)),
    field_overwrite_disjoint _ _ _ _ _ (by rw [l1]; omega) (Or.inl (by omega))]
  have hs : sprintf0 6 ((t.bCount : Nat) : Int) = ascii "1000000" := by
    rw [hb]; decide
  rw [hs]
  have := field_overwrite_prefix c 1 6 (ascii "1000000") (by decide)
    (by have : (ascii "1000000").length = 7 := by decide
        omega)
  rw [this]
  decide

/-- What `Write` leaves in the file of one million copies of the sample
batch. -/
theorem sampleMillionFile_Write :
    ∃ nf1 out, sampleMillionFile.Write = .ok (nf1, out)
      ∧ (nonEmptyBatches nf1.Batches).length = 1000000
      ∧ field nf1.control0 1 7 = ascii "100000" := by
  have hmem : ∀ b ∈ sampleMillionFile.Batches, b = sampleBatch :=
    fun b hb => List.eq_of_mem_replicate hb
  obtain ⟨⟨nf1, out⟩, hw⟩ := Write_ok sampleMillionFile sampleFileControl [] rfl (by decide)
    (fun b hb => by rw [hmem b hb]; decide) (fun b hb => by rw [hmem b hb]; decide)
  obtain ⟨-, -, -, -, -, w6, w7, -⟩ := Write_spec sampleMillionFile nf1 out hw
  obtain ⟨t, c0, rest, H, T, ht, hc, -, -, hlen, hnf1⟩ := file_setControlTotals_inv _ _ w7
  dsimp only at ht hc hnf1
  have hctl := congrArg NachaFile.control hnf1
  dsimp only at hctl
  obtain ⟨c1, -⟩ := fileTotals_counts _ _ _ ht
  dsimp only at c1
  rw [Nat.zero_add] at c1
  have hse := batchWritten_entries _ _ w6
  obtain ⟨s1, -, -⟩ := sameEntries_totals sampleMillionFile.Batches nf1.Batches hse
  simp only [fileTotalsOf, FileTotals.mk.injEq] at s1
  obtain ⟨s1, -, -, -⟩ := s1
  have hcount : (countedBatches sampleMillionFile.Batches).length = 1000000 := by
    show (countedBatches (List.replicate 1000000 sampleBatch)).length = 1000000
    rw [countedBatches_replicate _ _ (by decide), List.length_replicate]
  have hne : (nonEmptyBatches sampleMillionFile.Batches).length = 1000000 := by
    show (nonEmptyBatches (List.replicate 1000000 sampleBatch)).length = 1000000
    rw [nonEmptyBatches_replicate _ _ (by decide), List.length_replicate]
  refine ⟨nf1, out, hw, ?_, ?_⟩
  · rw [sameEntries_nonEmpty_length _ _ hse, hne]
  · have h0 : nf1.control0 = stampFileControl c0 t sampleMillionFile.control.length T := by
      unfold NachaFile.control0
      rw [hctl]
      rfl
    rw [h0]
    exact stampFileControl_million c0 t _ T hlen (by rw [c1, s1, hcount])


/-- C19, counterexample: a file of one million batches, each with live entries
that hold a record.  `Write` returns and emits one million batches, but the
batch count it leaves at `control[0][1:7)` reads 100000: `Sprintf("%06d")`
renders seven characters and the field holds the first six. -/
theorem batch_count_overflows_field :
    (∀ b ∈ sampleMillionFile.Batches, ∀ e ∈ b.Entries, e.data ≠ [])
    ∧ ∃ nf1 out, sampleMillionFile.Write = .ok (nf1, out)
        ∧ (nonEmptyBatches nf1.Batches).length = 1000000
        ∧ digitsVal (field nf1.control0 1 7) = 100000
        ∧ digitsVal (field nf1.control0 1 7) ≠ (nonEmptyBatches nf1.Batches).length := by
  refine ⟨fun b hb => ?_, ?_⟩
  · rw [List.eq_of_mem_replicate hb]
    decide
  · obtain ⟨nf1, out, hw, h1, h2⟩ := sampleMillionFile_Write
    refine ⟨nf1, out, hw, h1, ?_, ?_⟩
    · rw [h2]; decide
    · rw [h2, h1]; decide




/-! ### Amount fields with a sign or a fraction -/

theorem readFloat_signed : readFloat (ascii "-000012345") = some (-12345) := by
  have hd : readDigits false (ascii "000012345")
      { m := 0, nd := 0, dp := 0, sawdot := false, sawdigits := false, underscores := false }
      = ({ m := 12345, nd := 5, dp := -4, sawdot := false, sawdigits := true,
           underscores := false }, []) := by decide
  have hs : dropSign (ascii "-000012345") = ascii "000012345" := by decide
  have hh : decide (2 < (ascii "000012345").length ∧ (ascii "000012345").head? = some 48
      ∧ ((ascii "000012345").get? 1).map lower = some 120) = false := by decide
  have hn : decide ((ascii "-000012345").head? = some 45) = true := by decide
  unfold readFloat
  simp only [hs, hh, hn, Bool.false_eq_true, if_false, hd]
  unfold finishFloat
  simp only [ne_eq, not_true_eq_false, if_false, Bool.false_eq_true, false_and, if_true]
  norm_num

theorem readFloat_fraction : readFloat (ascii "0001234.56") = some (30864 / 25) := by
  have hd : readDigits false (ascii "0001234.56")
      { m := 0, nd := 0, dp := 0, sawdot := false, sawdigits := false, underscores := false }
      = ({ m := 123456, nd := 6, dp := 4, sawdot := true, sawdigits := true,
           underscores := false }, []) := by decide
  have hs : dropSign (ascii "0001234.56") = ascii "0001234.56" := by decide
  have hh : decide (2 < (ascii "0001234.56").length ∧ (ascii "0001234.56").head? = some 48
      ∧ ((ascii "0001234.56").get? 1).map lower = some 120) = false := by decide
  have hn : decide ((ascii "0001234.56").head? = some 45) = false := by decide
  unfold readFloat
  simp only [hs, hh, hn, Bool.false_eq_true, if_false, hd]
  unfold finishFloat
  simp only [ne_eq, not_true_eq_false, if_false, Bool.false_eq_true, false_and, if_true]
  norm_num

theorem parseFloat_of_readFloat (s : List Nat) (x : ℚ) (h1 : special s = none)
    (h2 : readFloat s = some x) (h3 : |x| ≤ 10 ^ 20) :
    parseFloat s = some (Float64.fin (F64.round x)) := by
  unfold parseFloat
  rw [h1, h2]
  dsimp only
  rw [if_neg]
  rw [not_lt]
  have := F64.round_abs_le x
  have h4 := F64.maxFinite_ge
  have h5 : (10 : ℚ) ^ 20 ≤ 2 ^ 1000 := by norm_num
  have h6 : (2 : ℚ) * 2 ^ 1000 = 2 ^ 1001 := by norm_num
  linarith

/-- `ParseFloat` on the signed numeral `-000012345`. -/
theorem parseFloat_signed :
    parseFloat (ascii "-000012345") = some (Float64.fin (-12345)) := by
  rw [parseFloat_of_readFloat _ _ (by decide) readFloat_signed (by norm_num [abs_le])]
  have := F64.round_intCast (-12345) (by norm_num)
  push_cast at this
  rw [this]

/-- `ParseFloat` on the numeral `0001234.56`: the double nearest 1234.56. -/
theorem parseFloat_fraction :
    parseFloat (ascii "0001234.56") = some (Float64.fin (F64.round (30864 / 25))) :=
  parseFloat_of_readFloat _ _ (by decide) readFloat_fraction (by norm_num [abs_le])

/-- The debit branch on finite values: the results stay finite. -/
theorem Float64.debit_chain (a : ℚ) (ha : |a| ≤ 10 ^ 20)
    (h1 : -(2 ^ 63) ≤ F64.toInt (F64.mul (F64.add a F64.half_cent) 100))
    (h2 : F64.toInt (F64.mul (F64.add a F64.half_cent) 100) < 2 ^ 63) :
    Float64.toInt (Float64.mul (Float64.add (Float64.fin a) (Float64.fin F64.half_cent))
      (Float64.fin 100)) = F64.toInt (F64.mul (F64.add a F64.half_cent) 100) := by
  have hh := F64.half_cent_abs
  have hs1 : |a + F64.half_cent| ≤ 10 ^ 21 := by
    have := abs_add a F64.half_cent
    linarith
  have hs : |F64.add a F64.half_cent| ≤ 10 ^ 23 := by
    have := F64.round_abs_le (a + F64.half_cent)
    unfold F64.add
    linarith
  have hm : |F64.add a F64.half_cent * 100| ≤ 10 ^ 25 := by
    rw [abs_mul, abs_of_pos (show (0 : ℚ) < 100 by norm_num)]
    linarith
  rw [Float64.add_fin _ _ (F64.small_le _ (le_trans hs1 (by norm_num))),
    Float64.mul_fin _ _ (F64.small_le _ (le_trans hm (by norm_num))),
    Float64.toInt_fin _ h1 h2]

/-- The credit branch on finite values: the results stay finite. -/
theorem Float64.credit_chain (a : ℚ) (ha : |a| ≤ 10 ^ 20)
    (h1 : -(2 ^ 63) ≤ F64.toInt (F64.mul (F64.sub a F64.half_cent) (-100)))
    (h2 : F64.toInt (F64.mul (F64.sub a F64.half_cent) (-100)) < 2 ^ 63) :
    Float64.toInt (Float64.mul (Float64.sub (Float64.fin a) (Float64.fin F64.half_cent))
      (Float64.fin (-100))) = F64.toInt (F64.mul (F64.sub a F64.half_cent) (-100)) := by
  have hh := F64.half_cent_abs
  have hs1 : |a - F64.half_cent| ≤ 10 ^ 21 := by
    have := abs_sub a F64.half_cent
    linarith
  have hs : |F64.sub a F64.half_cent| ≤ 10 ^ 23 := by
    have := F64.round_abs_le (a - F64.half_cent)
    unfold F64.sub
    linarith
  have hm : |F64.sub a F64.half_cent * (-100)| ≤ 10 ^ 25 := by
    rw [abs_mul, abs_neg, abs_of_pos (show (0 : ℚ) < 100 by norm_num)]
    linarith
  rw [Float64.sub_fin _ _ (F64.small_le _ (le_trans hs1 (by norm_num))),
    Float64.mul_fin _ _ (F64.small_le _ (le_trans hm (by norm_num))),
    Float64.toInt_fin _ h1 h2]

/-- The amount 1234.56 read as cents: `postAmt` gives about 12.3456, and the
debit branch adds 1235. -/
theorem F64.cents_fraction :
    |F64.div (F64.round (30864 / 25)) 100| ≤ 20
    ∧ ¬ F64.div (F64.round (30864 / 25)) 100 < 0
    ∧ F64.toInt (F64.mul (F64.add (F64.div (F64.round (30864 / 25)) 100) F64.half_cent) 100)
        = 1235 := by
  have hh := abs_le.mp F64.half_cent_near
  have h0 := F64.round_near (30864 / 25) 2000 (by rw [abs_of_pos] <;> norm_num)
    (Or.inr (by rw [abs_of_pos] <;> norm_num))
  have h0 := abs_le.mp h0
  set r := F64.round (30864 / 25) with hr
  have h1 := F64.round_near (r / 100) 20
    (by rw [abs_of_nonneg (by linarith)]; linarith)
    (Or.inr (by rw [abs_of_nonneg (by linarith)]; linarith))
  have h1 := abs_le.mp h1
  unfold F64.div
  set q := F64.round (r / 100) with hq
  have h2 := F64.round_near (q + F64.half_cent) 20
    (by rw [abs_of_nonneg (by linarith)]; linarith)
    (Or.inr (by rw [abs_of_nonneg (by linarith)]; linarith))
  have h2 := abs_le.mp h2
  unfold F64.add
  set s := F64.round (q + F64.half_cent) with hs
  have h3 := F64.round_near (s * 100) 2000
    (by rw [abs_of_nonneg (by linarith)]; linarith)
    (Or.inr (by rw [abs_of_nonneg (by linarith)]; linarith))
  have h3 := abs_le.mp h3
  unfold F64.mul
  set p := F64.round (s * 100) with hp
  have hlo : (1235 : ℚ) ≤ p := by linarith
  have hhi : p < 1236 := by linarith
  refine ⟨by rw [abs_of_nonneg (by linarith)]; linarith, by linarith, ?_⟩
  unfold F64.toInt
  rw [if_pos (by linarith)]
  rw [Int.floor_eq_iff]
  constructor
  · exact_mod_cast hlo
  · exact_mod_cast hhi


theorem parseCurrency_plain (s : List Nat)
    (h : trimSpaces (s.filter (fun chr => chr != 44)) = s) :
    parseCurrency s = parseFloat s := by
  unfold parseCurrency
  rw [h]

/-- `postAmt` on an entry whose amount field parses. -/
theorem postAmt_of_parse (e : Entry) (d0 : List Nat) (rest : List (List Nat)) (amt : Float64)
    (hdata : e.data = d0 :: rest) (hlen : 39 ≤ d0.length)
    (hp : parseCurrency (field d0 29 39) = some amt) :
    e.postAmt = .ok (Float64.div
      (if field d0 1 3 ∈ creditCodes then Float64.mul amt (Float64.fin (-1)) else amt)
      (Float64.fin 100)) := by
  unfold Entry.postAmt
  rw [hdata, index_zero_cons]
  simp only [bind, Except.bind, slice_eq_field d0 29 39 (by omega) hlen,
    slice_eq_field d0 1 3 (by omega) (show 3 ≤ d0.length by omega), hp, pure, Except.pure]
  by_cases hcr : field d0 1 3 ∈ creditCodes
  · simp only [hcr, decide_True, if_true]
  · simp only [hcr, decide_False, if_false, Bool.false_eq_true]

/-- The step of `debitCreditTotals` on a live entry with a negative finite
amount. -/
theorem debitCreditStep_neg (tot : Int × Int) (e : Entry) (a : ℚ) (hr : e.Remove = false)
    (hp : e.postAmt = .ok (Float64.fin a)) (ha : a < 0) :
    debitCreditStep tot e = .ok (tot.1, wrap64 (tot.2 + Float64.toInt
      (Float64.mul (Float64.sub (Float64.fin a) (Float64.fin F64.half_cent))
        (Float64.fin (-100))))) := by
  unfold debitCreditStep
  rw [hp]
  simp only [hr, Bool.false_eq_true, if_false, Float64.isNeg, ha, decide_True, if_true,
    pure, Except.pure]

/-- The step of `debitCreditTotals` on a live entry with a finite amount that
is not negative. -/
theorem debitCreditStep_nonneg (tot : Int × Int) (e : Entry) (a : ℚ) (hr : e.Remove = false)
    (hp : e.postAmt = .ok (Float64.fin a)) (ha : ¬ a < 0) :
    debitCreditStep tot e = .ok (wrap64 (tot.1 + Float64.toInt
      (Float64.mul (Float64.add (Float64.fin a) (Float64.fin F64.half_cent))
        (Float64.fin 100))), tot.2) := by
  unfold debitCreditStep
  rw [hp]
  simp only [hr, Bool.false_eq_true, if_false, Float64.isNeg, ha, decide_False,
    pure, Except.pure]

theorem foldlM_pair {α β : Type} (f : β → α → Except Fault β) (x y : α) (b0 b1 b2 : β)
    (h1 : f b0 x = .ok b1) (h2 : f b1 y = .ok b2) : [x, y].foldlM f b0 = .ok b2 := by
  simp only [List.foldlM_cons, List.foldlM_nil, h1, h2, bind, Except.bind, pure, Except.pure]

theorem foldlM_single {α β : Type} (f : β → α → Except Fault β) (x : α) (b0 b1 : β)
    (h1 : f b0 x = .ok b1) : [x].foldlM f b0 = .ok b1 := by
  simp only [List.foldlM_cons, List.foldlM_nil, h1, bind, Except.bind, pure, Except.pure]

/-- `postAmt` on the entry with the signed amount field: a negative amount,
though the transaction code is a debit code. -/
theorem sampleSigned_postAmt :
    sampleSignedEntry.postAmt = .ok (Float64.fin (F64.div (-((12345 : ℕ) : ℚ)) 100)) := by
  have hf : field (sampleDetail "27" "09100005" "-000012345") 29 39 = ascii "-000012345" := by
    decide
  have hp : parseCurrency (field (sampleDetail "27" "09100005" "-000012345") 29 39)
      = some (Float64.fin (-12345)) := by
    rw [hf, parseCurrency_plain _ (by decide)]
    exact parseFloat_signed
  have h := postAmt_of_parse sampleSignedEntry (sampleDetail "27" "09100005" "-000012345") []
    (Float64.fin (-12345)) rfl (by decide) hp
  rw [if_neg (by decide),
    Float64.div_fin _ _ (by norm_num) (F64.small_le _ (by norm_num [abs_le]))] at h
  rw [h]
  norm_num

/-- `postAmt` on the entry with the fractional amount field. -/
theorem sampleFraction_postAmt :
    sampleFractionEntry.postAmt
      = .ok (Float64.fin (F64.div (F64.round (30864 / 25)) 100)) := by
  have hf : field (sampleDetail "27" "09100006" "0001234.56") 29 39 = ascii "0001234.56" := by
    decide
  have hp : parseCurrency (field (sampleDetail "27" "09100006" "0001234.56") 29 39)
      = some (Float64.fin (F64.round (30864 / 25))) := by
    rw [hf, parseCurrency_plain _ (by decide)]
    exact parseFloat_fraction
  have hr : |F64.round (30864 / 25) / 100| ≤ 10 ^ 30 := by
    have := F64.round_abs_le (30864 / 25)
    rw [abs_of_pos (show (0 : ℚ) < 30864 / 25 by norm_num)] at this
    rw [abs_div, abs_of_pos (show (0 : ℚ) < 100 by norm_num)]
    have h2 : |F64.round (30864 / 25)| / 100 ≤ |F64.round (30864 / 25)| := by
      apply div_le_self (abs_nonneg _); norm_num
    linarith
  have h := postAmt_of_parse sampleFractionEntry (sampleDetail "27" "09100006" "0001234.56") []
    (Float64.fin (F64.round (30864 / 25))) rfl (by decide) hp
  rw [if_neg (by decide), Float64.div_fin _ _ (by norm_num) (F64.small_le _ hr)] at h
  exact h

/-- The signed amount `-000012345` adds 12345 to the credit total. -/
theorem sampleSigned_step (tot : Int × Int) :
    debitCreditStep tot sampleSignedEntry = .ok (tot.1, wrap64 (tot.2 + 12345)) := by
  obtain ⟨hneg, -⟩ := F64.cents_credit 12345 (by norm_num) (by norm_num)
  have hc := Float64.credit_toInt 12345 (by norm_num) (by norm_num)
  rw [debitCreditStep_neg tot sampleSignedEntry _ rfl sampleSigned_postAmt hneg, hc]
  rfl

/-- The amount `0001234.56` adds 1235 to the debit total. -/
theorem sampleFraction_step (tot : Int × Int) :
    debitCreditStep tot sampleFractionEntry = .ok (wrap64 (tot.1 + 1235), tot.2) := by
  obtain ⟨hb, hnn, hval⟩ := F64.cents_fraction
  have hc := Float64.debit_chain (F64.div (F64.round (30864 / 25)) 100)
    (le_trans hb (by norm_num)) (by rw [hval]; norm_num) (by rw [hval]; norm_num)
  rw [hval] at hc
  rw [debitCreditStep_nonneg tot sampleFractionEntry _ rfl sampleFraction_postAmt hnn, hc]

/-- The totals of the batch whose amount fields are not plain digits. -/
theorem sampleNumeralBatch_totals :
    sampleNumeralBatch.debitCreditTotals = .ok (1235, 12345) := by
  have h := foldlM_pair debitCreditStep sampleSignedEntry sampleFractionEntry (0, 0)
    (0, wrap64 (0 + 12345)) (wrap64 (0 + 1235), wrap64 (0 + 12345)) (sampleSigned_step (0, 0))
    (sampleFraction_step (0, wrap64 (0 + 12345)))
  have e1 : wrap64 ((0 : Int) + 12345) = 12345 := by decide
  have e2 : wrap64 ((0 : Int) + 1235) = 1235 := by decide
  rw [e1, e2] at h
  exact h


theorem sampleNumeralBatch_setControlTotals :
    sampleNumeralBatch.setControlTotals = .ok sampleNumeralBatchSet := by
  rw [setControlTotals_eq sampleNumeralBatch 1235 12345 _ _ sampleNumeralBatch_totals
    (batch_hash_eq sampleNumeralBatch (by decide)) (lastBytes_sprintf0 _) (by decide)]
  decide

theorem fileTotalsStep_counted (t : FileTotals) (b : Batch) (D C : Int)
    (hc : b.entryCount ≠ 0) (hd : b.debitCreditTotals = .ok (D, C)) :
    fileTotalsStep t b = .ok (FileTotals.mk (t.bCount + 1) (t.eCount + b.entryCount)
      (wrap64 (t.debitTot + D)) (wrap64 (t.creditTot + C))) := by
  unfold fileTotalsStep
  simp only [hc, if_false, hd, bind, Except.bind, pure, Except.pure]

theorem fileTotalsStep_first (b : Batch) (D C : Int)
    (hc : b.entryCount ≠ 0) (hd : b.debitCreditTotals = .ok (D, C)) :
    fileTotalsStep { bCount := 0, eCount := 0, debitTot := 0, creditTot := 0 } b
      = .ok (FileTotals.mk 1 b.entryCount D C) := by
  obtain ⟨d1, d2, c1, c2⟩ := debitCreditTotals_range b D C hd
  rw [fileTotalsStep_counted _ b D C hc hd]
  simp only [Nat.zero_add, Int.zero_add, wrap64_of_range D d1 d2, wrap64_of_range C c1 c2]

theorem sampleNumeralFile_setControlTotals :
    NachaFile.setControlTotals { sampleNumeralFile with Batches := [sampleNumeralBatchSet] }
      = .ok sampleNumeralFileSet := by
  have ht := foldlM_single fileTotalsStep sampleNumeralBatchSet
    { bCount := 0, eCount := 0, debitTot := 0, creditTot := 0 } _
    (fileTotalsStep_first sampleNumeralBatchSet 1235 12345 (by decide)
      sampleNumeralBatch_totals)
  have hH := fileHash_foldlM [sampleNumeralBatchSet] 0 (by decide)
  rw [Int.zero_add] at hH
  rw [file_setControlTotals_eq _ _ sampleFileControl [] _ _ ht rfl hH (lastBytes_sprintf0 _)
    (by decide)]
  decide

/-- `Write` on the file whose amount fields are a signed and a fractional
numeral: it returns, with debit total 1235 and credit total 12345 in the batch
and file control records. -/
theorem sampleNumeralFile_Write :
    ∃ out, sampleNumeralFile.Write = .ok (sampleNumeralFileSet, out) :=
  Write_eq_of sampleNumeralFile sampleNumeralFileSet [sampleNumeralBatchSet] _
    (writeBatches_single false false _ _ sampleNumeralBatch sampleNumeralBatchSet
      (writeBatch_noRenumber false _ sampleNumeralBatch sampleNumeralBatchSet (by decide)
        sampleNumeralBatch_setControlTotals))
    sampleNumeralFile_setControlTotals


/-- Witness for C1: the sample file, with a batch holding two live entries and a
removed one, and a batch whose only entry is removed; and the file whose amount
fields hold the numerals -000012345 and 0001234.56, which is written as well. -/
theorem write_stream_structure_witness :
    (sampleOutput = sampleFile.header ++ ((nonEmptyBatches sampleFileSet.Batches).map
        Batch.bytes).flatten ++ sampleFileSet.control.flatten
        ++ List.replicate (94 * fillerCount sampleFileSet.nonFillerRecords.length) 57
      ∧ fillerCount sampleFileSet.nonFillerRecords.length = 3)
    ∧ ∃ out, sampleNumeralFile.Write = .ok (sampleNumeralFileSet, out)
        ∧ out = sampleNumeralFile.header ++ ((nonEmptyBatches sampleNumeralFileSet.Batches).map
            Batch.bytes).flatten ++ sampleNumeralFileSet.control.flatten
          ++ List.replicate (94 * fillerCount sampleNumeralFileSet.nonFillerRecords.length) 57
        ∧ fillerCount sampleNumeralFileSet.nonFillerRecords.length = 4 :=
  ⟨⟨((write_stream_structure sampleFile (by decide) (by decide) (by decide) rfl).1 sampleFileSet
      sampleOutput sampleFile_Write).1, by decide⟩,
   sampleNumeralFile_Write.elim fun out h =>
     ⟨out, h, ((write_stream_structure sampleNumeralFile (by decide) (by decide) (by decide)
        rfl).1 sampleNumeralFileSet out h).1, by decide⟩⟩

/-- Witness for C2: the sample file emits seven records and three filler
records; the file whose amount fields hold the numerals -000012345 and
0001234.56 emits six records and four filler records. -/
theorem write_filler_count_witness :
    (sampleOutput = streamOf false sampleFileSet.nonFillerRecords
        ++ streamOf false (List.replicate (10 - sampleFileSet.nonFillerRecords.length % 10)
            fillerRecord)
      ∧ sampleFileSet.nonFillerRecords.length = 7)
    ∧ ∃ out, sampleNumeralFile.Write = .ok (sampleNumeralFileSet, out)
        ∧ out = streamOf false sampleNumeralFileSet.nonFillerRecords
          ++ streamOf false
            (List.replicate (10 - sampleNumeralFileSet.nonFillerRecords.length % 10)
              fillerRecord)
        ∧ sampleNumeralFileSet.nonFillerRecords.length = 6 :=
  ⟨⟨(write_filler_count sampleFile sampleFileSet sampleOutput sampleFile_Write).1, by decide⟩,
   sampleNumeralFile_Write.elim fun out h =>
     ⟨out, h, (write_filler_count sampleNumeralFile sampleNumeralFileSet out h).1, by decide⟩⟩

/-- Witness for C6: the sample batch, whose live entries carry 09100001 and
09100002; and the batch whose amount fields hold the numerals -000012345 and
0001234.56, whose live entries carry 09100005 and 09100006. -/
theorem batch_entry_hash_witness :
    (field sampleBatchControlSet 10 20 = lastDigits 10 (sampleBatch.hashSum % 10 ^ 10)
      ∧ field sampleBatchControlSet 10 20 = ascii "0018200003")
    ∧ field sampleNumeralBatchSet.control 10 20
        = lastDigits 10 (sampleNumeralBatch.hashSum % 10 ^ 10)
    ∧ field sampleNumeralBatchSet.control 10 20 = ascii "0018200011" := by
  have h := (batch_entry_hash sampleBatch (by decide)).1
    { sampleBatch with control := sampleBatchControlSet } sampleBatch_setControlTotals
  have h2 := (batch_entry_hash sampleNumeralBatch (by decide)).1
    sampleNumeralBatchSet sampleNumeralBatch_setControlTotals
  exact ⟨⟨h.1, by decide⟩, h2.1, by decide⟩

/-- Witness for C8: the sample batch and the sample file, before and after a
first call; and the batch whose amount fields hold the numerals -000012345 and
0001234.56, after a first call. -/
theorem setControlTotals_idempotent_witness :
    (∃ b1, sampleBatch.setControlTotals = .ok b1 ∧ b1.setControlTotals = .ok b1)
    ∧ Batch.setControlTotals { sampleBatch with control := sampleBatchControlSet }
      = .ok { sampleBatch with control := sampleBatchControlSet }
    ∧ (∃ nf1, sampleFile.setControlTotals = .ok nf1 ∧ nf1.setControlTotals = .ok nf1)
    ∧ NachaFile.setControlTotals { sampleFile with control := [sampleFileControlSet] }
      = .ok { sampleFile with control := [sampleFileControlSet] }
    ∧ sampleNumeralBatchSet.setControlTotals = .ok sampleNumeralBatchSet :=
  ⟨setControlTotals_idempotent.1 sampleBatch (by decide)
     (Batch.parseable_of_fieldsOk sampleBatch (by decide)),
   setControlTotals_idempotent.2.1 sampleBatch _ sampleBatch_setControlTotals,
   setControlTotals_idempotent.2.2.1 sampleFile sampleFileControl [] rfl (by decide)
     (fun b hb => Batch.parseable_of_fieldsOk b
       ((by decide : ∀ b ∈ sampleFile.Batches, b.FieldsOk) b hb)),
   setControlTotals_idempotent.2.2.2 sampleFile _ sampleFile_setControlTotals,
   setControlTotals_idempotent.2.1 sampleNumeralBatch _ sampleNumeralBatch_setControlTotals⟩



/-- The live entries and the sums of cents of a batch of `n` copies of a live
debit entry. -/
theorem replicate_debit_sums (n : Nat) (e : Entry) (b : Batch) (hb : b.Entries = List.replicate n e)
    (hr : e.Remove = false) (hc : e.isCredit = false) :
    b.live = List.replicate n e ∧ b.debitCents = n * e.cents ∧ b.creditCents = 0 := by
  have hl : b.live = List.replicate n e := by
    unfold Batch.live
    rw [hb]
    apply List.filter_eq_self.mpr
    intro x hx
    rw [List.eq_of_mem_replicate hx]
    simp [hr]
  refine ⟨hl, ?_, ?_⟩
  · unfold Batch.debitCents
    rw [hl]
    have : (List.replicate n e).filter (fun e => !e.isCredit) = List.replicate n e := by
      apply List.filter_eq_self.mpr
      intro x hx
      rw [List.eq_of_mem_replicate hx]
      simp [hc]
    rw [this, List.map_replicate, List.sum_replicate, smul_eq_mul]
  · unfold Batch.creditCents
    rw [hl]
    have : (List.replicate n e).filter (fun e => e.isCredit) = [] := by
      apply List.filter_eq_nil_iff.mpr
      intro x hx
      rw [List.eq_of_mem_replicate hx]
      simp [hc]
    rw [this]
    rfl

theorem sampleMaxEntry_cents : sampleMaxEntry.cents = 9999999999 := by decide

theorem wrap64_huge :
    wrap64 (((922337204 * 9999999999 : Nat) : Int)) = -9223372034631888820 := by
  unfold wrap64
  norm_num

/-- Counterexample to C5 as stated: a batch of 922337204 live debit entries with
ten-digit amount fields of 9999999999 cents.  The sum of the amount fields is
9223372039077662796, and `debitCreditTotals` returns the debit total
-9223372034631888820. -/
theorem debit_total_wraps_around :
    (∀ e ∈ sampleHugeBatch.live, e.AmountOk)
    ∧ sampleHugeBatch.debitCents = 9223372039077662796
    ∧ sampleHugeBatch.creditCents = 0
    ∧ sampleHugeBatch.debitCreditTotals = .ok (-9223372034631888820, 0)
    ∧ sampleHugeBatch.debitCreditTotals
        ≠ .ok ((sampleHugeBatch.debitCents : Int), (sampleHugeBatch.creditCents : Int)) := by
  obtain ⟨hl, hd, hc⟩ := replicate_debit_sums 922337204 sampleMaxEntry sampleHugeBatch rfl rfl
    (by decide)
  have ha : ∀ e ∈ sampleHugeBatch.live, e.AmountOk := by
    intro e he
    rw [hl] at he
    rw [List.eq_of_mem_replicate he]
    decide
  have ht := debitCreditTotals_wrap sampleHugeBatch ha
  rw [hd, hc, sampleMaxEntry_cents] at ht
  have hz : wrap64 ((0 : Nat) : Int) = 0 := by decide
  rw [wrap64_huge, hz] at ht
  have hd2 : sampleHugeBatch.debitCents = 9223372039077662796 := by
    rw [hd, sampleMaxEntry_cents]
  refine ⟨ha, hd2, hc, ht, ?_⟩
  rw [ht, hd2, hc]
  intro h
  simp only [Except.ok.injEq, Prod.mk.injEq] at h
  omega


end Nacha
